import Mathlib

/-!
Verification development for the `open-pulse-quickstart` repository
(`src/neo4j-quickstart`).  We shallowly embed the pure core of the
pipeline:

* `utils/models.py`      — pydantic entity models and `GraphData`
* `utils/builder_models.py` — `df_to_pydantic_models` (flat rows → graph)
* `utils/builder_dataframe.py` — `neo4j_to_dataframe` (extractor output → flat rows)
* `utils/visualization.py` — `create_networkx_graph`, the empty-graph guard of
  `visualize_graph`, and the cluster splitting of `visualize_clusters`

Python dictionaries are embedded as insertion-ordered association lists;
Python exceptions (KeyError / AttributeError) surface as `Option.none`
results of the embedded functions.
-/

namespace OpenPulse

/-! ### Association-list dictionaries (Python `dict` semantics) -/

/-- First-match lookup in an association list (Python `d[k]` / `d.get(k)`). -/
def lookupA {κ α : Type} [DecidableEq κ] : List (κ × α) → κ → Option α
  | [], _ => none
  | (k', v) :: rest, k => if k' = k then some v else lookupA rest k

/-- Python `k in d` key-membership test. -/
def containsKey {κ α : Type} [DecidableEq κ] (m : List (κ × α)) (k : κ) : Bool :=
  (lookupA m k).isSome

/-- Replace the value stored at key `k` in place, point-wise (`d[k].field = v`
on an existing entry keeps the entry's position). -/
def modifyA {κ α : Type} [DecidableEq κ] : List (κ × α) → κ → (α → α) → List (κ × α)
  | [], _, _ => []
  | (k', v) :: rest, k, f =>
    if k' = k then (k', f v) :: modifyA rest k f else (k', v) :: modifyA rest k f

/-- Python `d[k] = v`: update in place when the key exists, append otherwise. -/
def dictInsert {κ α : Type} [DecidableEq κ] (m : List (κ × α)) (k : κ) (v : α) :
    List (κ × α) :=
  if containsKey m k then modifyA m k (fun _ => v) else m ++ [(k, v)]

/-- The list of keys of a dictionary. -/
def keysOf {κ α : Type} (m : List (κ × α)) : List κ := m.map Prod.fst

@[simp] theorem lookupA_nil {κ α : Type} [DecidableEq κ] (k : κ) :
    lookupA ([] : List (κ × α)) k = none := rfl

@[simp] theorem lookupA_cons {κ α : Type} [DecidableEq κ] (k' k : κ) (v : α) (m : List (κ × α)) :
    lookupA ((k', v) :: m) k = if k' = k then some v else lookupA m k := rfl

theorem lookupA_append {κ α : Type} [DecidableEq κ] (m m' : List (κ × α)) (k : κ) :
    lookupA (m ++ m') k = ((lookupA m k).orElse (fun _ => lookupA m' k)) := by
  induction m with
  | nil => simp
  | cons p rest ih =>
    obtain ⟨k', v⟩ := p
    by_cases h : k' = k <;> simp [h, ih, Option.orElse]

theorem lookupA_modifyA_self {κ α : Type} [DecidableEq κ] (m : List (κ × α)) (k : κ)
    (f : α → α) (v : α) (h : lookupA m k = some v) :
    lookupA (modifyA m k f) k = some (f v) := by
  induction m with
  | nil => simp at h
  | cons p rest ih =>
    obtain ⟨k', v'⟩ := p
    by_cases hk : k' = k
    · subst hk
      simp only [lookupA_cons, if_pos rfl] at h
      cases h
      simp [modifyA, lookupA]
    · simp only [lookupA_cons, if_neg hk] at h
      simp [modifyA, lookupA, hk, ih h]

theorem lookupA_modifyA_ne {κ α : Type} [DecidableEq κ] (m : List (κ × α)) (k k' : κ)
    (f : α → α) (h : k ≠ k') :
    lookupA (modifyA m k f) k' = lookupA m k' := by
  induction m with
  | nil => simp [modifyA]
  | cons p rest ih =>
    obtain ⟨k₀, v₀⟩ := p
    by_cases hk : k₀ = k
    · subst hk
      simp [modifyA, lookupA, h, ih]
    · by_cases hk' : k₀ = k' <;> simp [modifyA, lookupA, hk, hk', Ne.symm h, ih]

theorem lookupA_modifyA_none {κ α : Type} [DecidableEq κ] (m : List (κ × α)) (k k' : κ)
    (f : α → α) (h : lookupA m k' = none) :
    lookupA (modifyA m k f) k' = none := by
  by_cases hk : k = k'
  · subst hk
    induction m with
    | nil => simp [modifyA]
    | cons p rest ih =>
      obtain ⟨k₀, v₀⟩ := p
      by_cases h₀ : k₀ = k
      · subst h₀; simp at h
      · simp only [lookupA_cons, if_neg h₀] at h
        simp [modifyA, lookupA, h₀, ih h]
  · rw [lookupA_modifyA_ne _ _ _ _ hk]; exact h

@[simp] theorem keysOf_modifyA {κ α : Type} [DecidableEq κ] (m : List (κ × α)) (k : κ)
    (f : α → α) : keysOf (modifyA m k f) = keysOf m := by
  induction m with
  | nil => rfl
  | cons p rest ih =>
    obtain ⟨k₀, v₀⟩ := p
    by_cases h₀ : k₀ = k <;> simp [modifyA, keysOf, h₀] <;>
      simpa [keysOf] using ih

theorem containsKey_iff_mem_keys {κ α : Type} [DecidableEq κ] (m : List (κ × α)) (k : κ) :
    containsKey m k = true ↔ k ∈ keysOf m := by
  induction m with
  | nil => simp [containsKey, keysOf]
  | cons p rest ih =>
    obtain ⟨k₀, v₀⟩ := p
    by_cases h₀ : k₀ = k
    · subst h₀; simp [containsKey, keysOf, lookupA]
    · simp [containsKey, keysOf, lookupA, h₀, Ne.symm h₀] at ih ⊢
      exact ih

theorem lookupA_isSome_of_append_right {κ α : Type} [DecidableEq κ]
    (m : List (κ × α)) (k : κ) (v : α) :
    (lookupA (m ++ [(k, v)]) k).isSome = true := by
  rw [lookupA_append]
  cases h : lookupA m k <;> simp [Option.orElse, lookupA]

/-! ### Entity models (`utils/models.py`)

The pydantic classes `UserModel`, `OrgModel`, `RepoModel`.  The constant
`type` discriminator field is omitted (it is never read by the embedded
code paths); ids are embedded as `Int` (Python `int`). -/

structure UserModel where
  name : String := ""
  id : Int := 0
  owner_of : List String := []
  contributor_of : List String := []
  deriving Repr, DecidableEq

structure OrgModel where
  name : String := ""
  id : Int := 0
  members : List String := []
  owner_of : List String := []
  contributor_of : List String := []
  deriving Repr, DecidableEq

structure RepoModel where
  name : String := ""
  id : Int := 0
  contributors : List String := []
  owner : String := ""
  parent_of : List String := []
  deriving Repr, DecidableEq

/-- `GraphData`: three name-keyed mappings (`models.py`). -/
structure GraphData where
  users : List (String × UserModel) := []
  orgs : List (String × OrgModel) := []
  repos : List (String × RepoModel) := []
  deriving Repr, DecidableEq

def GraphData.empty : GraphData := {}

/-- `GraphData.add_user` (`models.py` lines 63-69): create the entity on first
sight; on a repeated name refresh the id only when the new id is truthy
(non-zero). -/
def GraphData.add_user (g : GraphData) (name : String) (id_ : Int) : GraphData :=
  match lookupA g.users name with
  | none => { g with users := g.users ++ [(name, { name := name, id := id_ })] }
  | some _ =>
    if id_ ≠ 0 then { g with users := modifyA g.users name (fun u => { u with id := id_ }) }
    else g

/-- `GraphData.add_org` (`models.py` lines 71-77). -/
def GraphData.add_org (g : GraphData) (name : String) (id_ : Int) : GraphData :=
  match lookupA g.orgs name with
  | none => { g with orgs := g.orgs ++ [(name, { name := name, id := id_ })] }
  | some _ =>
    if id_ ≠ 0 then { g with orgs := modifyA g.orgs name (fun o => { o with id := id_ }) }
    else g

/-- `GraphData.add_repo` (`models.py` lines 79-85). -/
def GraphData.add_repo (g : GraphData) (name : String) (id_ : Int) : GraphData :=
  match lookupA g.repos name with
  | none => { g with repos := g.repos ++ [(name, { name := name, id := id_ })] }
  | some _ =>
    if id_ ≠ 0 then { g with repos := modifyA g.repos name (fun r => { r with id := id_ }) }
    else g

/-! ### Flat rows and the relationship schema -/

/-- One flat row of the dataframe produced by `neo4j_to_dataframe`
(columns at `builder_dataframe.py` lines 39-47). -/
structure Row where
  source : String
  target : String
  property : String
  source_type : String
  target_type : String
  source_id : Int
  target_id : Int
  deriving Repr, DecidableEq

/-- One `{"source": ..., "target": ...}` variant record of the relationship
schema (`quickstart.py` lines 24-37). -/
structure RelInfo where
  source : String
  target : String
  deriving Repr, DecidableEq

/-- The relationship schema: relationship kind → variant name → endpoint types. -/
abbrev Schema := List (String × List (String × RelInfo))

/-- The concrete `relationships` dictionary of `quickstart.py` lines 24-37. -/
def stdRelationships : Schema :=
  [ ("member_of", [("type1", ⟨"user", "org"⟩)]),
    ("owner_of", [("type1", ⟨"user", "repo"⟩), ("type2", ⟨"org", "repo"⟩)]),
    ("contributor_of", [("type1", ⟨"user", "repo"⟩), ("type2", ⟨"org", "repo"⟩)]),
    ("parent_of", [("type1", ⟨"repo", "repo"⟩)]) ]

/-! ### The graph builder (`utils/builder_models.py`) -/

/-- The entity-type dispatch recognizes exactly `user`, `org`, `repo`
(`builder_models.py` lines 27-43). -/
def isEntityType (t : String) : Bool :=
  t = "user" || t = "org" || t = "repo"

/-- Create-or-update of one endpoint entity by type dispatch
(`builder_models.py` lines 27-43); the caller guarantees `isEntityType ty`. -/
def addEndpoint (g : GraphData) (ty : String) (n : String) (i : Int) : GraphData :=
  if ty = "user" then g.add_user n i
  else if ty = "org" then g.add_org n i
  else g.add_repo n i

/-- `target_obj.members.append(source)` (`builder_models.py` line 47). -/
def GraphData.orgAddMember (g : GraphData) (k s : String) : GraphData :=
  { g with orgs := modifyA g.orgs k (fun o => { o with members := o.members ++ [s] }) }

/-- `source_obj.owner_of.append(target)` on a user (`builder_models.py` line 51). -/
def GraphData.userAddOwned (g : GraphData) (k t : String) : GraphData :=
  { g with users := modifyA g.users k (fun u => { u with owner_of := u.owner_of ++ [t] }) }

/-- `source_obj.owner_of.append(target)` on an org (`builder_models.py` line 51). -/
def GraphData.orgAddOwned (g : GraphData) (k t : String) : GraphData :=
  { g with orgs := modifyA g.orgs k (fun o => { o with owner_of := o.owner_of ++ [t] }) }

/-- `graph.repos[target].owner = source` (`builder_models.py` line 52). -/
def GraphData.setRepoOwner (g : GraphData) (k s : String) : GraphData :=
  { g with repos := modifyA g.repos k (fun r => { r with owner := s }) }

/-- `source_obj.contributor_of.append(target)` on a user (`builder_models.py` line 56). -/
def GraphData.userAddContrib (g : GraphData) (k t : String) : GraphData :=
  { g with users := modifyA g.users k (fun u => { u with contributor_of := u.contributor_of ++ [t] }) }

/-- `source_obj.contributor_of.append(target)` on an org (`builder_models.py` line 56). -/
def GraphData.orgAddContrib (g : GraphData) (k t : String) : GraphData :=
  { g with orgs := modifyA g.orgs k (fun o => { o with contributor_of := o.contributor_of ++ [t] }) }

/-- `graph.repos[target].contributors.append(source)` (`builder_models.py` line 57). -/
def GraphData.repoAddContributor (g : GraphData) (k s : String) : GraphData :=
  { g with repos := modifyA g.repos k (fun r => { r with contributors := r.contributors ++ [s] }) }

/-- `graph.repos[source].parent_of.append(target)` (`builder_models.py` line 60). -/
def GraphData.repoAddParent (g : GraphData) (k t : String) : GraphData :=
  { g with repos := modifyA g.repos k (fun r => { r with parent_of := r.parent_of ++ [t] }) }

/-- The relationship-specific denormalization of one row
(`builder_models.py` lines 45-60), executed after both endpoints were
resolved into `g`.  `none` models a raised Python exception:
`owner_of` / `contributor_of` with a `repo` source reads
`source_obj.owner_of` / `source_obj.contributor_of`, attributes that
`RepoModel` does not define (`AttributeError`), and `parent_of` reads
`graph.repos[source]` unguarded (`KeyError` when the source name is not a
repo key). -/
def applyRel (g : GraphData) (row : Row) : Option GraphData :=
  if row.property = "member_of" ∧ row.source_type = "user" ∧ row.target_type = "org" then
    some (g.orgAddMember row.target row.source)
  else if row.property = "owner_of" then
    if row.target_type = "repo" then
      if row.source_type = "user" then
        some ((g.userAddOwned row.source row.target).setRepoOwner row.target row.source)
      else if row.source_type = "org" then
        some ((g.orgAddOwned row.source row.target).setRepoOwner row.target row.source)
      else none
    else some g
  else if row.property = "contributor_of" then
    if row.target_type = "repo" then
      if row.source_type = "user" then
        some ((g.userAddContrib row.source row.target).repoAddContributor row.target row.source)
      else if row.source_type = "org" then
        some ((g.orgAddContrib row.source row.target).repoAddContributor row.target row.source)
      else none
    else some g
  else if row.property = "parent_of" then
    match lookupA g.repos row.source with
    | none => none
    | some _ => some (g.repoAddParent row.source row.target)
  else some g

/-- Processing of one dataframe row by `df_to_pydantic_models`
(`builder_models.py` lines 13-60): skip unrecognized relationship kinds,
resolve/create both endpoints by type dispatch (an unrecognized source type
skips before any mutation, an unrecognized target type skips after the
source entity was resolved), then apply the relationship logic. -/
def processRow (rels : Schema) (g : GraphData) (row : Row) : Option GraphData :=
  if ¬ containsKey rels row.property then some g
  else if ¬ isEntityType row.source_type then some g
  else
    let g1 := addEndpoint g row.source_type row.source row.source_id
    if ¬ isEntityType row.target_type then some g1
    else applyRel (addEndpoint g1 row.target_type row.target row.target_id) row

/-- `df_to_pydantic_models` (`builder_models.py` lines 5-62): fold the flat
rows into a fresh `GraphData`; a raised exception aborts the whole build. -/
def df_to_pydantic_models (rows : List Row) (rels : Schema) : Option GraphData :=
  rows.foldlM (processRow rels) GraphData.empty

/-! ### Lemma kit for the dictionary primitives -/

theorem lookupA_append_self {κ α : Type} [DecidableEq κ] (m : List (κ × α)) (k : κ) (v : α)
    (h : lookupA m k = none) : lookupA (m ++ [(k, v)]) k = some v := by
  rw [lookupA_append, h]
  simp [Option.orElse, lookupA]

theorem lookupA_append_ne {κ α : Type} [DecidableEq κ] (m : List (κ × α)) (k k' : κ) (v : α)
    (h : k ≠ k') : lookupA (m ++ [(k, v)]) k' = lookupA m k' := by
  rw [lookupA_append]
  cases hm : lookupA m k' <;> simp [Option.orElse, lookupA, h]

theorem keysOf_append {κ α : Type} (m : List (κ × α)) (k : κ) (v : α) :
    keysOf (m ++ [(k, v)]) = keysOf m ++ [k] := by
  simp [keysOf]

theorem lookupA_none_iff_not_mem_keys {κ α : Type} [DecidableEq κ] (m : List (κ × α)) (k : κ) :
    lookupA m k = none ↔ k ∉ keysOf m := by
  have := containsKey_iff_mem_keys m k
  unfold containsKey at this
  constructor
  · intro h hk
    rw [← this] at hk
    rw [h] at hk
    simp at hk
  · intro hk
    cases h : lookupA m k with
    | none => rfl
    | some v => exact absurd (this.mp (by rw [h]; rfl)) hk

theorem mem_keys_of_lookupA_some {κ α : Type} [DecidableEq κ] {m : List (κ × α)} {k : κ} {v : α}
    (h : lookupA m k = some v) : k ∈ keysOf m := by
  by_contra hk
  rw [← lookupA_none_iff_not_mem_keys] at hk
  rw [h] at hk
  cases hk

/-! ### Lemma kit for `add_user` / `add_org` / `add_repo` -/

@[simp] theorem add_user_orgs (g : GraphData) (n : String) (i : Int) :
    (g.add_user n i).orgs = g.orgs := by
  unfold GraphData.add_user
  cases lookupA g.users n <;> simp <;> split <;> rfl

@[simp] theorem add_user_repos (g : GraphData) (n : String) (i : Int) :
    (g.add_user n i).repos = g.repos := by
  unfold GraphData.add_user
  cases lookupA g.users n <;> simp <;> split <;> rfl

@[simp] theorem add_org_users (g : GraphData) (n : String) (i : Int) :
    (g.add_org n i).users = g.users := by
  unfold GraphData.add_org
  cases lookupA g.orgs n <;> simp <;> split <;> rfl

@[simp] theorem add_org_repos (g : GraphData) (n : String) (i : Int) :
    (g.add_org n i).repos = g.repos := by
  unfold GraphData.add_org
  cases lookupA g.orgs n <;> simp <;> split <;> rfl

@[simp] theorem add_repo_users (g : GraphData) (n : String) (i : Int) :
    (g.add_repo n i).users = g.users := by
  unfold GraphData.add_repo
  cases lookupA g.repos n <;> simp <;> split <;> rfl

@[simp] theorem add_repo_orgs (g : GraphData) (n : String) (i : Int) :
    (g.add_repo n i).orgs = g.orgs := by
  unfold GraphData.add_repo
  cases lookupA g.repos n <;> simp <;> split <;> rfl

theorem add_user_lookup_ne (g : GraphData) (n m : String) (i : Int) (h : m ≠ n) :
    lookupA (g.add_user n i).users m = lookupA g.users m := by
  unfold GraphData.add_user
  cases lookupA g.users n with
  | none => simp [lookupA_append_ne _ _ _ _ (Ne.symm h)]
  | some u =>
    by_cases hi : i ≠ 0 <;> simp [hi, lookupA_modifyA_ne _ _ _ _ (Ne.symm h)]

theorem add_org_lookup_ne (g : GraphData) (n m : String) (i : Int) (h : m ≠ n) :
    lookupA (g.add_org n i).orgs m = lookupA g.orgs m := by
  unfold GraphData.add_org
  cases lookupA g.orgs n with
  | none => simp [lookupA_append_ne _ _ _ _ (Ne.symm h)]
  | some o =>
    by_cases hi : i ≠ 0 <;> simp [hi, lookupA_modifyA_ne _ _ _ _ (Ne.symm h)]

theorem add_repo_lookup_ne (g : GraphData) (n m : String) (i : Int) (h : m ≠ n) :
    lookupA (g.add_repo n i).repos m = lookupA g.repos m := by
  unfold GraphData.add_repo
  cases lookupA g.repos n with
  | none => simp [lookupA_append_ne _ _ _ _ (Ne.symm h)]
  | some r =>
    by_cases hi : i ≠ 0 <;> simp [hi, lookupA_modifyA_ne _ _ _ _ (Ne.symm h)]

/-- `add_user` at the key itself: either the entity is created fresh with empty
lists, or an existing entity survives with every field except `id` intact. -/
theorem add_user_lookup_self (g : GraphData) (n : String) (i : Int) :
    (lookupA g.users n = none ∧
      lookupA (g.add_user n i).users n = some { name := n, id := i }) ∨
    (∃ u u', lookupA g.users n = some u ∧ lookupA (g.add_user n i).users n = some u' ∧
      u'.name = u.name ∧ u'.owner_of = u.owner_of ∧ u'.contributor_of = u.contributor_of) := by
  unfold GraphData.add_user
  cases hu : lookupA g.users n with
  | none => exact Or.inl ⟨rfl, by simp [lookupA_append_self _ _ _ hu]⟩
  | some u =>
    refine Or.inr ?_
    by_cases hi : i ≠ 0
    · exact ⟨u, { u with id := i }, rfl, by simp [hi, lookupA_modifyA_self _ _ _ _ hu], rfl,
        rfl, rfl⟩
    · exact ⟨u, u, rfl, by simp [hi, hu], rfl, rfl, rfl⟩

theorem add_org_lookup_self (g : GraphData) (n : String) (i : Int) :
    (lookupA g.orgs n = none ∧
      lookupA (g.add_org n i).orgs n = some { name := n, id := i }) ∨
    (∃ o o', lookupA g.orgs n = some o ∧ lookupA (g.add_org n i).orgs n = some o' ∧
      o'.name = o.name ∧ o'.members = o.members ∧ o'.owner_of = o.owner_of ∧
      o'.contributor_of = o.contributor_of) := by
  unfold GraphData.add_org
  cases ho : lookupA g.orgs n with
  | none => exact Or.inl ⟨rfl, by simp [lookupA_append_self _ _ _ ho]⟩
  | some o =>
    refine Or.inr ?_
    by_cases hi : i ≠ 0
    · exact ⟨o, { o with id := i }, rfl, by simp [hi, lookupA_modifyA_self _ _ _ _ ho], rfl,
        rfl, rfl, rfl⟩
    · exact ⟨o, o, rfl, by simp [hi, ho], rfl, rfl, rfl, rfl⟩

theorem add_repo_lookup_self (g : GraphData) (n : String) (i : Int) :
    (lookupA g.repos n = none ∧
      lookupA (g.add_repo n i).repos n = some { name := n, id := i }) ∨
    (∃ r r', lookupA g.repos n = some r ∧ lookupA (g.add_repo n i).repos n = some r' ∧
      r'.name = r.name ∧ r'.contributors = r.contributors ∧ r'.owner = r.owner ∧
      r'.parent_of = r.parent_of) := by
  unfold GraphData.add_repo
  cases hr : lookupA g.repos n with
  | none => exact Or.inl ⟨rfl, by simp [lookupA_append_self _ _ _ hr]⟩
  | some r =>
    refine Or.inr ?_
    by_cases hi : i ≠ 0
    · exact ⟨r, { r with id := i }, rfl, by simp [hi, lookupA_modifyA_self _ _ _ _ hr], rfl,
        rfl, rfl, rfl⟩
    · exact ⟨r, r, rfl, by simp [hi, hr], rfl, rfl, rfl, rfl⟩

theorem containsKey_modifyA {κ α : Type} [DecidableEq κ] (m : List (κ × α)) (k j : κ)
    (f : α → α) : containsKey (modifyA m k f) j = containsKey m j := by
  unfold containsKey
  cases hj : lookupA m j with
  | none => rw [lookupA_modifyA_none _ _ _ _ hj]
  | some v =>
    by_cases hk : k = j
    · subst hk
      rw [lookupA_modifyA_self _ _ f _ hj]
      rfl
    · rw [lookupA_modifyA_ne _ _ _ _ hk, hj]

theorem containsKey_append_right {κ α : Type} [DecidableEq κ] (m : List (κ × α)) (k j : κ)
    (v : α) (h : containsKey m j = true) : containsKey (m ++ [(k, v)]) j = true := by
  rw [containsKey_iff_mem_keys] at h ⊢
  rw [keysOf_append]
  exact List.mem_append_left _ h

theorem add_user_containsKey_self (g : GraphData) (n : String) (i : Int) :
    containsKey (g.add_user n i).users n = true := by
  unfold GraphData.add_user
  cases hu : lookupA g.users n with
  | none => simpa [containsKey] using lookupA_isSome_of_append_right g.users n _
  | some u =>
    by_cases hi : i = 0
    · simp [hi, containsKey, hu]
    · simp [hi, containsKey, lookupA_modifyA_self _ _ _ _ hu]

theorem add_org_containsKey_self (g : GraphData) (n : String) (i : Int) :
    containsKey (g.add_org n i).orgs n = true := by
  unfold GraphData.add_org
  cases ho : lookupA g.orgs n with
  | none => simpa [containsKey] using lookupA_isSome_of_append_right g.orgs n _
  | some o =>
    by_cases hi : i = 0
    · simp [hi, containsKey, ho]
    · simp [hi, containsKey, lookupA_modifyA_self _ _ _ _ ho]

theorem add_repo_containsKey_self (g : GraphData) (n : String) (i : Int) :
    containsKey (g.add_repo n i).repos n = true := by
  unfold GraphData.add_repo
  cases hr : lookupA g.repos n with
  | none => simpa [containsKey] using lookupA_isSome_of_append_right g.repos n _
  | some r =>
    by_cases hi : i = 0
    · simp [hi, containsKey, hr]
    · simp [hi, containsKey, lookupA_modifyA_self _ _ _ _ hr]

theorem add_user_containsKey_mono (g : GraphData) (n m : String) (i : Int)
    (h : containsKey g.users m = true) : containsKey (g.add_user n i).users m = true := by
  by_cases hm : m = n
  · subst hm; exact add_user_containsKey_self g m i
  · unfold containsKey at h ⊢
    rwa [add_user_lookup_ne _ _ _ _ hm]

theorem add_org_containsKey_mono (g : GraphData) (n m : String) (i : Int)
    (h : containsKey g.orgs m = true) : containsKey (g.add_org n i).orgs m = true := by
  by_cases hm : m = n
  · subst hm; exact add_org_containsKey_self g m i
  · unfold containsKey at h ⊢
    rwa [add_org_lookup_ne _ _ _ _ hm]

theorem add_repo_containsKey_mono (g : GraphData) (n m : String) (i : Int)
    (h : containsKey g.repos m = true) : containsKey (g.add_repo n i).repos m = true := by
  by_cases hm : m = n
  · subst hm; exact add_repo_containsKey_self g m i
  · unfold containsKey at h ⊢
    rwa [add_repo_lookup_ne _ _ _ _ hm]

theorem add_user_keys_nodup (g : GraphData) (n : String) (i : Int)
    (h : (keysOf g.users).Nodup) : (keysOf (g.add_user n i).users).Nodup := by
  unfold GraphData.add_user
  cases hu : lookupA g.users n with
  | none =>
    have hn : n ∉ keysOf g.users := (lookupA_none_iff_not_mem_keys _ _).mp hu
    simp only []
    rw [keysOf_append]
    simpa [List.nodup_append] using ⟨h, hn⟩
  | some u =>
    by_cases hi : i ≠ 0 <;> simp [hi, keysOf_modifyA, h]

theorem add_org_keys_nodup (g : GraphData) (n : String) (i : Int)
    (h : (keysOf g.orgs).Nodup) : (keysOf (g.add_org n i).orgs).Nodup := by
  unfold GraphData.add_org
  cases ho : lookupA g.orgs n with
  | none =>
    have hn : n ∉ keysOf g.orgs := (lookupA_none_iff_not_mem_keys _ _).mp ho
    simp only []
    rw [keysOf_append]
    simpa [List.nodup_append] using ⟨h, hn⟩
  | some o =>
    by_cases hi : i ≠ 0 <;> simp [hi, keysOf_modifyA, h]

theorem add_repo_keys_nodup (g : GraphData) (n : String) (i : Int)
    (h : (keysOf g.repos).Nodup) : (keysOf (g.add_repo n i).repos).Nodup := by
  unfold GraphData.add_repo
  cases hr : lookupA g.repos n with
  | none =>
    have hn : n ∉ keysOf g.repos := (lookupA_none_iff_not_mem_keys _ _).mp hr
    simp only []
    rw [keysOf_append]
    simpa [List.nodup_append] using ⟨h, hn⟩
  | some r =>
    by_cases hi : i ≠ 0 <;> simp [hi, keysOf_modifyA, h]

/-- An existing user entry survives `add_user` with all fields except `id` intact. -/
theorem add_user_transfer (g : GraphData) (n : String) (i : Int) (c : String) (u0 : UserModel)
    (h : lookupA g.users c = some u0) :
    ∃ u', lookupA (g.add_user n i).users c = some u' ∧ u'.name = u0.name ∧
      u'.owner_of = u0.owner_of ∧ u'.contributor_of = u0.contributor_of := by
  by_cases hc : c = n
  · subst hc
    rcases add_user_lookup_self g c i with ⟨hnone, _⟩ | ⟨u1, u', h1, h2, hn, ho, hco⟩
    · rw [h] at hnone; cases hnone
    · rw [h] at h1; cases h1
      exact ⟨u', h2, hn, ho, hco⟩
  · exact ⟨u0, by rw [add_user_lookup_ne _ _ _ _ hc]; exact h, rfl, rfl, rfl⟩

theorem add_org_transfer (g : GraphData) (n : String) (i : Int) (c : String) (o0 : OrgModel)
    (h : lookupA g.orgs c = some o0) :
    ∃ o', lookupA (g.add_org n i).orgs c = some o' ∧ o'.name = o0.name ∧
      o'.members = o0.members ∧ o'.owner_of = o0.owner_of ∧
      o'.contributor_of = o0.contributor_of := by
  by_cases hc : c = n
  · subst hc
    rcases add_org_lookup_self g c i with ⟨hnone, _⟩ | ⟨o1, o', h1, h2, hn, hm, ho, hco⟩
    · rw [h] at hnone; cases hnone
    · rw [h] at h1; cases h1
      exact ⟨o', h2, hn, hm, ho, hco⟩
  · exact ⟨o0, by rw [add_org_lookup_ne _ _ _ _ hc]; exact h, rfl, rfl, rfl, rfl⟩

theorem add_repo_transfer (g : GraphData) (n : String) (i : Int) (c : String) (r0 : RepoModel)
    (h : lookupA g.repos c = some r0) :
    ∃ r', lookupA (g.add_repo n i).repos c = some r' ∧ r'.name = r0.name ∧
      r'.contributors = r0.contributors ∧ r'.owner = r0.owner ∧
      r'.parent_of = r0.parent_of := by
  by_cases hc : c = n
  · subst hc
    rcases add_repo_lookup_self g c i with ⟨hnone, _⟩ | ⟨r1, r', h1, h2, hn, hco, how, hp⟩
    · rw [h] at hnone; cases hnone
    · rw [h] at h1; cases h1
      exact ⟨r', h2, hn, hco, how, hp⟩
  · exact ⟨r0, by rw [add_repo_lookup_ne _ _ _ _ hc]; exact h, rfl, rfl, rfl, rfl⟩

/-- Conversely, an entry found after `add_user` is either an old entry with
the same fields (except `id`) or the freshly created one. -/
theorem add_user_lookup_inv (g : GraphData) (n : String) (i : Int) (c : String) (u' : UserModel)
    (h : lookupA (g.add_user n i).users c = some u') :
    (∃ u0, lookupA g.users c = some u0 ∧ u'.name = u0.name ∧
      u'.owner_of = u0.owner_of ∧ u'.contributor_of = u0.contributor_of) ∨
    (c = n ∧ u'.name = n ∧ u'.owner_of = [] ∧ u'.contributor_of = []) := by
  by_cases hc : c = n
  · subst hc
    rcases add_user_lookup_self g c i with ⟨hnone, hnew⟩ | ⟨u0, u1, h0, h1, hn, ho, hco⟩
    · rw [h] at hnew; cases hnew
      exact Or.inr ⟨rfl, rfl, rfl, rfl⟩
    · rw [h] at h1; cases h1
      exact Or.inl ⟨u0, h0, hn, ho, hco⟩
  · rw [add_user_lookup_ne _ _ _ _ hc] at h
    exact Or.inl ⟨u', h, rfl, rfl, rfl⟩

theorem add_org_lookup_inv (g : GraphData) (n : String) (i : Int) (c : String) (o' : OrgModel)
    (h : lookupA (g.add_org n i).orgs c = some o') :
    (∃ o0, lookupA g.orgs c = some o0 ∧ o'.name = o0.name ∧ o'.members = o0.members ∧
      o'.owner_of = o0.owner_of ∧ o'.contributor_of = o0.contributor_of) ∨
    (c = n ∧ o'.name = n ∧ o'.members = [] ∧ o'.owner_of = [] ∧ o'.contributor_of = []) := by
  by_cases hc : c = n
  · subst hc
    rcases add_org_lookup_self g c i with ⟨hnone, hnew⟩ | ⟨o0, o1, h0, h1, hn, hm, ho, hco⟩
    · rw [h] at hnew; cases hnew
      exact Or.inr ⟨rfl, rfl, rfl, rfl, rfl⟩
    · rw [h] at h1; cases h1
      exact Or.inl ⟨o0, h0, hn, hm, ho, hco⟩
  · rw [add_org_lookup_ne _ _ _ _ hc] at h
    exact Or.inl ⟨o', h, rfl, rfl, rfl, rfl⟩

theorem add_repo_lookup_inv (g : GraphData) (n : String) (i : Int) (c : String) (r' : RepoModel)
    (h : lookupA (g.add_repo n i).repos c = some r') :
    (∃ r0, lookupA g.repos c = some r0 ∧ r'.name = r0.name ∧
      r'.contributors = r0.contributors ∧ r'.owner = r0.owner ∧
      r'.parent_of = r0.parent_of) ∨
    (c = n ∧ r'.name = n ∧ r'.contributors = [] ∧ r'.owner = "" ∧ r'.parent_of = []) := by
  by_cases hc : c = n
  · subst hc
    rcases add_repo_lookup_self g c i with ⟨hnone, hnew⟩ | ⟨r0, r1, h0, h1, hn, hco, how, hp⟩
    · rw [h] at hnew; cases hnew
      exact Or.inr ⟨rfl, rfl, rfl, rfl, rfl⟩
    · rw [h] at h1; cases h1
      exact Or.inl ⟨r0, h0, hn, hco, how, hp⟩
  · rw [add_repo_lookup_ne _ _ _ _ hc] at h
    exact Or.inl ⟨r', h, rfl, rfl, rfl, rfl⟩

/-! ### The builder invariant

`Inv` collects the structural facts that `df_to_pydantic_models` maintains:
entities are stored under their own name, key lists are duplicate-free, and
every name referenced from a denormalized relationship field resolves as the
relationship logic guarantees (`owner_of`/`contributor_of` entries are repo
keys, `members` entries are user keys, `contributors` entries round-trip to a
user or org whose `contributor_of` holds the repo, a non-empty `owner`
round-trips to a user or org whose `owner_of` holds the repo, and `parent_of`
entries are keys of one of the three maps). -/

structure Inv (g : GraphData) : Prop where
  userName : ∀ k u, lookupA g.users k = some u → u.name = k
  orgName : ∀ k o, lookupA g.orgs k = some o → o.name = k
  repoName : ∀ k r, lookupA g.repos k = some r → r.name = k
  usersNodup : (keysOf g.users).Nodup
  orgsNodup : (keysOf g.orgs).Nodup
  reposNodup : (keysOf g.repos).Nodup
  userOwned : ∀ k u t, lookupA g.users k = some u → t ∈ u.owner_of →
    containsKey g.repos t = true
  orgOwned : ∀ k o t, lookupA g.orgs k = some o → t ∈ o.owner_of →
    containsKey g.repos t = true
  userContrib : ∀ k u t, lookupA g.users k = some u → t ∈ u.contributor_of →
    ∃ r, lookupA g.repos t = some r ∧ k ∈ r.contributors
  orgContrib : ∀ k o t, lookupA g.orgs k = some o → t ∈ o.contributor_of →
    ∃ r, lookupA g.repos t = some r ∧ k ∈ r.contributors
  contribBack : ∀ k r c, lookupA g.repos k = some r → c ∈ r.contributors →
    (∃ u, lookupA g.users c = some u ∧ k ∈ u.contributor_of) ∨
    (∃ o, lookupA g.orgs c = some o ∧ k ∈ o.contributor_of)
  memberRefs : ∀ k o s, lookupA g.orgs k = some o → s ∈ o.members →
    containsKey g.users s = true
  ownerBack : ∀ k r, lookupA g.repos k = some r → r.owner ≠ "" →
    (∃ u, lookupA g.users r.owner = some u ∧ k ∈ u.owner_of) ∨
    (∃ o, lookupA g.orgs r.owner = some o ∧ k ∈ o.owner_of)
  parentRefs : ∀ k r t, lookupA g.repos k = some r → t ∈ r.parent_of →
    containsKey g.users t = true ∨ containsKey g.orgs t = true ∨
    containsKey g.repos t = true

theorem inv_empty : Inv GraphData.empty := by
  constructor <;> intros <;> simp_all [GraphData.empty, keysOf]

theorem inv_add_user (g : GraphData) (n : String) (i : Int) (hg : Inv g) :
    Inv (g.add_user n i) := by
  constructor
  case userName =>
    intro k u h
    rcases add_user_lookup_inv g n i k u h with ⟨u0, h0, hn, _, _⟩ | ⟨hk, hn, _, _⟩
    · rw [hn]; exact hg.userName k u0 h0
    · rw [hn, hk]
  case orgName =>
    intro k o h
    rw [add_user_orgs] at h
    exact hg.orgName k o h
  case repoName =>
    intro k r h
    rw [add_user_repos] at h
    exact hg.repoName k r h
  case usersNodup => exact add_user_keys_nodup g n i hg.usersNodup
  case orgsNodup => rw [add_user_orgs]; exact hg.orgsNodup
  case reposNodup => rw [add_user_repos]; exact hg.reposNodup
  case userOwned =>
    intro k u t h ht
    rw [add_user_repos]
    rcases add_user_lookup_inv g n i k u h with ⟨u0, h0, _, ho, _⟩ | ⟨_, _, ho, _⟩
    · rw [ho] at ht
      exact hg.userOwned k u0 t h0 ht
    · rw [ho] at ht; simp at ht
  case orgOwned =>
    intro k o t h ht
    rw [add_user_orgs] at h
    rw [add_user_repos]
    exact hg.orgOwned k o t h ht
  case userContrib =>
    intro k u t h ht
    rw [add_user_repos]
    rcases add_user_lookup_inv g n i k u h with ⟨u0, h0, _, _, hco⟩ | ⟨_, _, _, hco⟩
    · rw [hco] at ht
      exact hg.userContrib k u0 t h0 ht
    · rw [hco] at ht; simp at ht
  case orgContrib =>
    intro k o t h ht
    rw [add_user_orgs] at h
    rw [add_user_repos]
    exact hg.orgContrib k o t h ht
  case contribBack =>
    intro k r c h hc
    rw [add_user_repos] at h
    rcases hg.contribBack k r c h hc with ⟨u0, h0, hm⟩ | ⟨o0, h0, hm⟩
    · obtain ⟨u', h', _, _, hco⟩ := add_user_transfer g n i c u0 h0
      exact Or.inl ⟨u', h', by rw [hco]; exact hm⟩
    · exact Or.inr ⟨o0, by rw [add_user_orgs]; exact h0, hm⟩
  case memberRefs =>
    intro k o s h hs
    rw [add_user_orgs] at h
    exact add_user_containsKey_mono g n s i (hg.memberRefs k o s h hs)
  case ownerBack =>
    intro k r h hw
    rw [add_user_repos] at h
    rcases hg.ownerBack k r h hw with ⟨u0, h0, hm⟩ | ⟨o0, h0, hm⟩
    · obtain ⟨u', h', _, ho, _⟩ := add_user_transfer g n i r.owner u0 h0
      exact Or.inl ⟨u', h', by rw [ho]; exact hm⟩
    · exact Or.inr ⟨o0, by rw [add_user_orgs]; exact h0, hm⟩
  case parentRefs =>
    intro k r t h ht
    rw [add_user_repos] at h
    rcases hg.parentRefs k r t h ht with h1 | h2 | h3
    · exact Or.inl (add_user_containsKey_mono g n t i h1)
    · exact Or.inr (Or.inl (by rw [add_user_orgs]; exact h2))
    · exact Or.inr (Or.inr (by rw [add_user_repos]; exact h3))

theorem inv_add_org (g : GraphData) (n : String) (i : Int) (hg : Inv g) :
    Inv (g.add_org n i) := by
  constructor
  case userName =>
    intro k u h
    rw [add_org_users] at h
    exact hg.userName k u h
  case orgName =>
    intro k o h
    rcases add_org_lookup_inv g n i k o h with ⟨o0, h0, hn, _, _, _⟩ | ⟨hk, hn, _, _, _⟩
    · rw [hn]; exact hg.orgName k o0 h0
    · rw [hn, hk]
  case repoName =>
    intro k r h
    rw [add_org_repos] at h
    exact hg.repoName k r h
  case usersNodup => rw [add_org_users]; exact hg.usersNodup
  case orgsNodup => exact add_org_keys_nodup g n i hg.orgsNodup
  case reposNodup => rw [add_org_repos]; exact hg.reposNodup
  case userOwned =>
    intro k u t h ht
    rw [add_org_users] at h
    rw [add_org_repos]
    exact hg.userOwned k u t h ht
  case orgOwned =>
    intro k o t h ht
    rw [add_org_repos]
    rcases add_org_lookup_inv g n i k o h with ⟨o0, h0, _, _, ho, _⟩ | ⟨_, _, _, ho, _⟩
    · rw [ho] at ht
      exact hg.orgOwned k o0 t h0 ht
    · rw [ho] at ht; simp at ht
  case userContrib =>
    intro k u t h ht
    rw [add_org_users] at h
    rw [add_org_repos]
    exact hg.userContrib k u t h ht
  case orgContrib =>
    intro k o t h ht
    rw [add_org_repos]
    rcases add_org_lookup_inv g n i k o h with ⟨o0, h0, _, _, _, hco⟩ | ⟨_, _, _, _, hco⟩
    · rw [hco] at ht
      exact hg.orgContrib k o0 t h0 ht
    · rw [hco] at ht; simp at ht
  case contribBack =>
    intro k r c h hc
    rw [add_org_repos] at h
    rcases hg.contribBack k r c h hc with ⟨u0, h0, hm⟩ | ⟨o0, h0, hm⟩
    · exact Or.inl ⟨u0, by rw [add_org_users]; exact h0, hm⟩
    · obtain ⟨o', h', _, _, _, hco⟩ := add_org_transfer g n i c o0 h0
      exact Or.inr ⟨o', h', by rw [hco]; exact hm⟩
  case memberRefs =>
    intro k o s h hs
    rw [add_org_users]
    rcases add_org_lookup_inv g n i k o h with ⟨o0, h0, _, hm, _, _⟩ | ⟨_, _, hm, _, _⟩
    · rw [hm] at hs
      exact hg.memberRefs k o0 s h0 hs
    · rw [hm] at hs; simp at hs
  case ownerBack =>
    intro k r h hw
    rw [add_org_repos] at h
    rcases hg.ownerBack k r h hw with ⟨u0, h0, hm⟩ | ⟨o0, h0, hm⟩
    · exact Or.inl ⟨u0, by rw [add_org_users]; exact h0, hm⟩
    · obtain ⟨o', h', _, _, ho, _⟩ := add_org_transfer g n i r.owner o0 h0
      exact Or.inr ⟨o', h', by rw [ho]; exact hm⟩
  case parentRefs =>
    intro k r t h ht
    rw [add_org_repos] at h
    rcases hg.parentRefs k r t h ht with h1 | h2 | h3
    · exact Or.inl (by rw [add_org_users]; exact h1)
    · exact Or.inr (Or.inl (add_org_containsKey_mono g n t i h2))
    · exact Or.inr (Or.inr (by rw [add_org_repos]; exact h3))

theorem inv_add_repo (g : GraphData) (n : String) (i : Int) (hg : Inv g) :
    Inv (g.add_repo n i) := by
  constructor
  case userName =>
    intro k u h
    rw [add_repo_users] at h
    exact hg.userName k u h
  case orgName =>
    intro k o h
    rw [add_repo_orgs] at h
    exact hg.orgName k o h
  case repoName =>
    intro k r h
    rcases add_repo_lookup_inv g n i k r h with ⟨r0, h0, hn, _, _, _⟩ | ⟨hk, hn, _, _, _⟩
    · rw [hn]; exact hg.repoName k r0 h0
    · rw [hn, hk]
  case usersNodup => rw [add_repo_users]; exact hg.usersNodup
  case orgsNodup => rw [add_repo_orgs]; exact hg.orgsNodup
  case reposNodup => exact add_repo_keys_nodup g n i hg.reposNodup
  case userOwned =>
    intro k u t h ht
    rw [add_repo_users] at h
    exact add_repo_containsKey_mono g n t i (hg.userOwned k u t h ht)
  case orgOwned =>
    intro k o t h ht
    rw [add_repo_orgs] at h
    exact add_repo_containsKey_mono g n t i (hg.orgOwned k o t h ht)
  case userContrib =>
    intro k u t h ht
    rw [add_repo_users] at h
    obtain ⟨r0, h0, hm⟩ := hg.userContrib k u t h ht
    obtain ⟨r', h', _, hco, _, _⟩ := add_repo_transfer g n i t r0 h0
    exact ⟨r', h', by rw [hco]; exact hm⟩
  case orgContrib =>
    intro k o t h ht
    rw [add_repo_orgs] at h
    obtain ⟨r0, h0, hm⟩ := hg.orgContrib k o t h ht
    obtain ⟨r', h', _, hco, _, _⟩ := add_repo_transfer g n i t r0 h0
    exact ⟨r', h', by rw [hco]; exact hm⟩
  case contribBack =>
    intro k r c h hc
    rcases add_repo_lookup_inv g n i k r h with ⟨r0, h0, _, hco, _, _⟩ | ⟨_, _, hco, _, _⟩
    · rw [hco] at hc
      rcases hg.contribBack k r0 c h0 hc with ⟨u0, h1, hm⟩ | ⟨o0, h1, hm⟩
      · exact Or.inl ⟨u0, by rw [add_repo_users]; exact h1, hm⟩
      · exact Or.inr ⟨o0, by rw [add_repo_orgs]; exact h1, hm⟩
    · rw [hco] at hc; simp at hc
  case memberRefs =>
    intro k o s h hs
    rw [add_repo_orgs] at h
    exact (by rw [add_repo_users]; exact hg.memberRefs k o s h hs)
  case ownerBack =>
    intro k r h hw
    rcases add_repo_lookup_inv g n i k r h with ⟨r0, h0, _, _, how, _⟩ | ⟨_, _, _, how, _⟩
    · rw [how] at hw ⊢
      rcases hg.ownerBack k r0 h0 hw with ⟨u0, h1, hm⟩ | ⟨o0, h1, hm⟩
      · exact Or.inl ⟨u0, by rw [add_repo_users]; exact h1, hm⟩
      · exact Or.inr ⟨o0, by rw [add_repo_orgs]; exact h1, hm⟩
    · rw [how] at hw; simp at hw
  case parentRefs =>
    intro k r t h ht
    rcases add_repo_lookup_inv g n i k r h with ⟨r0, h0, _, _, _, hp⟩ | ⟨_, _, _, _, hp⟩
    · rw [hp] at ht
      rcases hg.parentRefs k r0 t h0 ht with h1 | h2 | h3
      · exact Or.inl (by rw [add_repo_users]; exact h1)
      · exact Or.inr (Or.inl (by rw [add_repo_orgs]; exact h2))
      · exact Or.inr (Or.inr (add_repo_containsKey_mono g n t i h3))
    · rw [hp] at ht; simp at ht

theorem lookupA_modifyA_inv {κ α : Type} [DecidableEq κ] (m : List (κ × α)) (k j : κ)
    (f : α → α) (v' : α) (h : lookupA (modifyA m k f) j = some v') :
    (j ≠ k ∧ lookupA m j = some v') ∨ (j = k ∧ ∃ v0, lookupA m j = some v0 ∧ v' = f v0) := by
  by_cases hj : j = k
  · subst hj
    cases h0 : lookupA m j with
    | none =>
      rw [lookupA_modifyA_none m j j f h0] at h
      cases h
    | some v0 =>
      rw [lookupA_modifyA_self m j f v0 h0] at h
      cases h
      exact Or.inr ⟨rfl, v0, rfl, rfl⟩
  · rw [lookupA_modifyA_ne m k j f (Ne.symm hj)] at h
    exact Or.inl ⟨hj, h⟩

theorem lookupA_modifyA_transfer {κ α : Type} [DecidableEq κ] (m : List (κ × α)) (k j : κ)
    (f : α → α) (v0 : α) (h : lookupA m j = some v0) :
    (j ≠ k ∧ lookupA (modifyA m k f) j = some v0) ∨
    (j = k ∧ lookupA (modifyA m k f) j = some (f v0)) := by
  by_cases hj : j = k
  · subst hj
    exact Or.inr ⟨rfl, lookupA_modifyA_self m j f v0 h⟩
  · exact Or.inl ⟨hj, by rw [lookupA_modifyA_ne m k j f (Ne.symm hj)]; exact h⟩

@[simp] theorem orgAddMember_users (g : GraphData) (k s : String) :
    (g.orgAddMember k s).users = g.users := rfl

@[simp] theorem orgAddMember_repos (g : GraphData) (k s : String) :
    (g.orgAddMember k s).repos = g.repos := rfl

theorem orgAddMember_orgs (g : GraphData) (k s : String) :
    (g.orgAddMember k s).orgs = modifyA g.orgs k (fun o => { o with members := o.members ++ [s] }) := rfl

@[simp] theorem userAddOwned_orgs (g : GraphData) (k t : String) :
    (g.userAddOwned k t).orgs = g.orgs := rfl

@[simp] theorem userAddOwned_repos (g : GraphData) (k t : String) :
    (g.userAddOwned k t).repos = g.repos := rfl

theorem userAddOwned_users (g : GraphData) (k t : String) :
    (g.userAddOwned k t).users = modifyA g.users k (fun u => { u with owner_of := u.owner_of ++ [t] }) := rfl

@[simp] theorem orgAddOwned_users (g : GraphData) (k t : String) :
    (g.orgAddOwned k t).users = g.users := rfl

@[simp] theorem orgAddOwned_repos (g : GraphData) (k t : String) :
    (g.orgAddOwned k t).repos = g.repos := rfl

theorem orgAddOwned_orgs (g : GraphData) (k t : String) :
    (g.orgAddOwned k t).orgs = modifyA g.orgs k (fun o => { o with owner_of := o.owner_of ++ [t] }) := rfl

@[simp] theorem setRepoOwner_users (g : GraphData) (k s : String) :
    (g.setRepoOwner k s).users = g.users := rfl

@[simp] theorem setRepoOwner_orgs (g : GraphData) (k s : String) :
    (g.setRepoOwner k s).orgs = g.orgs := rfl

theorem setRepoOwner_repos (g : GraphData) (k s : String) :
    (g.setRepoOwner k s).repos = modifyA g.repos k (fun r => { r with owner := s }) := rfl

@[simp] theorem userAddContrib_orgs (g : GraphData) (k t : String) :
    (g.userAddContrib k t).orgs = g.orgs := rfl

@[simp] theorem userAddContrib_repos (g : GraphData) (k t : String) :
    (g.userAddContrib k t).repos = g.repos := rfl

theorem userAddContrib_users (g : GraphData) (k t : String) :
    (g.userAddContrib k t).users =
      modifyA g.users k (fun u => { u with contributor_of := u.contributor_of ++ [t] }) := rfl

@[simp] theorem orgAddContrib_users (g : GraphData) (k t : String) :
    (g.orgAddContrib k t).users = g.users := rfl

@[simp] theorem orgAddContrib_repos (g : GraphData) (k t : String) :
    (g.orgAddContrib k t).repos = g.repos := rfl

theorem orgAddContrib_orgs (g : GraphData) (k t : String) :
    (g.orgAddContrib k t).orgs =
      modifyA g.orgs k (fun o => { o with contributor_of := o.contributor_of ++ [t] }) := rfl

@[simp] theorem repoAddContributor_users (g : GraphData) (k s : String) :
    (g.repoAddContributor k s).users = g.users := rfl

@[simp] theorem repoAddContributor_orgs (g : GraphData) (k s : String) :
    (g.repoAddContributor k s).orgs = g.orgs := rfl

theorem repoAddContributor_repos (g : GraphData) (k s : String) :
    (g.repoAddContributor k s).repos =
      modifyA g.repos k (fun r => { r with contributors := r.contributors ++ [s] }) := rfl

@[simp] theorem repoAddParent_users (g : GraphData) (k t : String) :
    (g.repoAddParent k t).users = g.users := rfl

@[simp] theorem repoAddParent_orgs (g : GraphData) (k t : String) :
    (g.repoAddParent k t).orgs = g.orgs := rfl

theorem repoAddParent_repos (g : GraphData) (k t : String) :
    (g.repoAddParent k t).repos =
      modifyA g.repos k (fun r => { r with parent_of := r.parent_of ++ [t] }) := rfl

/-- The `member_of` branch preserves the invariant: the new member name is a
user key. -/
theorem inv_orgAddMember (g : GraphData) (tgt src : String) (hg : Inv g)
    (hsrc : containsKey g.users src = true) : Inv (g.orgAddMember tgt src) := by
  have horgs := orgAddMember_orgs g tgt src
  constructor
  case userName =>
    intro k u h
    rw [orgAddMember_users] at h
    exact hg.userName k u h
  case orgName =>
    intro k o h
    rw [horgs] at h
    rcases lookupA_modifyA_inv _ _ _ _ _ h with ⟨_, h0⟩ | ⟨hk, o0, h0, rfl⟩
    · exact hg.orgName k o h0
    · exact hg.orgName k o0 h0
  case repoName =>
    intro k r h
    rw [orgAddMember_repos] at h
    exact hg.repoName k r h
  case usersNodup => rw [orgAddMember_users]; exact hg.usersNodup
  case orgsNodup => rw [horgs, keysOf_modifyA]; exact hg.orgsNodup
  case reposNodup => rw [orgAddMember_repos]; exact hg.reposNodup
  case userOwned =>
    intro k u t h ht
    rw [orgAddMember_users] at h
    rw [orgAddMember_repos]
    exact hg.userOwned k u t h ht
  case orgOwned =>
    intro k o t h ht
    rw [horgs] at h
    rw [orgAddMember_repos]
    rcases lookupA_modifyA_inv _ _ _ _ _ h with ⟨_, h0⟩ | ⟨hk, o0, h0, rfl⟩
    · exact hg.orgOwned k o t h0 ht
    · exact hg.orgOwned k o0 t h0 ht
  case userContrib =>
    intro k u t h ht
    rw [orgAddMember_users] at h
    rw [orgAddMember_repos]
    exact hg.userContrib k u t h ht
  case orgContrib =>
    intro k o t h ht
    rw [horgs] at h
    rw [orgAddMember_repos]
    rcases lookupA_modifyA_inv _ _ _ _ _ h with ⟨_, h0⟩ | ⟨hk, o0, h0, rfl⟩
    · exact hg.orgContrib k o t h0 ht
    · exact hg.orgContrib k o0 t h0 ht
  case contribBack =>
    intro k r c h hc
    rw [orgAddMember_repos] at h
    rcases hg.contribBack k r c h hc with ⟨u0, h0, hm⟩ | ⟨o0, h0, hm⟩
    · exact Or.inl ⟨u0, by rw [orgAddMember_users]; exact h0, hm⟩
    · rcases lookupA_modifyA_transfer g.orgs tgt c _ o0 h0 with ⟨_, h1⟩ | ⟨hk, h1⟩
      · exact Or.inr ⟨o0, by rw [horgs]; exact h1, hm⟩
      · exact Or.inr ⟨{ o0 with members := o0.members ++ [src] },
          by rw [horgs]; exact h1, hm⟩
  case memberRefs =>
    intro k o s h hs
    rw [horgs] at h
    rw [orgAddMember_users]
    rcases lookupA_modifyA_inv _ _ _ _ _ h with ⟨_, h0⟩ | ⟨hk, o0, h0, rfl⟩
    · exact hg.memberRefs k o s h0 hs
    · rcases List.mem_append.mp hs with hs0 | hs1
      · exact hg.memberRefs k o0 s h0 hs0
      · rw [List.mem_singleton] at hs1
        subst hs1
        exact hsrc
  case ownerBack =>
    intro k r h hw
    rw [orgAddMember_repos] at h
    rcases hg.ownerBack k r h hw with ⟨u0, h0, hm⟩ | ⟨o0, h0, hm⟩
    · exact Or.inl ⟨u0, by rw [orgAddMember_users]; exact h0, hm⟩
    · rcases lookupA_modifyA_transfer g.orgs tgt r.owner _ o0 h0 with ⟨_, h1⟩ | ⟨hk, h1⟩
      · exact Or.inr ⟨o0, by rw [horgs]; exact h1, hm⟩
      · exact Or.inr ⟨{ o0 with members := o0.members ++ [src] },
          by rw [horgs]; exact h1, hm⟩
  case parentRefs =>
    intro k r t h ht
    rw [orgAddMember_repos] at h
    rcases hg.parentRefs k r t h ht with h1 | h2 | h3
    · exact Or.inl (by rw [orgAddMember_users]; exact h1)
    · refine Or.inr (Or.inl ?_)
      rw [horgs, containsKey_modifyA]
      exact h2
    · exact Or.inr (Or.inr (by rw [orgAddMember_repos]; exact h3))

/-- The `parent_of` branch preserves the invariant: the appended child name is
a key of one of the three maps. -/
theorem inv_repoAddParent (g : GraphData) (src tgt : String) (hg : Inv g)
    (htk : containsKey g.users tgt = true ∨ containsKey g.orgs tgt = true ∨
      containsKey g.repos tgt = true) : Inv (g.repoAddParent src tgt) := by
  have hrepos := repoAddParent_repos g src tgt
  constructor
  case userName =>
    intro k u h
    rw [repoAddParent_users] at h
    exact hg.userName k u h
  case orgName =>
    intro k o h
    rw [repoAddParent_orgs] at h
    exact hg.orgName k o h
  case repoName =>
    intro k r h
    rw [hrepos] at h
    rcases lookupA_modifyA_inv _ _ _ _ _ h with ⟨_, h0⟩ | ⟨hk, r0, h0, rfl⟩
    · exact hg.repoName k r h0
    · exact hg.repoName k r0 h0
  case usersNodup => rw [repoAddParent_users]; exact hg.usersNodup
  case orgsNodup => rw [repoAddParent_orgs]; exact hg.orgsNodup
  case reposNodup => rw [hrepos, keysOf_modifyA]; exact hg.reposNodup
  case userOwned =>
    intro k u t h ht
    rw [repoAddParent_users] at h
    rw [hrepos, containsKey_modifyA]
    exact hg.userOwned k u t h ht
  case orgOwned =>
    intro k o t h ht
    rw [repoAddParent_orgs] at h
    rw [hrepos, containsKey_modifyA]
    exact hg.orgOwned k o t h ht
  case userContrib =>
    intro k u t h ht
    rw [repoAddParent_users] at h
    obtain ⟨r0, h0, hm⟩ := hg.userContrib k u t h ht
    rcases lookupA_modifyA_transfer g.repos src t _ r0 h0 with ⟨_, h1⟩ | ⟨hk, h1⟩
    · exact ⟨r0, by rw [hrepos]; exact h1, hm⟩
    · exact ⟨{ r0 with parent_of := r0.parent_of ++ [tgt] },
        by rw [hrepos]; exact h1, hm⟩
  case orgContrib =>
    intro k o t h ht
    rw [repoAddParent_orgs] at h
    obtain ⟨r0, h0, hm⟩ := hg.orgContrib k o t h ht
    rcases lookupA_modifyA_transfer g.repos src t _ r0 h0 with ⟨_, h1⟩ | ⟨hk, h1⟩
    · exact ⟨r0, by rw [hrepos]; exact h1, hm⟩
    · exact ⟨{ r0 with parent_of := r0.parent_of ++ [tgt] },
        by rw [hrepos]; exact h1, hm⟩
  case contribBack =>
    intro k r c h hc
    rw [hrepos] at h
    rcases lookupA_modifyA_inv _ _ _ _ _ h with ⟨_, h0⟩ | ⟨hk, r0, h0, rfl⟩
    · rcases hg.contribBack k r c h0 hc with ⟨u0, h1, hm⟩ | ⟨o0, h1, hm⟩
      · exact Or.inl ⟨u0, by rw [repoAddParent_users]; exact h1, hm⟩
      · exact Or.inr ⟨o0, by rw [repoAddParent_orgs]; exact h1, hm⟩
    · rcases hg.contribBack k r0 c h0 hc with ⟨u0, h1, hm⟩ | ⟨o0, h1, hm⟩
      · exact Or.inl ⟨u0, by rw [repoAddParent_users]; exact h1, hm⟩
      · exact Or.inr ⟨o0, by rw [repoAddParent_orgs]; exact h1, hm⟩
  case memberRefs =>
    intro k o s h hs
    rw [repoAddParent_orgs] at h
    rw [repoAddParent_users]
    exact hg.memberRefs k o s h hs
  case ownerBack =>
    intro k r h hw
    rw [hrepos] at h
    rcases lookupA_modifyA_inv _ _ _ _ _ h with ⟨_, h0⟩ | ⟨hk, r0, h0, rfl⟩
    · rcases hg.ownerBack k r h0 hw with ⟨u0, h1, hm⟩ | ⟨o0, h1, hm⟩
      · exact Or.inl ⟨u0, by rw [repoAddParent_users]; exact h1, hm⟩
      · exact Or.inr ⟨o0, by rw [repoAddParent_orgs]; exact h1, hm⟩
    · rcases hg.ownerBack k r0 h0 hw with ⟨u0, h1, hm⟩ | ⟨o0, h1, hm⟩
      · exact Or.inl ⟨u0, by rw [repoAddParent_users]; exact h1, hm⟩
      · exact Or.inr ⟨o0, by rw [repoAddParent_orgs]; exact h1, hm⟩
  case parentRefs =>
    intro k r t h ht
    rw [hrepos] at h
    have hgoal : containsKey g.users t = true ∨ containsKey g.orgs t = true ∨
        containsKey g.repos t = true →
        containsKey (g.repoAddParent src tgt).users t = true ∨
        containsKey (g.repoAddParent src tgt).orgs t = true ∨
        containsKey (g.repoAddParent src tgt).repos t = true := by
      intro hc
      rcases hc with h1 | h2 | h3
      · exact Or.inl (by rw [repoAddParent_users]; exact h1)
      · exact Or.inr (Or.inl (by rw [repoAddParent_orgs]; exact h2))
      · refine Or.inr (Or.inr ?_)
        rw [hrepos, containsKey_modifyA]
        exact h3
    rcases lookupA_modifyA_inv _ _ _ _ _ h with ⟨_, h0⟩ | ⟨hk, r0, h0, rfl⟩
    · exact hgoal (hg.parentRefs k r t h0 ht)
    · rcases List.mem_append.mp ht with ht0 | ht1
      · exact hgoal (hg.parentRefs k r0 t h0 ht0)
      · rw [List.mem_singleton] at ht1
        subst ht1
        exact hgoal htk

/-- The `owner_of` branch with a user source preserves the invariant. -/
theorem inv_ownerUser (g : GraphData) (src tgt : String) (hg : Inv g)
    (hcu : containsKey g.users src = true) (hcr : containsKey g.repos tgt = true) :
    Inv ((g.userAddOwned src tgt).setRepoOwner tgt src) := by
  obtain ⟨u0, hu⟩ : ∃ u, lookupA g.users src = some u := by
    unfold containsKey at hcu
    exact Option.isSome_iff_exists.mp hcu
  obtain ⟨r0, hr⟩ : ∃ r, lookupA g.repos tgt = some r := by
    unfold containsKey at hcr
    exact Option.isSome_iff_exists.mp hcr
  have husers : ((g.userAddOwned src tgt).setRepoOwner tgt src).users =
      modifyA g.users src (fun u => { u with owner_of := u.owner_of ++ [tgt] }) := rfl
  have horgs : ((g.userAddOwned src tgt).setRepoOwner tgt src).orgs = g.orgs := rfl
  have hrepos : ((g.userAddOwned src tgt).setRepoOwner tgt src).repos =
      modifyA g.repos tgt (fun r => { r with owner := src }) := rfl
  constructor
  case userName =>
    intro k u h
    rw [husers] at h
    rcases lookupA_modifyA_inv _ _ _ _ _ h with ⟨_, h0⟩ | ⟨hk, u1, h0, rfl⟩
    · exact hg.userName k u h0
    · exact hg.userName k u1 h0
  case orgName =>
    intro k o h
    rw [horgs] at h
    exact hg.orgName k o h
  case repoName =>
    intro k r h
    rw [hrepos] at h
    rcases lookupA_modifyA_inv _ _ _ _ _ h with ⟨_, h0⟩ | ⟨hk, r1, h0, rfl⟩
    · exact hg.repoName k r h0
    · exact hg.repoName k r1 h0
  case usersNodup => rw [husers, keysOf_modifyA]; exact hg.usersNodup
  case orgsNodup => rw [horgs]; exact hg.orgsNodup
  case reposNodup => rw [hrepos, keysOf_modifyA]; exact hg.reposNodup
  case userOwned =>
    intro k u t h ht
    rw [husers] at h
    rw [hrepos, containsKey_modifyA]
    rcases lookupA_modifyA_inv _ _ _ _ _ h with ⟨_, h0⟩ | ⟨hk, u1, h0, rfl⟩
    · exact hg.userOwned k u t h0 ht
    · rcases List.mem_append.mp ht with ht0 | ht1
      · exact hg.userOwned k u1 t h0 ht0
      · rw [List.mem_singleton] at ht1
        subst ht1
        exact hcr
  case orgOwned =>
    intro k o t h ht
    rw [horgs] at h
    rw [hrepos, containsKey_modifyA]
    exact hg.orgOwned k o t h ht
  case userContrib =>
    intro k u t h ht
    rw [husers] at h
    have trans : (∃ rr, lookupA g.repos t = some rr ∧ k ∈ rr.contributors) →
        ∃ rr, lookupA ((g.userAddOwned src tgt).setRepoOwner tgt src).repos t = some rr ∧
          k ∈ rr.contributors := by
      rintro ⟨rr, h1, hm⟩
      rcases lookupA_modifyA_transfer g.repos tgt t _ rr h1 with ⟨_, h2⟩ | ⟨_, h2⟩
      · exact ⟨rr, by rw [hrepos]; exact h2, hm⟩
      · exact ⟨{ rr with owner := src }, by rw [hrepos]; exact h2, hm⟩
    rcases lookupA_modifyA_inv _ _ _ _ _ h with ⟨_, h0⟩ | ⟨hk, u1, h0, rfl⟩
    · exact trans (hg.userContrib k u t h0 ht)
    · exact trans (hg.userContrib k u1 t h0 ht)
  case orgContrib =>
    intro k o t h ht
    rw [horgs] at h
    obtain ⟨rr, h1, hm⟩ := hg.orgContrib k o t h ht
    rcases lookupA_modifyA_transfer g.repos tgt t _ rr h1 with ⟨_, h2⟩ | ⟨_, h2⟩
    · exact ⟨rr, by rw [hrepos]; exact h2, hm⟩
    · exact ⟨{ rr with owner := src }, by rw [hrepos]; exact h2, hm⟩
  case contribBack =>
    intro k r c h hc
    rw [hrepos] at h
    have trans : ((∃ u, lookupA g.users c = some u ∧ k ∈ u.contributor_of) ∨
        (∃ o, lookupA g.orgs c = some o ∧ k ∈ o.contributor_of)) →
        (∃ u, lookupA ((g.userAddOwned src tgt).setRepoOwner tgt src).users c = some u ∧
          k ∈ u.contributor_of) ∨
        (∃ o, lookupA ((g.userAddOwned src tgt).setRepoOwner tgt src).orgs c = some o ∧
          k ∈ o.contributor_of) := by
      rintro (⟨u1, h1, hm⟩ | ⟨o1, h1, hm⟩)
      · rcases lookupA_modifyA_transfer g.users src c _ u1 h1 with ⟨_, h2⟩ | ⟨_, h2⟩
        · exact Or.inl ⟨u1, by rw [husers]; exact h2, hm⟩
        · exact Or.inl ⟨{ u1 with owner_of := u1.owner_of ++ [tgt] },
            by rw [husers]; exact h2, hm⟩
      · exact Or.inr ⟨o1, by rw [horgs]; exact h1, hm⟩
    rcases lookupA_modifyA_inv _ _ _ _ _ h with ⟨_, h0⟩ | ⟨hk, r1, h0, rfl⟩
    · exact trans (hg.contribBack k r c h0 hc)
    · exact trans (hg.contribBack k r1 c h0 hc)
  case memberRefs =>
    intro k o s h hs
    rw [horgs] at h
    rw [husers, containsKey_modifyA]
    exact hg.memberRefs k o s h hs
  case ownerBack =>
    intro k r h hw
    rw [hrepos] at h
    rcases lookupA_modifyA_inv _ _ _ _ _ h with ⟨hne, h0⟩ | ⟨hk, r1, h0, rfl⟩
    · rcases hg.ownerBack k r h0 hw with ⟨u1, h1, hm⟩ | ⟨o1, h1, hm⟩
      · rcases lookupA_modifyA_transfer g.users src r.owner _ u1 h1 with ⟨_, h2⟩ | ⟨_, h2⟩
        · exact Or.inl ⟨u1, by rw [husers]; exact h2, hm⟩
        · exact Or.inl ⟨{ u1 with owner_of := u1.owner_of ++ [tgt] },
            by rw [husers]; exact h2, List.mem_append_left _ hm⟩
      · exact Or.inr ⟨o1, by rw [horgs]; exact h1, hm⟩
    · subst hk
      refine Or.inl ⟨{ u0 with owner_of := u0.owner_of ++ [k] }, ?_, ?_⟩
      · rw [husers]
        exact lookupA_modifyA_self g.users src _ u0 hu
      · exact List.mem_append_right _ (List.mem_singleton.mpr rfl)
  case parentRefs =>
    intro k r t h ht
    rw [hrepos] at h
    have hgoal : containsKey g.users t = true ∨ containsKey g.orgs t = true ∨
        containsKey g.repos t = true →
        containsKey ((g.userAddOwned src tgt).setRepoOwner tgt src).users t = true ∨
        containsKey ((g.userAddOwned src tgt).setRepoOwner tgt src).orgs t = true ∨
        containsKey ((g.userAddOwned src tgt).setRepoOwner tgt src).repos t = true := by
      rintro (h1 | h2 | h3)
      · exact Or.inl (by rw [husers, containsKey_modifyA]; exact h1)
      · exact Or.inr (Or.inl (by rw [horgs]; exact h2))
      · exact Or.inr (Or.inr (by rw [hrepos, containsKey_modifyA]; exact h3))
    rcases lookupA_modifyA_inv _ _ _ _ _ h with ⟨_, h0⟩ | ⟨hk, r1, h0, rfl⟩
    · exact hgoal (hg.parentRefs k r t h0 ht)
    · exact hgoal (hg.parentRefs k r1 t h0 ht)

/-- The `owner_of` branch with an org source preserves the invariant. -/
theorem inv_ownerOrg (g : GraphData) (src tgt : String) (hg : Inv g)
    (hco : containsKey g.orgs src = true) (hcr : containsKey g.repos tgt = true) :
    Inv ((g.orgAddOwned src tgt).setRepoOwner tgt src) := by
  obtain ⟨o0, ho⟩ : ∃ o, lookupA g.orgs src = some o := by
    unfold containsKey at hco
    exact Option.isSome_iff_exists.mp hco
  obtain ⟨r0, hr⟩ : ∃ r, lookupA g.repos tgt = some r := by
    unfold containsKey at hcr
    exact Option.isSome_iff_exists.mp hcr
  have husers : ((g.orgAddOwned src tgt).setRepoOwner tgt src).users = g.users := rfl
  have horgs : ((g.orgAddOwned src tgt).setRepoOwner tgt src).orgs =
      modifyA g.orgs src (fun o => { o with owner_of := o.owner_of ++ [tgt] }) := rfl
  have hrepos : ((g.orgAddOwned src tgt).setRepoOwner tgt src).repos =
      modifyA g.repos tgt (fun r => { r with owner := src }) := rfl
  constructor
  case userName =>
    intro k u h
    rw [husers] at h
    exact hg.userName k u h
  case orgName =>
    intro k o h
    rw [horgs] at h
    rcases lookupA_modifyA_inv _ _ _ _ _ h with ⟨_, h0⟩ | ⟨hk, o1, h0, rfl⟩
    · exact hg.orgName k o h0
    · exact hg.orgName k o1 h0
  case repoName =>
    intro k r h
    rw [hrepos] at h
    rcases lookupA_modifyA_inv _ _ _ _ _ h with ⟨_, h0⟩ | ⟨hk, r1, h0, rfl⟩
    · exact hg.repoName k r h0
    · exact hg.repoName k r1 h0
  case usersNodup => rw [husers]; exact hg.usersNodup
  case orgsNodup => rw [horgs, keysOf_modifyA]; exact hg.orgsNodup
  case reposNodup => rw [hrepos, keysOf_modifyA]; exact hg.reposNodup
  case userOwned =>
    intro k u t h ht
    rw [husers] at h
    rw [hrepos, containsKey_modifyA]
    exact hg.userOwned k u t h ht
  case orgOwned =>
    intro k o t h ht
    rw [horgs] at h
    rw [hrepos, containsKey_modifyA]
    rcases lookupA_modifyA_inv _ _ _ _ _ h with ⟨_, h0⟩ | ⟨hk, o1, h0, rfl⟩
    · exact hg.orgOwned k o t h0 ht
    · rcases List.mem_append.mp ht with ht0 | ht1
      · exact hg.orgOwned k o1 t h0 ht0
      · rw [List.mem_singleton] at ht1
        subst ht1
        exact hcr
  case userContrib =>
    intro k u t h ht
    rw [husers] at h
    obtain ⟨rr, h1, hm⟩ := hg.userContrib k u t h ht
    rcases lookupA_modifyA_transfer g.repos tgt t _ rr h1 with ⟨_, h2⟩ | ⟨_, h2⟩
    · exact ⟨rr, by rw [hrepos]; exact h2, hm⟩
    · exact ⟨{ rr with owner := src }, by rw [hrepos]; exact h2, hm⟩
  case orgContrib =>
    intro k o t h ht
    rw [horgs] at h
    have trans : (∃ rr, lookupA g.repos t = some rr ∧ k ∈ rr.contributors) →
        ∃ rr, lookupA ((g.orgAddOwned src tgt).setRepoOwner tgt src).repos t = some rr ∧
          k ∈ rr.contributors := by
      rintro ⟨rr, h1, hm⟩
      rcases lookupA_modifyA_transfer g.repos tgt t _ rr h1 with ⟨_, h2⟩ | ⟨_, h2⟩
      · exact ⟨rr, by rw [hrepos]; exact h2, hm⟩
      · exact ⟨{ rr with owner := src }, by rw [hrepos]; exact h2, hm⟩
    rcases lookupA_modifyA_inv _ _ _ _ _ h with ⟨_, h0⟩ | ⟨hk, o1, h0, rfl⟩
    · exact trans (hg.orgContrib k o t h0 ht)
    · exact trans (hg.orgContrib k o1 t h0 ht)
  case contribBack =>
    intro k r c h hc
    rw [hrepos] at h
    have trans : ((∃ u, lookupA g.users c = some u ∧ k ∈ u.contributor_of) ∨
        (∃ o, lookupA g.orgs c = some o ∧ k ∈ o.contributor_of)) →
        (∃ u, lookupA ((g.orgAddOwned src tgt).setRepoOwner tgt src).users c = some u ∧
          k ∈ u.contributor_of) ∨
        (∃ o, lookupA ((g.orgAddOwned src tgt).setRepoOwner tgt src).orgs c = some o ∧
          k ∈ o.contributor_of) := by
      rintro (⟨u1, h1, hm⟩ | ⟨o1, h1, hm⟩)
      · exact Or.inl ⟨u1, by rw [husers]; exact h1, hm⟩
      · rcases lookupA_modifyA_transfer g.orgs src c _ o1 h1 with ⟨_, h2⟩ | ⟨_, h2⟩
        · exact Or.inr ⟨o1, by rw [horgs]; exact h2, hm⟩
        · exact Or.inr ⟨{ o1 with owner_of := o1.owner_of ++ [tgt] },
            by rw [horgs]; exact h2, hm⟩
    rcases lookupA_modifyA_inv _ _ _ _ _ h with ⟨_, h0⟩ | ⟨hk, r1, h0, rfl⟩
    · exact trans (hg.contribBack k r c h0 hc)
    · exact trans (hg.contribBack k r1 c h0 hc)
  case memberRefs =>
    intro k o s h hs
    rw [horgs] at h
    rw [husers]
    rcases lookupA_modifyA_inv _ _ _ _ _ h with ⟨_, h0⟩ | ⟨hk, o1, h0, rfl⟩
    · exact hg.memberRefs k o s h0 hs
    · exact hg.memberRefs k o1 s h0 hs
  case ownerBack =>
    intro k r h hw
    rw [hrepos] at h
    rcases lookupA_modifyA_inv _ _ _ _ _ h with ⟨hne, h0⟩ | ⟨hk, r1, h0, rfl⟩
    · rcases hg.ownerBack k r h0 hw with ⟨u1, h1, hm⟩ | ⟨o1, h1, hm⟩
      · exact Or.inl ⟨u1, by rw [husers]; exact h1, hm⟩
      · rcases lookupA_modifyA_transfer g.orgs src r.owner _ o1 h1 with ⟨_, h2⟩ | ⟨_, h2⟩
        · exact Or.inr ⟨o1, by rw [horgs]; exact h2, hm⟩
        · exact Or.inr ⟨{ o1 with owner_of := o1.owner_of ++ [tgt] },
            by rw [horgs]; exact h2, List.mem_append_left _ hm⟩
    · subst hk
      refine Or.inr ⟨{ o0 with owner_of := o0.owner_of ++ [k] }, ?_, ?_⟩
      · rw [horgs]
        exact lookupA_modifyA_self g.orgs src _ o0 ho
      · exact List.mem_append_right _ (List.mem_singleton.mpr rfl)
  case parentRefs =>
    intro k r t h ht
    rw [hrepos] at h
    have hgoal : containsKey g.users t = true ∨ containsKey g.orgs t = true ∨
        containsKey g.repos t = true →
        containsKey ((g.orgAddOwned src tgt).setRepoOwner tgt src).users t = true ∨
        containsKey ((g.orgAddOwned src tgt).setRepoOwner tgt src).orgs t = true ∨
        containsKey ((g.orgAddOwned src tgt).setRepoOwner tgt src).repos t = true := by
      rintro (h1 | h2 | h3)
      · exact Or.inl (by rw [husers]; exact h1)
      · exact Or.inr (Or.inl (by rw [horgs, containsKey_modifyA]; exact h2))
      · exact Or.inr (Or.inr (by rw [hrepos, containsKey_modifyA]; exact h3))
    rcases lookupA_modifyA_inv _ _ _ _ _ h with ⟨_, h0⟩ | ⟨hk, r1, h0, rfl⟩
    · exact hgoal (hg.parentRefs k r t h0 ht)
    · exact hgoal (hg.parentRefs k r1 t h0 ht)

/-- The `contributor_of` branch with a user source preserves the invariant;
the contribution is recorded symmetrically on both endpoints. -/
theorem inv_contribUser (g : GraphData) (src tgt : String) (hg : Inv g)
    (hcu : containsKey g.users src = true) (hcr : containsKey g.repos tgt = true) :
    Inv ((g.userAddContrib src tgt).repoAddContributor tgt src) := by
  obtain ⟨u0, hu⟩ : ∃ u, lookupA g.users src = some u := by
    unfold containsKey at hcu
    exact Option.isSome_iff_exists.mp hcu
  obtain ⟨r0, hr⟩ : ∃ r, lookupA g.repos tgt = some r := by
    unfold containsKey at hcr
    exact Option.isSome_iff_exists.mp hcr
  have husers : ((g.userAddContrib src tgt).repoAddContributor tgt src).users =
      modifyA g.users src (fun u => { u with contributor_of := u.contributor_of ++ [tgt] }) := rfl
  have horgs : ((g.userAddContrib src tgt).repoAddContributor tgt src).orgs = g.orgs := rfl
  have hrepos : ((g.userAddContrib src tgt).repoAddContributor tgt src).repos =
      modifyA g.repos tgt (fun r => { r with contributors := r.contributors ++ [src] }) := rfl
  constructor
  case userName =>
    intro k u h
    rw [husers] at h
    rcases lookupA_modifyA_inv _ _ _ _ _ h with ⟨_, h0⟩ | ⟨hk, u1, h0, rfl⟩
    · exact hg.userName k u h0
    · exact hg.userName k u1 h0
  case orgName =>
    intro k o h
    rw [horgs] at h
    exact hg.orgName k o h
  case repoName =>
    intro k r h
    rw [hrepos] at h
    rcases lookupA_modifyA_inv _ _ _ _ _ h with ⟨_, h0⟩ | ⟨hk, r1, h0, rfl⟩
    · exact hg.repoName k r h0
    · exact hg.repoName k r1 h0
  case usersNodup => rw [husers, keysOf_modifyA]; exact hg.usersNodup
  case orgsNodup => rw [horgs]; exact hg.orgsNodup
  case reposNodup => rw [hrepos, keysOf_modifyA]; exact hg.reposNodup
  case userOwned =>
    intro k u t h ht
    rw [husers] at h
    rw [hrepos, containsKey_modifyA]
    rcases lookupA_modifyA_inv _ _ _ _ _ h with ⟨_, h0⟩ | ⟨hk, u1, h0, rfl⟩
    · exact hg.userOwned k u t h0 ht
    · exact hg.userOwned k u1 t h0 ht
  case orgOwned =>
    intro k o t h ht
    rw [horgs] at h
    rw [hrepos, containsKey_modifyA]
    exact hg.orgOwned k o t h ht
  case userContrib =>
    intro k u t h ht
    rw [husers] at h
    have trans : (∃ rr, lookupA g.repos t = some rr ∧ k ∈ rr.contributors) →
        ∃ rr, lookupA ((g.userAddContrib src tgt).repoAddContributor tgt src).repos t =
          some rr ∧ k ∈ rr.contributors := by
      rintro ⟨rr, h1, hm⟩
      rcases lookupA_modifyA_transfer g.repos tgt t _ rr h1 with ⟨_, h2⟩ | ⟨_, h2⟩
      · exact ⟨rr, by rw [hrepos]; exact h2, hm⟩
      · exact ⟨{ rr with contributors := rr.contributors ++ [src] },
          by rw [hrepos]; exact h2, List.mem_append_left _ hm⟩
    rcases lookupA_modifyA_inv _ _ _ _ _ h with ⟨_, h0⟩ | ⟨hk, u1, h0, rfl⟩
    · exact trans (hg.userContrib k u t h0 ht)
    · rcases List.mem_append.mp ht with ht0 | ht1
      · exact trans (hg.userContrib k u1 t h0 ht0)
      · rw [List.mem_singleton] at ht1
        rw [ht1, hk]
        refine ⟨{ r0 with contributors := r0.contributors ++ [src] }, ?_, ?_⟩
        · rw [hrepos]
          exact lookupA_modifyA_self g.repos tgt _ r0 hr
        · exact List.mem_append_right _ (List.mem_singleton.mpr rfl)
  case orgContrib =>
    intro k o t h ht
    rw [horgs] at h
    obtain ⟨rr, h1, hm⟩ := hg.orgContrib k o t h ht
    rcases lookupA_modifyA_transfer g.repos tgt t _ rr h1 with ⟨_, h2⟩ | ⟨_, h2⟩
    · exact ⟨rr, by rw [hrepos]; exact h2, hm⟩
    · exact ⟨{ rr with contributors := rr.contributors ++ [src] },
        by rw [hrepos]; exact h2, List.mem_append_left _ hm⟩
  case contribBack =>
    intro k r c h hc
    rw [hrepos] at h
    have trans : ((∃ u, lookupA g.users c = some u ∧ k ∈ u.contributor_of) ∨
        (∃ o, lookupA g.orgs c = some o ∧ k ∈ o.contributor_of)) →
        (∃ u, lookupA ((g.userAddContrib src tgt).repoAddContributor tgt src).users c =
          some u ∧ k ∈ u.contributor_of) ∨
        (∃ o, lookupA ((g.userAddContrib src tgt).repoAddContributor tgt src).orgs c =
          some o ∧ k ∈ o.contributor_of) := by
      rintro (⟨u1, h1, hm⟩ | ⟨o1, h1, hm⟩)
      · rcases lookupA_modifyA_transfer g.users src c _ u1 h1 with ⟨_, h2⟩ | ⟨_, h2⟩
        · exact Or.inl ⟨u1, by rw [husers]; exact h2, hm⟩
        · exact Or.inl ⟨{ u1 with contributor_of := u1.contributor_of ++ [tgt] },
            by rw [husers]; exact h2, List.mem_append_left _ hm⟩
      · exact Or.inr ⟨o1, by rw [horgs]; exact h1, hm⟩
    rcases lookupA_modifyA_inv _ _ _ _ _ h with ⟨_, h0⟩ | ⟨hk, r1, h0, rfl⟩
    · exact trans (hg.contribBack k r c h0 hc)
    · rcases List.mem_append.mp hc with hc0 | hc1
      · exact trans (hg.contribBack k r1 c h0 hc0)
      · rw [List.mem_singleton] at hc1
        rw [hc1, hk]
        refine Or.inl ⟨{ u0 with contributor_of := u0.contributor_of ++ [tgt] }, ?_, ?_⟩
        · rw [husers]
          exact lookupA_modifyA_self g.users src _ u0 hu
        · exact List.mem_append_right _ (List.mem_singleton.mpr rfl)
  case memberRefs =>
    intro k o s h hs
    rw [horgs] at h
    rw [husers, containsKey_modifyA]
    exact hg.memberRefs k o s h hs
  case ownerBack =>
    intro k r h hw
    rw [hrepos] at h
    have trans : ((∃ u, lookupA g.users r.owner = some u ∧ k ∈ u.owner_of) ∨
        (∃ o, lookupA g.orgs r.owner = some o ∧ k ∈ o.owner_of)) →
        (∃ u, lookupA ((g.userAddContrib src tgt).repoAddContributor tgt src).users r.owner =
          some u ∧ k ∈ u.owner_of) ∨
        (∃ o, lookupA ((g.userAddContrib src tgt).repoAddContributor tgt src).orgs r.owner =
          some o ∧ k ∈ o.owner_of) := by
      rintro (⟨u1, h1, hm⟩ | ⟨o1, h1, hm⟩)
      · rcases lookupA_modifyA_transfer g.users src r.owner _ u1 h1 with ⟨_, h2⟩ | ⟨_, h2⟩
        · exact Or.inl ⟨u1, by rw [husers]; exact h2, hm⟩
        · exact Or.inl ⟨{ u1 with contributor_of := u1.contributor_of ++ [tgt] },
            by rw [husers]; exact h2, hm⟩
      · exact Or.inr ⟨o1, by rw [horgs]; exact h1, hm⟩
    rcases lookupA_modifyA_inv _ _ _ _ _ h with ⟨_, h0⟩ | ⟨hk, r1, h0, rfl⟩
    · exact trans (hg.ownerBack k r h0 hw)
    · exact trans (hg.ownerBack k r1 h0 hw)
  case parentRefs =>
    intro k r t h ht
    rw [hrepos] at h
    have hgoal : containsKey g.users t = true ∨ containsKey g.orgs t = true ∨
        containsKey g.repos t = true →
        containsKey ((g.userAddContrib src tgt).repoAddContributor tgt src).users t = true ∨
        containsKey ((g.userAddContrib src tgt).repoAddContributor tgt src).orgs t = true ∨
        containsKey ((g.userAddContrib src tgt).repoAddContributor tgt src).repos t = true := by
      rintro (h1 | h2 | h3)
      · exact Or.inl (by rw [husers, containsKey_modifyA]; exact h1)
      · exact Or.inr (Or.inl (by rw [horgs]; exact h2))
      · exact Or.inr (Or.inr (by rw [hrepos, containsKey_modifyA]; exact h3))
    rcases lookupA_modifyA_inv _ _ _ _ _ h with ⟨_, h0⟩ | ⟨hk, r1, h0, rfl⟩
    · exact hgoal (hg.parentRefs k r t h0 ht)
    · exact hgoal (hg.parentRefs k r1 t h0 ht)

/-- The `contributor_of` branch with an org source preserves the invariant. -/
theorem inv_contribOrg (g : GraphData) (src tgt : String) (hg : Inv g)
    (hco : containsKey g.orgs src = true) (hcr : containsKey g.repos tgt = true) :
    Inv ((g.orgAddContrib src tgt).repoAddContributor tgt src) := by
  obtain ⟨o0, ho⟩ : ∃ o, lookupA g.orgs src = some o := by
    unfold containsKey at hco
    exact Option.isSome_iff_exists.mp hco
  obtain ⟨r0, hr⟩ : ∃ r, lookupA g.repos tgt = some r := by
    unfold containsKey at hcr
    exact Option.isSome_iff_exists.mp hcr
  have husers : ((g.orgAddContrib src tgt).repoAddContributor tgt src).users = g.users := rfl
  have horgs : ((g.orgAddContrib src tgt).repoAddContributor tgt src).orgs =
      modifyA g.orgs src (fun o => { o with contributor_of := o.contributor_of ++ [tgt] }) := rfl
  have hrepos : ((g.orgAddContrib src tgt).repoAddContributor tgt src).repos =
      modifyA g.repos tgt (fun r => { r with contributors := r.contributors ++ [src] }) := rfl
  constructor
  case userName =>
    intro k u h
    rw [husers] at h
    exact hg.userName k u h
  case orgName =>
    intro k o h
    rw [horgs] at h
    rcases lookupA_modifyA_inv _ _ _ _ _ h with ⟨_, h0⟩ | ⟨hk, o1, h0, rfl⟩
    · exact hg.orgName k o h0
    · exact hg.orgName k o1 h0
  case repoName =>
    intro k r h
    rw [hrepos] at h
    rcases lookupA_modifyA_inv _ _ _ _ _ h with ⟨_, h0⟩ | ⟨hk, r1, h0, rfl⟩
    · exact hg.repoName k r h0
    · exact hg.repoName k r1 h0
  case usersNodup => rw [husers]; exact hg.usersNodup
  case orgsNodup => rw [horgs, keysOf_modifyA]; exact hg.orgsNodup
  case reposNodup => rw [hrepos, keysOf_modifyA]; exact hg.reposNodup
  case userOwned =>
    intro k u t h ht
    rw [husers] at h
    rw [hrepos, containsKey_modifyA]
    exact hg.userOwned k u t h ht
  case orgOwned =>
    intro k o t h ht
    rw [horgs] at h
    rw [hrepos, containsKey_modifyA]
    rcases lookupA_modifyA_inv _ _ _ _ _ h with ⟨_, h0⟩ | ⟨hk, o1, h0, rfl⟩
    · exact hg.orgOwned k o t h0 ht
    · exact hg.orgOwned k o1 t h0 ht
  case userContrib =>
    intro k u t h ht
    rw [husers] at h
    obtain ⟨rr, h1, hm⟩ := hg.userContrib k u t h ht
    rcases lookupA_modifyA_transfer g.repos tgt t _ rr h1 with ⟨_, h2⟩ | ⟨_, h2⟩
    · exact ⟨rr, by rw [hrepos]; exact h2, hm⟩
    · exact ⟨{ rr with contributors := rr.contributors ++ [src] },
        by rw [hrepos]; exact h2, List.mem_append_left _ hm⟩
  case orgContrib =>
    intro k o t h ht
    rw [horgs] at h
    have trans : (∃ rr, lookupA g.repos t = some rr ∧ k ∈ rr.contributors) →
        ∃ rr, lookupA ((g.orgAddContrib src tgt).repoAddContributor tgt src).repos t =
          some rr ∧ k ∈ rr.contributors := by
      rintro ⟨rr, h1, hm⟩
      rcases lookupA_modifyA_transfer g.repos tgt t _ rr h1 with ⟨_, h2⟩ | ⟨_, h2⟩
      · exact ⟨rr, by rw [hrepos]; exact h2, hm⟩
      · exact ⟨{ rr with contributors := rr.contributors ++ [src] },
          by rw [hrepos]; exact h2, List.mem_append_left _ hm⟩
    rcases lookupA_modifyA_inv _ _ _ _ _ h with ⟨_, h0⟩ | ⟨hk, o1, h0, rfl⟩
    · exact trans (hg.orgContrib k o t h0 ht)
    · rcases List.mem_append.mp ht with ht0 | ht1
      · exact trans (hg.orgContrib k o1 t h0 ht0)
      · rw [List.mem_singleton] at ht1
        rw [ht1, hk]
        refine ⟨{ r0 with contributors := r0.contributors ++ [src] }, ?_, ?_⟩
        · rw [hrepos]
          exact lookupA_modifyA_self g.repos tgt _ r0 hr
        · exact List.mem_append_right _ (List.mem_singleton.mpr rfl)
  case contribBack =>
    intro k r c h hc
    rw [hrepos] at h
    have trans : ((∃ u, lookupA g.users c = some u ∧ k ∈ u.contributor_of) ∨
        (∃ o, lookupA g.orgs c = some o ∧ k ∈ o.contributor_of)) →
        (∃ u, lookupA ((g.orgAddContrib src tgt).repoAddContributor tgt src).users c =
          some u ∧ k ∈ u.contributor_of) ∨
        (∃ o, lookupA ((g.orgAddContrib src tgt).repoAddContributor tgt src).orgs c =
          some o ∧ k ∈ o.contributor_of) := by
      rintro (⟨u1, h1, hm⟩ | ⟨o1, h1, hm⟩)
      · exact Or.inl ⟨u1, by rw [husers]; exact h1, hm⟩
      · rcases lookupA_modifyA_transfer g.orgs src c _ o1 h1 with ⟨_, h2⟩ | ⟨_, h2⟩
        · exact Or.inr ⟨o1, by rw [horgs]; exact h2, hm⟩
        · exact Or.inr ⟨{ o1 with contributor_of := o1.contributor_of ++ [tgt] },
            by rw [horgs]; exact h2, List.mem_append_left _ hm⟩
    rcases lookupA_modifyA_inv _ _ _ _ _ h with ⟨_, h0⟩ | ⟨hk, r1, h0, rfl⟩
    · exact trans (hg.contribBack k r c h0 hc)
    · rcases List.mem_append.mp hc with hc0 | hc1
      · exact trans (hg.contribBack k r1 c h0 hc0)
      · rw [List.mem_singleton] at hc1
        rw [hc1, hk]
        refine Or.inr ⟨{ o0 with contributor_of := o0.contributor_of ++ [tgt] }, ?_, ?_⟩
        · rw [horgs]
          exact lookupA_modifyA_self g.orgs src _ o0 ho
        · exact List.mem_append_right _ (List.mem_singleton.mpr rfl)
  case memberRefs =>
    intro k o s h hs
    rw [horgs] at h
    rw [husers]
    rcases lookupA_modifyA_inv _ _ _ _ _ h with ⟨_, h0⟩ | ⟨hk, o1, h0, rfl⟩
    · exact hg.memberRefs k o s h0 hs
    · exact hg.memberRefs k o1 s h0 hs
  case ownerBack =>
    intro k r h hw
    rw [hrepos] at h
    have trans : ((∃ u, lookupA g.users r.owner = some u ∧ k ∈ u.owner_of) ∨
        (∃ o, lookupA g.orgs r.owner = some o ∧ k ∈ o.owner_of)) →
        (∃ u, lookupA ((g.orgAddContrib src tgt).repoAddContributor tgt src).users r.owner =
          some u ∧ k ∈ u.owner_of) ∨
        (∃ o, lookupA ((g.orgAddContrib src tgt).repoAddContributor tgt src).orgs r.owner =
          some o ∧ k ∈ o.owner_of) := by
      rintro (⟨u1, h1, hm⟩ | ⟨o1, h1, hm⟩)
      · exact Or.inl ⟨u1, by rw [husers]; exact h1, hm⟩
      · rcases lookupA_modifyA_transfer g.orgs src r.owner _ o1 h1 with ⟨_, h2⟩ | ⟨_, h2⟩
        · exact Or.inr ⟨o1, by rw [horgs]; exact h2, hm⟩
        · exact Or.inr ⟨{ o1 with contributor_of := o1.contributor_of ++ [tgt] },
            by rw [horgs]; exact h2, hm⟩
    rcases lookupA_modifyA_inv _ _ _ _ _ h with ⟨_, h0⟩ | ⟨hk, r1, h0, rfl⟩
    · exact trans (hg.ownerBack k r h0 hw)
    · exact trans (hg.ownerBack k r1 h0 hw)
  case parentRefs =>
    intro k r t h ht
    rw [hrepos] at h
    have hgoal : containsKey g.users t = true ∨ containsKey g.orgs t = true ∨
        containsKey g.repos t = true →
        containsKey ((g.orgAddContrib src tgt).repoAddContributor tgt src).users t = true ∨
        containsKey ((g.orgAddContrib src tgt).repoAddContributor tgt src).orgs t = true ∨
        containsKey ((g.orgAddContrib src tgt).repoAddContributor tgt src).repos t = true := by
      rintro (h1 | h2 | h3)
      · exact Or.inl (by rw [husers]; exact h1)
      · exact Or.inr (Or.inl (by rw [horgs, containsKey_modifyA]; exact h2))
      · exact Or.inr (Or.inr (by rw [hrepos, containsKey_modifyA]; exact h3))
    rcases lookupA_modifyA_inv _ _ _ _ _ h with ⟨_, h0⟩ | ⟨hk, r1, h0, rfl⟩
    · exact hgoal (hg.parentRefs k r t h0 ht)
    · exact hgoal (hg.parentRefs k r1 t h0 ht)

theorem isEntityType_cases (t : String) (h : isEntityType t = true) :
    t = "user" ∨ t = "org" ∨ t = "repo" := by
  unfold isEntityType at h
  simp only [Bool.or_eq_true, decide_eq_true_eq] at h
  tauto

theorem inv_addEndpoint (g : GraphData) (ty n : String) (i : Int) (hg : Inv g) :
    Inv (addEndpoint g ty n i) := by
  unfold addEndpoint
  split_ifs with h1 h2
  · exact inv_add_user g n i hg
  · exact inv_add_org g n i hg
  · exact inv_add_repo g n i hg

theorem addEndpoint_users_mono (g : GraphData) (ty n : String) (i : Int) (m : String)
    (h : containsKey g.users m = true) : containsKey (addEndpoint g ty n i).users m = true := by
  unfold addEndpoint
  split_ifs with h1 h2
  · exact add_user_containsKey_mono g n m i h
  · rw [add_org_users]; exact h
  · rw [add_repo_users]; exact h

theorem addEndpoint_orgs_mono (g : GraphData) (ty n : String) (i : Int) (m : String)
    (h : containsKey g.orgs m = true) : containsKey (addEndpoint g ty n i).orgs m = true := by
  unfold addEndpoint
  split_ifs with h1 h2
  · rw [add_user_orgs]; exact h
  · exact add_org_containsKey_mono g n m i h
  · rw [add_repo_orgs]; exact h

theorem addEndpoint_repos_mono (g : GraphData) (ty n : String) (i : Int) (m : String)
    (h : containsKey g.repos m = true) : containsKey (addEndpoint g ty n i).repos m = true := by
  unfold addEndpoint
  split_ifs with h1 h2
  · rw [add_user_repos]; exact h
  · rw [add_org_repos]; exact h
  · exact add_repo_containsKey_mono g n m i h

theorem addEndpoint_self_user (g : GraphData) (ty n : String) (i : Int) (h : ty = "user") :
    containsKey (addEndpoint g ty n i).users n = true := by
  subst h
  unfold addEndpoint
  rw [if_pos rfl]
  exact add_user_containsKey_self g n i

theorem addEndpoint_self_org (g : GraphData) (ty n : String) (i : Int) (h : ty = "org") :
    containsKey (addEndpoint g ty n i).orgs n = true := by
  subst h
  unfold addEndpoint
  rw [if_neg (by decide), if_pos rfl]
  exact add_org_containsKey_self g n i

theorem addEndpoint_self_repo (g : GraphData) (ty n : String) (i : Int) (h : ty = "repo") :
    containsKey (addEndpoint g ty n i).repos n = true := by
  subst h
  unfold addEndpoint
  rw [if_neg (by decide), if_neg (by decide)]
  exact add_repo_containsKey_self g n i

/-- `applyRel` preserves the invariant, given the facts `processRow`
establishes before calling it: both endpoints are resolved in the map of
their (recognized) type. -/
theorem inv_applyRel (g : GraphData) (row : Row) (g' : GraphData) (hg : Inv g)
    (hsu : row.source_type = "user" → containsKey g.users row.source = true)
    (hso : row.source_type = "org" → containsKey g.orgs row.source = true)
    (htu : row.target_type = "user" → containsKey g.users row.target = true)
    (hto : row.target_type = "org" → containsKey g.orgs row.target = true)
    (htr : row.target_type = "repo" → containsKey g.repos row.target = true)
    (htype : isEntityType row.target_type = true)
    (h : applyRel g row = some g') : Inv g' := by
  unfold applyRel at h
  by_cases h1 : row.property = "member_of" ∧ row.source_type = "user" ∧
      row.target_type = "org"
  · rw [if_pos h1] at h
    cases h
    exact inv_orgAddMember g row.target row.source hg (hsu h1.2.1)
  · rw [if_neg h1] at h
    by_cases h2 : row.property = "owner_of"
    · rw [if_pos h2] at h
      by_cases h3 : row.target_type = "repo"
      · rw [if_pos h3] at h
        by_cases h4 : row.source_type = "user"
        · rw [if_pos h4] at h
          cases h
          exact inv_ownerUser g row.source row.target hg (hsu h4) (htr h3)
        · rw [if_neg h4] at h
          by_cases h5 : row.source_type = "org"
          · rw [if_pos h5] at h
            cases h
            exact inv_ownerOrg g row.source row.target hg (hso h5) (htr h3)
          · rw [if_neg h5] at h
            cases h
      · rw [if_neg h3] at h
        cases h
        exact hg
    · rw [if_neg h2] at h
      by_cases h6 : row.property = "contributor_of"
      · rw [if_pos h6] at h
        by_cases h3 : row.target_type = "repo"
        · rw [if_pos h3] at h
          by_cases h4 : row.source_type = "user"
          · rw [if_pos h4] at h
            cases h
            exact inv_contribUser g row.source row.target hg (hsu h4) (htr h3)
          · rw [if_neg h4] at h
            by_cases h5 : row.source_type = "org"
            · rw [if_pos h5] at h
              cases h
              exact inv_contribOrg g row.source row.target hg (hso h5) (htr h3)
            · rw [if_neg h5] at h
              cases h
        · rw [if_neg h3] at h
          cases h
          exact hg
      · rw [if_neg h6] at h
        by_cases h7 : row.property = "parent_of"
        · rw [if_pos h7] at h
          cases hrep : lookupA g.repos row.source with
          | none =>
            rw [hrep] at h
            cases h
          | some r0 =>
            rw [hrep] at h
            cases h
            apply inv_repoAddParent g row.source row.target hg
            rcases isEntityType_cases row.target_type htype with ht | ht | ht
            · exact Or.inl (htu ht)
            · exact Or.inr (Or.inl (hto ht))
            · exact Or.inr (Or.inr (htr ht))
        · rw [if_neg h7] at h
          cases h
          exact hg

/-- One step of the builder loop preserves the invariant. -/
theorem inv_processRow (rels : Schema) (g : GraphData) (row : Row) (g' : GraphData)
    (hg : Inv g) (h : processRow rels g row = some g') : Inv g' := by
  unfold processRow at h
  by_cases hp : ¬ containsKey rels row.property
  · rw [if_pos hp] at h
    cases h
    exact hg
  · rw [if_neg hp] at h
    by_cases hst : ¬ isEntityType row.source_type
    · rw [if_pos hst] at h
      cases h
      exact hg
    · rw [if_neg hst] at h
      simp only [] at h
      by_cases htt : ¬ isEntityType row.target_type
      · rw [if_pos htt] at h
        cases h
        exact inv_addEndpoint g row.source_type row.source row.source_id hg
      · rw [if_neg htt] at h
        rw [Bool.not_eq_true, Bool.not_eq_false] at hst htt
        have hg1 : Inv (addEndpoint g row.source_type row.source row.source_id) :=
          inv_addEndpoint g row.source_type row.source row.source_id hg
        have hg2 : Inv (addEndpoint (addEndpoint g row.source_type row.source row.source_id)
            row.target_type row.target row.target_id) :=
          inv_addEndpoint _ row.target_type row.target row.target_id hg1
        apply inv_applyRel _ row g' hg2 _ _ _ _ _ htt h
        · intro hs
          exact addEndpoint_users_mono _ _ _ _ _
            (addEndpoint_self_user g row.source_type row.source row.source_id hs)
        · intro hs
          exact addEndpoint_orgs_mono _ _ _ _ _
            (addEndpoint_self_org g row.source_type row.source row.source_id hs)
        · intro ht
          exact addEndpoint_self_user _ row.target_type row.target row.target_id ht
        · intro ht
          exact addEndpoint_self_org _ row.target_type row.target row.target_id ht
        · intro ht
          exact addEndpoint_self_repo _ row.target_type row.target row.target_id ht

/-- The builder fold preserves the invariant along any successful run. -/
theorem inv_foldl (rels : Schema) :
    ∀ (rows : List Row) (g g' : GraphData),
      List.foldlM (processRow rels) g rows = some g' → Inv g → Inv g' := by
  intro rows
  induction rows with
  | nil =>
    intro g g' h hg
    simp only [List.foldlM_nil] at h
    cases h
    exact hg
  | cons row rest ih =>
    intro g g' h hg
    simp only [List.foldlM_cons] at h
    cases hstep : processRow rels g row with
    | none => rw [hstep] at h; cases h
    | some g1 =>
      rw [hstep] at h
      exact ih g1 g' h (inv_processRow rels g row g1 hg hstep)

/-- Every graph produced by `df_to_pydantic_models` satisfies the invariant. -/
theorem inv_build (rows : List Row) (rels : Schema) (g : GraphData)
    (h : df_to_pydantic_models rows rels = some g) : Inv g :=
  inv_foldl rels rows GraphData.empty g h inv_empty

/-! ### Characterization of the rows on which the builder raises -/

/-- `applyRel` raises exactly on `owner_of`/`contributor_of` rows whose source
is a repo targeting a repo (`AttributeError`) and on `parent_of` rows whose
source name is not a repo key (`KeyError`). -/
theorem applyRel_none_iff (g : GraphData) (row : Row) :
    applyRel g row = none ↔
      ((row.property = "owner_of" ∧ row.target_type = "repo" ∧
          ¬ row.source_type = "user" ∧ ¬ row.source_type = "org") ∨
       (row.property = "contributor_of" ∧ row.target_type = "repo" ∧
          ¬ row.source_type = "user" ∧ ¬ row.source_type = "org") ∨
       (row.property = "parent_of" ∧ lookupA g.repos row.source = none)) := by
  unfold applyRel
  by_cases h1 : row.property = "member_of" ∧ row.source_type = "user" ∧
      row.target_type = "org"
  · rw [if_pos h1]
    obtain ⟨hp, -, -⟩ := h1
    simp [hp]
  · rw [if_neg h1]
    by_cases h2 : row.property = "owner_of"
    · rw [if_pos h2]
      by_cases h3 : row.target_type = "repo"
      · rw [if_pos h3]
        by_cases h4 : row.source_type = "user"
        · rw [if_pos h4]
          simp [h2, h3, h4]
        · rw [if_neg h4]
          by_cases h5 : row.source_type = "org"
          · rw [if_pos h5]
            simp [h2, h3, h5]
          · rw [if_neg h5]
            simp [h2, h3, h4, h5]
      · rw [if_neg h3]
        simp [h2, h3]
    · rw [if_neg h2]
      by_cases h6 : row.property = "contributor_of"
      · rw [if_pos h6]
        by_cases h3 : row.target_type = "repo"
        · rw [if_pos h3]
          by_cases h4 : row.source_type = "user"
          · rw [if_pos h4]
            simp [h6, h2, h3, h4]
          · rw [if_neg h4]
            by_cases h5 : row.source_type = "org"
            · rw [if_pos h5]
              simp [h6, h2, h3, h5]
            · rw [if_neg h5]
              simp [h6, h2, h3, h4, h5]
        · rw [if_neg h3]
          simp [h6, h2, h3]
      · rw [if_neg h6]
        by_cases h7 : row.property = "parent_of"
        · rw [if_pos h7]
          cases hrep : lookupA g.repos row.source with
          | none => simp [h7, h2, h6, hrep]
          | some r0 => simp [h7, h2, h6, hrep]
        · rw [if_neg h7]
          simp [h2, h6, h7]

/-- `processRow` raises exactly when the row passes all the defensive guards
and then hits one of the two raising situations of the relationship logic. -/
theorem processRow_none_iff (rels : Schema) (g : GraphData) (row : Row) :
    processRow rels g row = none ↔
      (containsKey rels row.property = true ∧ isEntityType row.source_type = true ∧
       isEntityType row.target_type = true ∧
       ((row.property = "owner_of" ∧ row.target_type = "repo" ∧
           row.source_type = "repo") ∨
        (row.property = "contributor_of" ∧ row.target_type = "repo" ∧
           row.source_type = "repo") ∨
        (row.property = "parent_of" ∧
           lookupA (addEndpoint (addEndpoint g row.source_type row.source row.source_id)
             row.target_type row.target row.target_id).repos row.source = none))) := by
  have hrepoiff : ∀ st, isEntityType st = true →
      ((¬ st = "user" ∧ ¬ st = "org") ↔ st = "repo") := by
    intro st hst
    constructor
    · rintro ⟨hu, ho⟩
      rcases isEntityType_cases st hst with h | h | h
      · exact absurd h hu
      · exact absurd h ho
      · exact h
    · intro h
      rw [h]
      exact ⟨by decide, by decide⟩
  unfold processRow
  by_cases hp : ¬ containsKey rels row.property
  · rw [if_pos hp]
    simp only [Bool.not_eq_true] at hp
    simp [hp]
  · rw [if_neg hp]
    rw [Bool.not_eq_true, Bool.not_eq_false] at hp
    by_cases hst : ¬ isEntityType row.source_type
    · rw [if_pos hst]
      simp only [Bool.not_eq_true] at hst
      simp [hp, hst]
    · rw [if_neg hst]
      rw [Bool.not_eq_true, Bool.not_eq_false] at hst
      by_cases htt : ¬ isEntityType row.target_type
      · rw [if_pos htt]
        simp only [Bool.not_eq_true] at htt
        simp [hp, hst, htt]
      · rw [if_neg htt]
        rw [Bool.not_eq_true, Bool.not_eq_false] at htt
        rw [applyRel_none_iff]
        simp only [hrepoiff row.source_type hst]
        simp [hp, hst, htt]

/-- Shorthand for a flat row with zero ids (the id columns are irrelevant to
the relationship logic). -/
def mkRow (s t p st tt : String) : Row :=
  { source := s, target := t, property := p, source_type := st, target_type := tt,
    source_id := 0, target_id := 0 }

/-- C2 (counterexample): the builder does raise on a data-shape error.  A
single `parent_of` row whose source is a user reaches
`graph.repos[source]` with a user name and raises `KeyError`; the embedded
builder returns `none` on it. -/
theorem C2_counterexample :
    df_to_pydantic_models [mkRow "u1" "r" "parent_of" "user" "repo"]
      stdRelationships = none := by
  rfl

/-- C2 (amended): the builder tolerates unrecognized relationship kinds and
unrecognized endpoint types by skipping, and tolerates `member_of` type
mismatches and `owner_of`/`contributor_of` rows with non-repo targets as
no-ops; but it raises (returns `none`) exactly on rows that pass all the
guards and are either `owner_of`/`contributor_of` with a repo source and a
repo target (`AttributeError`: `RepoModel` has no `owner_of`/`contributor_of`
attribute) or `parent_of` with a source that is not a repo key after endpoint
resolution (`KeyError`). -/
theorem C2_amended_raise_characterization (rels : Schema) (g : GraphData) (row : Row) :
    processRow rels g row = none ↔
      (containsKey rels row.property = true ∧ isEntityType row.source_type = true ∧
       isEntityType row.target_type = true ∧
       ((row.property = "owner_of" ∧ row.target_type = "repo" ∧
           row.source_type = "repo") ∨
        (row.property = "contributor_of" ∧ row.target_type = "repo" ∧
           row.source_type = "repo") ∨
        (row.property = "parent_of" ∧
           lookupA (addEndpoint (addEndpoint g row.source_type row.source row.source_id)
             row.target_type row.target row.target_id).repos row.source = none))) :=
  processRow_none_iff rels g row

/-- C5 (counterexample): a row whose target type is unrecognized is not a
complete no-op: the source entity has already been created when the row is
skipped. -/
theorem C5_counterexample :
    processRow stdRelationships GraphData.empty
      (mkRow "u1" "t" "member_of" "user" "banana") =
      some { users := [("u1", { name := "u1", id := 0 })], orgs := [], repos := [] } ∧
    ({ users := [("u1", { name := "u1", id := 0 })], orgs := [], repos := [] } : GraphData) ≠
      GraphData.empty := by
  constructor
  · rfl
  · decide

/-- C5 (amended): a row with an unrecognized relationship kind or an
unrecognized source type leaves the graph completely unchanged; a row with a
recognized kind and source type but an unrecognized target type first
creates/updates the source entity and only then skips the relationship
logic. -/
theorem C5_amended_skip_semantics (rels : Schema) (g : GraphData) (row : Row) :
    ((containsKey rels row.property = false ∨ isEntityType row.source_type = false) →
      processRow rels g row = some g) ∧
    (containsKey rels row.property = true → isEntityType row.source_type = true →
      isEntityType row.target_type = false →
      processRow rels g row =
        some (addEndpoint g row.source_type row.source row.source_id)) := by
  constructor
  · intro h
    unfold processRow
    rcases h with h | h
    · rw [if_pos (by simp [h])]
    · by_cases hp : ¬ containsKey rels row.property
      · rw [if_pos hp]
      · rw [if_neg hp, if_pos (by simp [h])]
  · intro h1 h2 h3
    unfold processRow
    rw [if_neg (by simp [h1]), if_neg (by simp [h2]), if_pos (by simp [h3])]

/-- C5 (witness): both amended cases evaluated on concrete rows. -/
theorem C5_amended_skip_semantics_witness :
    processRow stdRelationships GraphData.empty
      (mkRow "a" "b" "follows" "user" "repo") = some GraphData.empty ∧
    processRow stdRelationships GraphData.empty
      (mkRow "u1" "t" "member_of" "user" "banana") =
      some (addEndpoint GraphData.empty "user" "u1" 0) := by
  constructor
  · exact (C5_amended_skip_semantics stdRelationships GraphData.empty
      (mkRow "a" "b" "follows" "user" "repo")).1 (Or.inl (by decide))
  · exact (C5_amended_skip_semantics stdRelationships GraphData.empty
      (mkRow "u1" "t" "member_of" "user" "banana")).2 (by decide) (by decide) (by decide)

/-! ### Owner tracking (last-writer-wins for `owner_of`) -/

/-- A row that actually writes the `owner` field of the repo named `t`:
a recognized `owner_of` row with a repo target named `t` and a user or org
source (`builder_models.py` lines 49-52). -/
def isOwnerWrite (rels : Schema) (t : String) (row : Row) : Bool :=
  decide (row.property = "owner_of") && containsKey rels row.property &&
  decide (row.target_type = "repo") && decide (row.target = t) &&
  (decide (row.source_type = "user") || decide (row.source_type = "org"))

theorem addEndpoint_repos_transfer (g : GraphData) (ty n : String) (i : Int) (t : String)
    (r : RepoModel) (hr : lookupA g.repos t = some r) :
    ∃ r', lookupA (addEndpoint g ty n i).repos t = some r' ∧ r'.owner = r.owner := by
  unfold addEndpoint
  split_ifs
  · exact ⟨r, by rw [add_user_repos]; exact hr, rfl⟩
  · exact ⟨r, by rw [add_org_repos]; exact hr, rfl⟩
  · obtain ⟨r', h', _, _, how, _⟩ := add_repo_transfer g n i t r hr
    exact ⟨r', h', how⟩

/-- A row that writes the owner of `t` leaves `t`'s owner equal to its own
source name. -/
theorem ownerWrite_effect (rels : Schema) (t : String) (row : Row) (g g' : GraphData)
    (hw : isOwnerWrite rels t row = true) (h : processRow rels g row = some g') :
    ∃ r', lookupA g'.repos t = some r' ∧ r'.owner = row.source := by
  unfold isOwnerWrite at hw
  simp only [Bool.and_eq_true, Bool.or_eq_true, decide_eq_true_eq] at hw
  obtain ⟨⟨⟨⟨hp, hk⟩, ht⟩, htg⟩, hsor⟩ := hw
  unfold processRow at h
  rw [if_neg (by simp [hk])] at h
  have hst : isEntityType row.source_type = true := by
    unfold isEntityType
    rcases hsor with hs | hs <;> simp [hs]
  rw [if_neg (by simp [hst])] at h
  rw [if_neg (by simp [isEntityType, ht])] at h
  unfold applyRel at h
  rw [if_neg (by rw [hp]; rintro ⟨hbad, -⟩; exact absurd hbad (by decide))] at h
  rw [if_pos hp, if_pos ht] at h
  subst htg
  have hpres : containsKey (addEndpoint
      (addEndpoint g row.source_type row.source row.source_id)
      row.target_type row.target row.target_id).repos row.target = true :=
    addEndpoint_self_repo _ row.target_type row.target row.target_id ht
  obtain ⟨r0, hr0⟩ : ∃ r0, lookupA (addEndpoint
      (addEndpoint g row.source_type row.source row.source_id)
      row.target_type row.target row.target_id).repos row.target = some r0 := by
    unfold containsKey at hpres
    exact Option.isSome_iff_exists.mp hpres
  rcases hsor with hs | hs
  · rw [if_pos hs] at h
    cases h
    refine ⟨{ r0 with owner := row.source }, ?_, rfl⟩
    rw [setRepoOwner_repos]
    exact lookupA_modifyA_self _ row.target _ r0 hr0
  · have hsu : ¬ row.source_type = "user" := by
      rw [hs]; decide
    rw [if_neg hsu, if_pos hs] at h
    cases h
    refine ⟨{ r0 with owner := row.source }, ?_, rfl⟩
    rw [setRepoOwner_repos]
    exact lookupA_modifyA_self _ row.target _ r0 hr0

/-- A row that does not write the owner of `t` keeps `t` present with its
owner unchanged. -/
theorem ownerWrite_frame (rels : Schema) (t : String) (row : Row) (g g' : GraphData)
    (r : RepoModel) (hw : isOwnerWrite rels t row = false)
    (h : processRow rels g row = some g') (hr : lookupA g.repos t = some r) :
    ∃ r', lookupA g'.repos t = some r' ∧ r'.owner = r.owner := by
  unfold processRow at h
  by_cases hk : ¬ containsKey rels row.property
  · rw [if_pos hk] at h
    cases h
    exact ⟨r, hr, rfl⟩
  · rw [if_neg hk] at h
    rw [Bool.not_eq_true, Bool.not_eq_false] at hk
    by_cases hst : ¬ isEntityType row.source_type
    · rw [if_pos hst] at h
      cases h
      exact ⟨r, hr, rfl⟩
    · rw [if_neg hst] at h
      rw [Bool.not_eq_true, Bool.not_eq_false] at hst
      obtain ⟨r1, hr1, how1⟩ :=
        addEndpoint_repos_transfer g row.source_type row.source row.source_id t r hr
      by_cases htt : ¬ isEntityType row.target_type
      · rw [if_pos htt] at h
        cases h
        exact ⟨r1, hr1, how1⟩
      · rw [if_neg htt] at h
        rw [Bool.not_eq_true, Bool.not_eq_false] at htt
        obtain ⟨r2, hr2, how2⟩ :=
          addEndpoint_repos_transfer _ row.target_type row.target row.target_id t r1 hr1
        have how : r2.owner = r.owner := by rw [how2, how1]
        unfold applyRel at h
        by_cases h1 : row.property = "member_of" ∧ row.source_type = "user" ∧
            row.target_type = "org"
        · rw [if_pos h1] at h
          cases h
          exact ⟨r2, hr2, how⟩
        · rw [if_neg h1] at h
          by_cases h2 : row.property = "owner_of"
          · rw [if_pos h2] at h
            by_cases h3 : row.target_type = "repo"
            · rw [if_pos h3] at h
              have hne : ¬ row.target = t := by
                intro hteq
                by_cases h4 : row.source_type = "user"
                · have : isOwnerWrite rels t row = true := by
                    unfold isOwnerWrite
                    simp [h2, h3, hteq, h4]
                    exact h2 ▸ hk
                  rw [hw] at this
                  cases this
                · by_cases h5 : row.source_type = "org"
                  · have : isOwnerWrite rels t row = true := by
                      unfold isOwnerWrite
                      simp [h2, h3, hteq, h5]
                      exact h2 ▸ hk
                    rw [hw] at this
                    cases this
                  · rw [if_neg h4, if_neg h5] at h
                    cases h
              by_cases h4 : row.source_type = "user"
              · rw [if_pos h4] at h
                cases h
                refine ⟨r2, ?_, how⟩
                rw [setRepoOwner_repos]
                rw [lookupA_modifyA_ne _ row.target t _ hne]
                rw [userAddOwned_repos]
                exact hr2
              · rw [if_neg h4] at h
                by_cases h5 : row.source_type = "org"
                · rw [if_pos h5] at h
                  cases h
                  refine ⟨r2, ?_, how⟩
                  rw [setRepoOwner_repos]
                  rw [lookupA_modifyA_ne _ row.target t _ hne]
                  rw [orgAddOwned_repos]
                  exact hr2
                · rw [if_neg h5] at h
                  cases h
            · rw [if_neg h3] at h
              cases h
              exact ⟨r2, hr2, how⟩
          · rw [if_neg h2] at h
            by_cases h6 : row.property = "contributor_of"
            · rw [if_pos h6] at h
              by_cases h3 : row.target_type = "repo"
              · rw [if_pos h3] at h
                have htrans : ∀ gx : GraphData, lookupA gx.repos t = some r2 →
                    ∃ r', lookupA (gx.repoAddContributor row.target row.source).repos t =
                      some r' ∧ r'.owner = r.owner := by
                  intro gx hx
                  rcases lookupA_modifyA_transfer gx.repos row.target t _ r2 hx with
                    ⟨_, h9⟩ | ⟨_, h9⟩
                  · exact ⟨r2, by rw [repoAddContributor_repos]; exact h9, how⟩
                  · exact ⟨{ r2 with contributors := r2.contributors ++ [row.source] },
                      by rw [repoAddContributor_repos]; exact h9, how⟩
                by_cases h4 : row.source_type = "user"
                · rw [if_pos h4] at h
                  cases h
                  exact htrans _ hr2
                · rw [if_neg h4] at h
                  by_cases h5 : row.source_type = "org"
                  · rw [if_pos h5] at h
                    cases h
                    exact htrans _ hr2
                  · rw [if_neg h5] at h
                    cases h
              · rw [if_neg h3] at h
                cases h
                exact ⟨r2, hr2, how⟩
            · rw [if_neg h6] at h
              by_cases h7 : row.property = "parent_of"
              · rw [if_pos h7] at h
                cases hrep : lookupA (addEndpoint
                    (addEndpoint g row.source_type row.source row.source_id)
                    row.target_type row.target row.target_id).repos row.source with
                | none =>
                  rw [hrep] at h
                  cases h
                | some rp =>
                  rw [hrep] at h
                  cases h
                  rcases lookupA_modifyA_transfer _ row.source t
                      (fun rx => { rx with parent_of := rx.parent_of ++ [row.target] }) r2 hr2
                    with ⟨_, h9⟩ | ⟨_, h9⟩
                  · exact ⟨r2, by rw [repoAddParent_repos]; exact h9, how⟩
                  · exact ⟨{ r2 with parent_of := r2.parent_of ++ [row.target] },
                      by rw [repoAddParent_repos]; exact h9, how⟩
              · rw [if_neg h7] at h
                cases h
                exact ⟨r2, hr2, how⟩

/-- Along a successful run with no owner-writing row for `t`, the repo `t`
stays present with its owner unchanged. -/
theorem ownerFrame_fold (rels : Schema) (t : String) :
    ∀ (rows : List Row) (g g' : GraphData) (r : RepoModel),
      List.foldlM (processRow rels) g rows = some g' →
      rows.filter (isOwnerWrite rels t) = [] →
      lookupA g.repos t = some r →
      ∃ r', lookupA g'.repos t = some r' ∧ r'.owner = r.owner := by
  intro rows
  induction rows with
  | nil =>
    intro g g' r h hf hr
    simp only [List.foldlM_nil] at h
    cases h
    exact ⟨r, hr, rfl⟩
  | cons row rest ih =>
    intro g g' r h hf hr
    simp only [List.foldlM_cons] at h
    cases hstep : processRow rels g row with
    | none => rw [hstep] at h; cases h
    | some g1 =>
      rw [hstep] at h
      rw [List.filter_cons] at hf
      by_cases hw : isOwnerWrite rels t row = true
      · simp [hw] at hf
      · rw [Bool.not_eq_true] at hw
        simp only [hw, Bool.false_eq_true, if_false] at hf
        obtain ⟨r1, hr1, how1⟩ := ownerWrite_frame rels t row g g1 r hw hstep hr
        obtain ⟨r', hr', how'⟩ := ih g1 g' r1 h hf hr1
        exact ⟨r', hr', by rw [how', how1]⟩

/-- Along a successful run, the owner of repo `t` ends up equal to the source
of the last owner-writing row for `t`. -/
theorem ownerWriters_fold (rels : Schema) (t : String) :
    ∀ (rows : List Row) (g g' : GraphData) (lastRow : Row),
      List.foldlM (processRow rels) g rows = some g' →
      (rows.filter (isOwnerWrite rels t)).getLast? = some lastRow →
      ∃ r', lookupA g'.repos t = some r' ∧ r'.owner = lastRow.source := by
  intro rows
  induction rows with
  | nil =>
    intro g g' lastRow h hl
    simp at hl
  | cons row rest ih =>
    intro g g' lastRow h hl
    simp only [List.foldlM_cons] at h
    cases hstep : processRow rels g row with
    | none => rw [hstep] at h; cases h
    | some g1 =>
      rw [hstep] at h
      rw [List.filter_cons] at hl
      by_cases hw : isOwnerWrite rels t row = true
      · rw [if_pos hw] at hl
        cases hrest : rest.filter (isOwnerWrite rels t) with
        | nil =>
          rw [hrest] at hl
          simp only [List.getLast?_singleton, Option.some_inj] at hl
          obtain ⟨r1, hr1, how1⟩ := ownerWrite_effect rels t row g g1 hw hstep
          obtain ⟨r', hr', how'⟩ := ownerFrame_fold rels t rest g1 g' r1 h hrest hr1
          exact ⟨r', hr', by rw [how', how1, hl]⟩
        | cons b l =>
          rw [hrest, List.getLast?_cons_cons, ← hrest] at hl
          exact ih g1 g' lastRow h hl
      · rw [if_neg hw] at hl
        exact ih g1 g' lastRow h hl

/-- C4 (counterexample): the claim quantifies over every sequence containing
an `owner_of` row with a repo target, but a row whose source type is
unrecognized is skipped entirely: after building, no repo entry for the
target exists at all, so its owner is not the row's source. -/
theorem C4_counterexample :
    df_to_pydantic_models [mkRow "x" "r" "owner_of" "banana" "repo"]
      stdRelationships = some GraphData.empty ∧
    lookupA GraphData.empty.repos "r" = none := by
  exact ⟨rfl, rfl⟩

/-- C4 (amended): for every build that succeeds, if the sequence contains
rows that the builder recognizes as owner assignments for repo `t`
(`owner_of` kind present in the schema, repo target named `t`, user or org
source), the built repo entry at `t` exists and its owner is the source name
of the last such row — last writer wins; skipped rows do not count. -/
theorem C4_amended_owner_last_writer (rows : List Row) (rels : Schema) (g : GraphData)
    (t : String) (lastRow : Row)
    (hbuild : df_to_pydantic_models rows rels = some g)
    (hlast : (rows.filter (isOwnerWrite rels t)).getLast? = some lastRow) :
    ∃ r, lookupA g.repos t = some r ∧ r.owner = lastRow.source :=
  ownerWriters_fold rels t rows GraphData.empty g lastRow hbuild hlast

/-- C4 (witness): two competing owners for the same repo; the second one
wins. -/
theorem C4_amended_owner_last_writer_witness :
    ∃ r, lookupA
      ({ users := [("u1", { name := "u1", owner_of := ["r"] }),
                   ("u2", { name := "u2", owner_of := ["r"] })],
         orgs := [],
         repos := [("r", { name := "r", owner := "u2" })] } : GraphData).repos "r" =
        some r ∧
      r.owner = (mkRow "u2" "r" "owner_of" "user" "repo").source :=
  C4_amended_owner_last_writer
    [mkRow "u1" "r" "owner_of" "user" "repo", mkRow "u2" "r" "owner_of" "user" "repo"]
    stdRelationships _ "r" (mkRow "u2" "r" "owner_of" "user" "repo") rfl (by rfl)

/-- The graph built from two competing `owner_of` rows for the same repo. -/
def C1cexGraph : GraphData :=
  { users := [("u1", { name := "u1", owner_of := ["r"] }),
              ("u2", { name := "u2", owner_of := ["r"] })],
    orgs := [],
    repos := [("r", { name := "r", owner := "u2" })] }

/-- C1 (counterexample): with two `owner_of` rows for the same repo, the first
owner's `owner_of` list still names the repo, but the repo's `owner` field
names the second owner — the edge derivable from `u1`'s list is not
reachable from the repo endpoint.  (`member_of` and `parent_of` are not
even stored on both endpoints: `UserModel` has no membership list and the
child repo has no parent field.) -/
theorem C1_counterexample :
    df_to_pydantic_models
      [mkRow "u1" "r" "owner_of" "user" "repo", mkRow "u2" "r" "owner_of" "user" "repo"]
      stdRelationships = some C1cexGraph ∧
    lookupA C1cexGraph.users "u1" = some { name := "u1", owner_of := ["r"] } ∧
    "r" ∈ ({ name := "u1", owner_of := ["r"] } : UserModel).owner_of ∧
    lookupA C1cexGraph.repos "r" = some { name := "r", owner := "u2" } ∧
    ({ name := "r", owner := "u2" } : RepoModel).owner ≠ "u1" := by
  exact ⟨rfl, rfl, by decide, rfl, by decide⟩

/-- C1 (amended): the denormalized-edge round trips that the builder actually
maintains on every successful build: `contributor_of` edges are stored
symmetrically on both endpoints (both directions hold); an entry in an
`owner_of` list names an existing repo, and a repo's non-empty `owner` field
round-trips to a user or org whose `owner_of` list names the repo (the last
asserted owner); `member_of` edges are discoverable from the org's member
list whose entries are existing user keys (the user side stores no
membership list); `parent_of` edges are stored on the parent only. -/
theorem C1_amended_symmetry (rows : List Row) (rels : Schema) (g : GraphData)
    (h : df_to_pydantic_models rows rels = some g) :
    (∀ k u t, lookupA g.users k = some u → t ∈ u.contributor_of →
      ∃ r, lookupA g.repos t = some r ∧ k ∈ r.contributors) ∧
    (∀ k o t, lookupA g.orgs k = some o → t ∈ o.contributor_of →
      ∃ r, lookupA g.repos t = some r ∧ k ∈ r.contributors) ∧
    (∀ k r c, lookupA g.repos k = some r → c ∈ r.contributors →
      (∃ u, lookupA g.users c = some u ∧ k ∈ u.contributor_of) ∨
      (∃ o, lookupA g.orgs c = some o ∧ k ∈ o.contributor_of)) ∧
    (∀ k u t, lookupA g.users k = some u → t ∈ u.owner_of →
      containsKey g.repos t = true) ∧
    (∀ k o t, lookupA g.orgs k = some o → t ∈ o.owner_of →
      containsKey g.repos t = true) ∧
    (∀ k r, lookupA g.repos k = some r → r.owner ≠ "" →
      (∃ u, lookupA g.users r.owner = some u ∧ k ∈ u.owner_of) ∨
      (∃ o, lookupA g.orgs r.owner = some o ∧ k ∈ o.owner_of)) ∧
    (∀ k o s, lookupA g.orgs k = some o → s ∈ o.members →
      containsKey g.users s = true) := by
  have hg := inv_build rows rels g h
  exact ⟨hg.userContrib, hg.orgContrib, hg.contribBack, hg.userOwned, hg.orgOwned,
    hg.ownerBack, hg.memberRefs⟩

/-- The graph built from one `contributor_of` row. -/
def C1witGraph : GraphData :=
  { users := [("u1", { name := "u1", contributor_of := ["r"] })],
    orgs := [],
    repos := [("r", { name := "r", contributors := ["u1"] })] }

/-- C1 (witness): the contributor round trip on a concrete one-row build. -/
theorem C1_amended_symmetry_witness :
    ∃ r, lookupA C1witGraph.repos "r" = some r ∧ "u1" ∈ r.contributors :=
  (C1_amended_symmetry [mkRow "u1" "r" "contributor_of" "user" "repo"]
    stdRelationships C1witGraph rfl).1 "u1" { name := "u1", contributor_of := ["r"] }
    "r" rfl (by decide)

/-- The graph built from one `parent_of` row whose target is a user. -/
def C3cexGraph : GraphData :=
  { users := [("u9", { name := "u9" })],
    orgs := [],
    repos := [("r1", { name := "r1", parent_of := ["u9"] })] }

/-- C3 (counterexample): `parent_of` appends the target name whatever its
type, so a repo's `parent_of` list can name an entity that is not a key of
the repos mapping (here a user): the reference does not resolve in the
type-corresponding mapping. -/
theorem C3_counterexample :
    df_to_pydantic_models [mkRow "r1" "u9" "parent_of" "repo" "user"]
      stdRelationships = some C3cexGraph ∧
    lookupA C3cexGraph.repos "r1" = some { name := "r1", parent_of := ["u9"] } ∧
    "u9" ∈ ({ name := "r1", parent_of := ["u9"] } : RepoModel).parent_of ∧
    lookupA C3cexGraph.repos "u9" = none := by
  exact ⟨rfl, rfl, by decide, rfl⟩

/-- C3 (amended): after every successful build, every referenced name
resolves in the union of the three mappings; moreover it resolves in the
type-corresponding mapping for `owner_of`/`contributor_of` lists (repos),
`members` (users), `contributors` and non-empty `owner` (users or orgs) —
only `parent_of` entries are merely guaranteed to be a key of one of the
three mappings. -/
theorem C3_amended_references_resolve (rows : List Row) (rels : Schema) (g : GraphData)
    (h : df_to_pydantic_models rows rels = some g) :
    (∀ k u t, lookupA g.users k = some u → t ∈ u.owner_of ++ u.contributor_of →
      containsKey g.repos t = true) ∧
    (∀ k o t, lookupA g.orgs k = some o → t ∈ o.owner_of ++ o.contributor_of →
      containsKey g.repos t = true) ∧
    (∀ k o s, lookupA g.orgs k = some o → s ∈ o.members →
      containsKey g.users s = true) ∧
    (∀ k r c, lookupA g.repos k = some r → c ∈ r.contributors →
      containsKey g.users c = true ∨ containsKey g.orgs c = true) ∧
    (∀ k r, lookupA g.repos k = some r → r.owner ≠ "" →
      containsKey g.users r.owner = true ∨ containsKey g.orgs r.owner = true) ∧
    (∀ k r t, lookupA g.repos k = some r → t ∈ r.parent_of →
      containsKey g.users t = true ∨ containsKey g.orgs t = true ∨
      containsKey g.repos t = true) := by
  have hg := inv_build rows rels g h
  refine ⟨?_, ?_, hg.memberRefs, ?_, ?_, hg.parentRefs⟩
  · intro k u t hk ht
    rcases List.mem_append.mp ht with h1 | h2
    · exact hg.userOwned k u t hk h1
    · obtain ⟨r, hr, -⟩ := hg.userContrib k u t hk h2
      unfold containsKey
      rw [hr]
      rfl
  · intro k o t hk ht
    rcases List.mem_append.mp ht with h1 | h2
    · exact hg.orgOwned k o t hk h1
    · obtain ⟨r, hr, -⟩ := hg.orgContrib k o t hk h2
      unfold containsKey
      rw [hr]
      rfl
  · intro k r c hk hc
    rcases hg.contribBack k r c hk hc with ⟨u, hu, -⟩ | ⟨o, ho, -⟩
    · exact Or.inl (by unfold containsKey; rw [hu]; rfl)
    · exact Or.inr (by unfold containsKey; rw [ho]; rfl)
  · intro k r hk hw
    rcases hg.ownerBack k r hk hw with ⟨u, hu, -⟩ | ⟨o, ho, -⟩
    · exact Or.inl (by unfold containsKey; rw [hu]; rfl)
    · exact Or.inr (by unfold containsKey; rw [ho]; rfl)

/-- C3 (witness): the union-resolution conclusion on the concrete
`parent_of`-to-a-user build. -/
theorem C3_amended_references_resolve_witness :
    containsKey C3cexGraph.users "u9" = true ∨ containsKey C3cexGraph.orgs "u9" = true ∨
    containsKey C3cexGraph.repos "u9" = true :=
  (C3_amended_references_resolve [mkRow "r1" "u9" "parent_of" "repo" "user"]
    stdRelationships C3cexGraph rfl).2.2.2.2.2 "r1"
    { name := "r1", parent_of := ["u9"] } "u9" rfl (by decide)

/-! ### Id merging on repeated names (C6) -/

theorem add_user_id_of_present (g : GraphData) (n : String) (i : Int) (u : UserModel)
    (h : lookupA g.users n = some u) :
    lookupA (g.add_user n i).users n = some { u with id := if i = 0 then u.id else i } := by
  unfold GraphData.add_user
  rw [h]
  by_cases hi : i = 0
  · rw [if_neg (by simp [hi])]
    rw [h]
    simp [hi]
  · rw [if_pos hi]
    rw [lookupA_modifyA_self g.users n _ u h]
    simp [hi]

theorem add_user_keys_of_present (g : GraphData) (n : String) (i : Int) (u : UserModel)
    (h : lookupA g.users n = some u) :
    keysOf (g.add_user n i).users = keysOf g.users := by
  unfold GraphData.add_user
  rw [h]
  by_cases hi : i = 0
  · rw [if_neg (by simp [hi])]
  · rw [if_pos hi]
    exact keysOf_modifyA g.users n _

/-- Folding further `add_user` occurrences over an already-present name: the
stored id becomes the last non-zero occurrence (zero occurrences never
overwrite), and the key list is unchanged. -/
theorem add_user_fold_present (n : String) :
    ∀ (occs : List Int) (g : GraphData) (u : UserModel),
      lookupA g.users n = some u →
      ∃ u', lookupA (occs.foldl (fun gx j => gx.add_user n j) g).users n = some u' ∧
        u'.id = (occs.filter (fun j => j != 0)).getLastD u.id ∧
        keysOf (occs.foldl (fun gx j => gx.add_user n j) g).users = keysOf g.users := by
  intro occs
  induction occs with
  | nil =>
    intro g u h
    exact ⟨u, h, by simp, rfl⟩
  | cons i rest ih =>
    intro g u h
    have h1 := add_user_id_of_present g n i u h
    obtain ⟨u', h', hid, hkeys⟩ := ih (g.add_user n i) _ h1
    refine ⟨u', by simpa using h', ?_, ?_⟩
    · rw [hid]
      have hvid : ({ u with id := if i = 0 then u.id else i } : UserModel).id =
          if i = 0 then u.id else i := rfl
      rw [hvid, List.filter_cons]
      by_cases hi : i = 0
      · rw [if_pos hi, if_neg (by simp [hi])]
      · rw [if_neg hi, if_pos (by simp [hi]), List.getLastD_cons]
    · rw [List.foldl_cons, hkeys]
      exact add_user_keys_of_present g n i u h

/-- C6: folding a non-empty sequence of id occurrences for one (fresh) user
name yields exactly one entry for that name, whose id is the last non-zero
occurrence when one exists and otherwise the first-seen id (`0`, since only
a zero id can fail to win): occurrences with id `0` never overwrite a stored
id. -/
theorem C6_id_merge_last_nonzero (g0 : GraphData) (n : String) (i : Int)
    (rest : List Int) (h0 : lookupA g0.users n = none) :
    ∃ u, lookupA (((i :: rest).foldl (fun gx j => gx.add_user n j) g0)).users n = some u ∧
      u.id = ((i :: rest).filter (fun j => j != 0)).getLastD ((i :: rest).headD 0) ∧
      (keysOf (((i :: rest).foldl (fun gx j => gx.add_user n j) g0)).users).count n = 1 := by
  have hfresh : lookupA (g0.add_user n i).users n = some { name := n, id := i } := by
    unfold GraphData.add_user
    rw [h0]
    exact lookupA_append_self g0.users n _ h0
  have hkeys1 : keysOf (g0.add_user n i).users = keysOf g0.users ++ [n] := by
    unfold GraphData.add_user
    rw [h0]
    exact keysOf_append g0.users n _
  obtain ⟨u', h', hid, hkeys⟩ := add_user_fold_present n rest (g0.add_user n i) _ hfresh
  refine ⟨u', by simpa using h', ?_, ?_⟩
  · rw [hid]
    have hvid : ({ name := n, id := i } : UserModel).id = i := rfl
    rw [hvid, List.filter_cons, List.headD_cons]
    by_cases hi : i = 0
    · rw [if_neg (by simp [hi])]
    · rw [if_pos (by simp [hi]), List.getLastD_cons]
  · have hnot : n ∉ keysOf g0.users := (lookupA_none_iff_not_mem_keys _ _).mp h0
    rw [List.foldl_cons, hkeys, hkeys1]
    rw [List.count_append]
    rw [List.count_eq_zero.mpr hnot]
    simp

/-- C6 (witness): the occurrence sequence `[5, 0, 7, 0]` ends with id `7`. -/
theorem C6_id_merge_last_nonzero_witness :
    ∃ u, lookupA ((((5 : Int) :: [0, 7, 0]).foldl
        (fun gx j => gx.add_user "alice" j) GraphData.empty)).users "alice" = some u ∧
      u.id = ((((5 : Int) :: [0, 7, 0])).filter (fun j => j != 0)).getLastD
        ((((5 : Int) :: [0, 7, 0])).headD 0) ∧
      (keysOf ((((5 : Int) :: [0, 7, 0]).foldl
        (fun gx j => gx.add_user "alice" j) GraphData.empty)).users).count "alice" = 1 :=
  C6_id_merge_last_nonzero GraphData.empty "alice" 5 [0, 7, 0] rfl

/-! ### The renderer's directed-graph structure (`utils/visualization.py`) -/

/-- The attributes `create_networkx_graph` stores on a node
(`visualization.py` lines 71-90). -/
structure NodeAttr where
  node_type : String
  label : String
  deriving Repr, DecidableEq

/-- An `nx.DiGraph`: insertion-ordered node dictionary and edge dictionary
keyed by the ordered endpoint pair — re-adding an edge overwrites its
attributes, so there is at most one edge per ordered pair. -/
structure DiGraph where
  nodes : List (String × NodeAttr) := []
  edges : List ((String × String) × String) := []
  deriving Repr, DecidableEq

/-- `G.add_node(n, **attrs)`: insert or update, keeping position. -/
def DiGraph.add_node (G : DiGraph) (n : String) (a : NodeAttr) : DiGraph :=
  { G with nodes := dictInsert G.nodes n a }

/-- `nx` auto-adds a missing edge endpoint as a node (with an empty attribute
dictionary; the default attribute here is never observed because every edge
added by `create_networkx_graph` is guarded to existing nodes). -/
def ensureNode (ns : List (String × NodeAttr)) (n : String) : List (String × NodeAttr) :=
  if containsKey ns n then ns else ns ++ [(n, { node_type := "", label := n })]

/-- `G.add_edge(u, v, relationship=rel)`: ensure both endpoints and store the
relationship attribute under the ordered pair, overwriting any previous
edge attribute for the same pair. -/
def DiGraph.add_edge (G : DiGraph) (u v rel : String) : DiGraph :=
  { nodes := ensureNode (ensureNode G.nodes u) v,
    edges := dictInsert G.edges (u, v) rel }

/-- `create_networkx_graph` (`visualization.py` lines 49-178) as invoked with
the default arguments (`visited_nodes=None`, `discovered_nodes=None`, the
call `visualize_clusters` and the plain `visualize_graph(graph, path)` calls
make): one node per entity tagged with its kind, then the edge passes over
users (owner, contributor), orgs (member, owner, contributor) and repos
(contributors with the owner check of lines 146-149, then fork edges). -/
def create_networkx_graph (graph : GraphData) : DiGraph :=
  let G0 : DiGraph := {}
  let G1 := graph.users.foldl
    (fun G p => G.add_node p.2.name { node_type := "user", label := p.2.name }) G0
  let G2 := graph.orgs.foldl
    (fun G p => G.add_node p.2.name { node_type := "org", label := p.2.name }) G1
  let G3 := graph.repos.foldl
    (fun G p => G.add_node p.2.name { node_type := "repo", label := p.2.name }) G2
  let G4 := graph.users.foldl (fun G p =>
    let Ga := p.2.owner_of.foldl (fun G rn =>
      if containsKey graph.repos rn then G.add_edge p.2.name rn "owner_of" else G) G
    p.2.contributor_of.foldl (fun G rn =>
      if containsKey graph.repos rn then G.add_edge p.2.name rn "contributor_of" else G)
      Ga) G3
  let G5 := graph.orgs.foldl (fun G p =>
    let Ga := p.2.members.foldl (fun G m =>
      if containsKey graph.users m then G.add_edge m p.2.name "member_of" else G) G
    let Gb := p.2.owner_of.foldl (fun G rn =>
      if containsKey graph.repos rn then G.add_edge p.2.name rn "owner_of" else G) Ga
    p.2.contributor_of.foldl (fun G rn =>
      if containsKey graph.repos rn then G.add_edge p.2.name rn "contributor_of" else G)
      Gb) G4
  graph.repos.foldl (fun G p =>
    let Ga := p.2.contributors.foldl (fun G c =>
      if containsKey graph.users c || containsKey graph.orgs c then
        (if c = p.2.owner then G.add_edge c p.2.name "owner_of"
         else G.add_edge c p.2.name "contributor_of")
      else G) G
    p.2.parent_of.foldl (fun G item =>
      if containsKey graph.repos item then G.add_edge p.2.name item "parent_of" else G)
      Ga) G5

/-- The observable outcome of one `visualize_graph` call. -/
inductive RenderOutcome where
  | warnedEmpty
  | savedImage (numNodes numEdges : Nat)
  deriving Repr, DecidableEq

/-- The file-writing behavior of `visualize_graph` (`visualization.py` lines
194-202, 578-581): with zero nodes it logs a warning and returns before any
figure is created or file written; otherwise exactly one image is saved. -/
def visualize_graph_outcome (graph : GraphData) : RenderOutcome :=
  let G := create_networkx_graph graph
  if G.nodes.length = 0 then RenderOutcome.warnedEmpty
  else RenderOutcome.savedImage G.nodes.length G.edges.length

/-- C7: building the empty flat-row sequence yields a graph whose three
mappings are all empty, and rendering that graph is a no-op: the renderer
takes the warning path and writes no file. -/
theorem C7_empty_build_render_noop (rels : Schema) :
    df_to_pydantic_models [] rels = some GraphData.empty ∧
    GraphData.empty.users = [] ∧ GraphData.empty.orgs = [] ∧
    GraphData.empty.repos = [] ∧
    visualize_graph_outcome GraphData.empty = RenderOutcome.warnedEmpty :=
  ⟨rfl, rfl, rfl, rfl, rfl⟩

/-! ### The tabular flattener (`utils/builder_dataframe.py`) -/

/-- A node's feature record, as the flattener reads it: only the optional
`name` field is consulted (`features.get("name", fallback)`); `none` models a
record that lacks the `name` key. -/
structure FeatRec where
  name : Option String := none
  deriving Repr, DecidableEq

/-- One `edges_indices[rel][type]` entry: `edge_array[0]` and `edge_array[1]`,
the parallel source/target id arrays. -/
structure EdgeArray where
  src : List Int := []
  tgt : List Int := []
  deriving Repr, DecidableEq

/-- Build a dictionary from a pair list, later pairs overwriting earlier ones
(Python dict-comprehension semantics). -/
def dictOfPairs {κ α : Type} [DecidableEq κ] (l : List (κ × α)) : List (κ × α) :=
  l.foldl (fun m p => dictInsert m p.1 p.2) []

/-- Step 1 of `neo4j_to_dataframe` (`builder_dataframe.py` lines 8-14): per
type, zip the ids with the feature records (`if i < len(features_list)`
truncates exactly like `zip`) into an id-keyed dictionary. -/
def buildNodeLookup (nodes_ids : List (String × List Int))
    (nodes_features : List (String × List FeatRec)) :
    List (String × List (Int × FeatRec)) :=
  nodes_ids.map (fun p => (p.1, dictOfPairs (p.2.zip ((lookupA nodes_features p.1).getD []))))

/-- The synthetic fallback display name `f"{type}_{id}"`. -/
def synthName (ty : String) (nid : Int) : String :=
  ty ++ "_" ++ toString nid

/-- `node_lookup[t].get(nid, {}).get("name", f"{t}_{nid}")`
(`builder_dataframe.py` lines 29-36). -/
def resolveName (d : List (Int × FeatRec)) (ty : String) (nid : Int) : String :=
  match lookupA d nid with
  | none => synthName ty nid
  | some feat =>
    match feat.name with
    | none => synthName ty nid
    | some nm => nm

/-- The `src_names`/`tgt_names` comprehension: `node_lookup[ty]` is evaluated
once per element, so an empty id list raises nothing even when the type is
missing from the lookup, while a non-empty one raises `KeyError` (`none`). -/
def resolveAll (nl : List (String × List (Int × FeatRec))) (ty : String)
    (ids : List Int) : Option (List String) :=
  ids.mapM (fun nid => (lookupA nl ty).map (fun d => resolveName d ty nid))

/-- `neo4j_to_dataframe` (`builder_dataframe.py` lines 4-50): build the node
lookup, then walk the relationship schema; a kind/variant absent from
`edges_indices` is skipped, otherwise the two name comprehensions run and one
flat row is emitted per 4-way-zipped tuple.  `none` models the `KeyError`
raised when a comprehension touches a type absent from the lookup. -/
def neo4j_to_dataframe (nodes_ids : List (String × List Int))
    (nodes_features : List (String × List FeatRec))
    (edges_indices : List (String × List (String × EdgeArray)))
    (relationships : Schema) : Option (List Row) := do
  let nl := buildNodeLookup nodes_ids nodes_features
  let rowss ← relationships.mapM (fun rel =>
    (rel.2.mapM (fun rv : String × RelInfo =>
      match (lookupA edges_indices rel.1).bind (fun sub => lookupA sub rv.1) with
      | none => pure []
      | some ea => do
        let snames ← resolveAll nl rv.2.source ea.src
        let tnames ← resolveAll nl rv.2.target ea.tgt
        pure (((ea.src.zip ea.tgt).zip (snames.zip tnames)).map
          (fun q : (Int × Int) × (String × String) =>
            ({ source := q.2.1, target := q.2.2, property := rel.1,
                       source_type := rv.2.source, target_type := rv.2.target,
                       source_id := q.1.1, target_id := q.1.2 } : Row))))).map List.flatten)
  pure rowss.flatten

/-- The flattening as the spec describes it: for each relationship-kind and
variant present in both schema and extracted edges, one flat row per zipped
(source id, target id) pair, each endpoint id resolved to a display name via
the lookup with the synthetic fallback. -/
def neo4j_to_dataframe_spec (nodes_ids : List (String × List Int))
    (nodes_features : List (String × List FeatRec))
    (edges_indices : List (String × List (String × EdgeArray)))
    (relationships : Schema) : List Row :=
  let nl := buildNodeLookup nodes_ids nodes_features
  (relationships.map (fun rel =>
    (rel.2.map (fun rv =>
      match (lookupA edges_indices rel.1).bind (fun sub => lookupA sub rv.1) with
      | none => []
      | some ea =>
        (ea.src.zip ea.tgt).map (fun p =>
          { source := resolveName ((lookupA nl rv.2.source).getD []) rv.2.source p.1,
            target := resolveName ((lookupA nl rv.2.target).getD []) rv.2.target p.2,
            property := rel.1,
            source_type := rv.2.source, target_type := rv.2.target,
            source_id := p.1, target_id := p.2 }))).flatten)).flatten

theorem mapM_option_eq_map {α β : Type} (f : α → Option β) (g : α → β) :
    ∀ l : List α, (∀ a ∈ l, f a = some (g a)) → l.mapM f = some (l.map g) := by
  intro l
  induction l with
  | nil => intro _; rfl
  | cons a rest ih =>
    intro h
    rw [List.mapM_cons, h a (List.mem_cons_self a rest), ih (fun b hb => h b (List.mem_cons_of_mem a hb))]
    rfl

theorem containsKey_buildNodeLookup (nodes_ids : List (String × List Int))
    (nodes_features : List (String × List FeatRec)) (ty : String) :
    containsKey (buildNodeLookup nodes_ids nodes_features) ty = containsKey nodes_ids ty := by
  induction nodes_ids with
  | nil => rfl
  | cons p rest ih =>
    obtain ⟨k, v⟩ := p
    by_cases hk : k = ty <;>
      simp [buildNodeLookup, containsKey, lookupA, hk] <;>
      simpa [buildNodeLookup, containsKey] using ih

theorem resolveAll_of_containsKey (nl : List (String × List (Int × FeatRec)))
    (ty : String) (ids : List Int) (h : containsKey nl ty = true) :
    resolveAll nl ty ids =
      some (ids.map (resolveName ((lookupA nl ty).getD []) ty)) := by
  obtain ⟨d, hd⟩ : ∃ d, lookupA nl ty = some d := by
    unfold containsKey at h
    exact Option.isSome_iff_exists.mp h
  unfold resolveAll
  apply mapM_option_eq_map
  intro nid _
  rw [hd]
  rfl

theorem zip_names_map {α β γ : Type} (f : α → String) (g : β → String)
    (F : α → β → String → String → γ) :
    ∀ (l₁ : List α) (l₂ : List β),
      (((l₁.zip l₂).zip ((l₁.map f).zip (l₂.map g))).map
        (fun q => F q.1.1 q.1.2 q.2.1 q.2.2)) =
      (l₁.zip l₂).map (fun p => F p.1 p.2 (f p.1) (g p.2)) := by
  intro l₁
  induction l₁ with
  | nil => intro l₂; rfl
  | cons a rest ih =>
    intro l₂
    cases l₂ with
    | nil => rfl
    | cons b rest₂ =>
      simp only [List.zip_cons_cons, List.map_cons]
      rw [← ih rest₂]

/-- C8 (counterexample): when a schema variant has non-empty extracted edge
arrays but its endpoint type is absent from the node lists altogether, the
flattener does not emit synthetic-named rows — the comprehension hits
`node_lookup[src_type]` and raises `KeyError` (modelled `none`). -/
theorem C8_counterexample :
    neo4j_to_dataframe [] []
      [("member_of", [("type1", { src := [1], tgt := [2] })])]
      stdRelationships = none := by
  rfl

/-- C8 (amended): provided every endpoint type named by the schema appears in
the per-type node lists (which the extractor contract guarantees for a
schema-aligned call), the flattener emits exactly one flat row per zipped
(source id, target id) pair of each kind/variant present in both schema and
extracted edges, resolving each id through the lookup; and the resolver
falls back to the synthetic `"{type}_{id}"` name exactly on the two fallback
paths: the id is absent from the lookup, or its feature record lacks a
`name` field. -/
theorem C8_amended_flatten_equiv (nodes_ids : List (String × List Int))
    (nodes_features : List (String × List FeatRec))
    (edges_indices : List (String × List (String × EdgeArray)))
    (relationships : Schema)
    (hk : ∀ rel ∈ relationships, ∀ rv ∈ rel.2,
      containsKey nodes_ids (rv.2 : RelInfo).source = true ∧
      containsKey nodes_ids rv.2.target = true) :
    neo4j_to_dataframe nodes_ids nodes_features edges_indices relationships =
      some (neo4j_to_dataframe_spec nodes_ids nodes_features edges_indices
        relationships) ∧
    (∀ d ty nid, lookupA d nid = none → resolveName d ty nid = synthName ty nid) ∧
    (∀ d ty nid f, lookupA d nid = some f → f.name = none →
      resolveName d ty nid = synthName ty nid) ∧
    (∀ d ty nid f nm, lookupA d nid = some f → f.name = some nm →
      resolveName d ty nid = nm) := by
  refine ⟨?_, ?_, ?_, ?_⟩
  · have houter : relationships.mapM (fun rel =>
        (rel.2.mapM (fun rv : String × RelInfo =>
          match (lookupA edges_indices rel.1).bind (fun sub => lookupA sub rv.1) with
          | none => pure []
          | some ea => do
            let snames ← resolveAll (buildNodeLookup nodes_ids nodes_features)
              rv.2.source ea.src
            let tnames ← resolveAll (buildNodeLookup nodes_ids nodes_features)
              rv.2.target ea.tgt
            pure (((ea.src.zip ea.tgt).zip (snames.zip tnames)).map
              (fun q : (Int × Int) × (String × String) =>
                ({ source := q.2.1, target := q.2.2, property := rel.1,
                   source_type := rv.2.source, target_type := rv.2.target,
                   source_id := q.1.1, target_id := q.1.2 } : Row))))).map List.flatten) =
        some (relationships.map (fun rel =>
          (rel.2.map (fun rv =>
            match (lookupA edges_indices rel.1).bind (fun sub => lookupA sub rv.1) with
            | none => []
            | some ea =>
              (ea.src.zip ea.tgt).map (fun p =>
                { source := resolveName ((lookupA (buildNodeLookup nodes_ids
                    nodes_features) rv.2.source).getD []) rv.2.source p.1,
                  target := resolveName ((lookupA (buildNodeLookup nodes_ids
                    nodes_features) rv.2.target).getD []) rv.2.target p.2,
                  property := rel.1,
                  source_type := rv.2.source, target_type := rv.2.target,
                  source_id := p.1, target_id := p.2 }))).flatten)) := by
      apply mapM_option_eq_map
      intro rel hrel
      have hinner : rel.2.mapM (fun rv : String × RelInfo =>
          match (lookupA edges_indices rel.1).bind (fun sub => lookupA sub rv.1) with
          | none => pure []
          | some ea => do
            let snames ← resolveAll (buildNodeLookup nodes_ids nodes_features)
              rv.2.source ea.src
            let tnames ← resolveAll (buildNodeLookup nodes_ids nodes_features)
              rv.2.target ea.tgt
            pure (((ea.src.zip ea.tgt).zip (snames.zip tnames)).map
              (fun q : (Int × Int) × (String × String) =>
                ({ source := q.2.1, target := q.2.2, property := rel.1,
                   source_type := rv.2.source, target_type := rv.2.target,
                   source_id := q.1.1, target_id := q.1.2 } : Row)))) =
          some (rel.2.map (fun rv =>
            match (lookupA edges_indices rel.1).bind (fun sub => lookupA sub rv.1) with
            | none => []
            | some ea =>
              (ea.src.zip ea.tgt).map (fun p =>
                { source := resolveName ((lookupA (buildNodeLookup nodes_ids
                    nodes_features) rv.2.source).getD []) rv.2.source p.1,
                  target := resolveName ((lookupA (buildNodeLookup nodes_ids
                    nodes_features) rv.2.target).getD []) rv.2.target p.2,
                  property := rel.1,
                  source_type := rv.2.source, target_type := rv.2.target,
                  source_id := p.1, target_id := p.2 }))) := by
        apply mapM_option_eq_map
        intro rv hrv
        obtain ⟨hks, hkt⟩ := hk rel hrel rv hrv
        rw [← containsKey_buildNodeLookup nodes_ids nodes_features rv.2.source] at hks
        rw [← containsKey_buildNodeLookup nodes_ids nodes_features rv.2.target] at hkt
        cases hea : (lookupA edges_indices rel.1).bind (fun sub => lookupA sub rv.1) with
        | none => rfl
        | some ea =>
          dsimp only
          rw [resolveAll_of_containsKey _ _ ea.src hks,
            resolveAll_of_containsKey _ _ ea.tgt hkt]
          exact congrArg some (zip_names_map
            (resolveName ((lookupA (buildNodeLookup nodes_ids nodes_features)
              rv.2.source).getD []) rv.2.source)
            (resolveName ((lookupA (buildNodeLookup nodes_ids nodes_features)
              rv.2.target).getD []) rv.2.target)
            (fun a b sn tn =>
              ({ source := sn, target := tn, property := rel.1,
                 source_type := rv.2.source, target_type := rv.2.target,
                 source_id := a, target_id := b } : Row)) ea.src ea.tgt)
      rw [hinner]
      rfl
    unfold neo4j_to_dataframe neo4j_to_dataframe_spec
    dsimp only
    rw [houter]
    rfl
  · intro d ty nid h
    unfold resolveName
    rw [h]
  · intro d ty nid f h hn
    unfold resolveName
    rw [h]
    dsimp only
    rw [hn]
  · intro d ty nid f nm h hn
    unfold resolveName
    rw [h]
    dsimp only
    rw [hn]

/-- C8 (witness): the amended theorem evaluated on a concrete extractor
output with a named node, a name-less record and an id missing from the
lookup. -/
theorem C8_amended_flatten_equiv_witness :
    neo4j_to_dataframe [("user", [1, 2]), ("repo", [10]), ("org", [])]
      [("user", [{ name := some "alice" }, { name := none }]),
       ("repo", [{ name := some "r1" }])]
      [("contributor_of", [("type1", { src := [1, 2, 3], tgt := [10, 10, 10] })])]
      stdRelationships =
      some (neo4j_to_dataframe_spec [("user", [1, 2]), ("repo", [10]), ("org", [])]
        [("user", [{ name := some "alice" }, { name := none }]),
         ("repo", [{ name := some "r1" }])]
        [("contributor_of", [("type1", { src := [1, 2, 3], tgt := [10, 10, 10] })])]
        stdRelationships) :=
  (C8_amended_flatten_equiv _ _ _ _ (by decide)).1

/-! ### Cluster splitting (`visualize_clusters`, `visualization.py` 592-845) -/

/-- One union step of an undirected connectivity partition: merge every group
touching either endpoint of the edge.  Modelled semantics of the library call
`nx.weakly_connected_components` (an external collaborator of the repository):
the partition of the nodes into the connected components of the underlying
undirected graph, here computed by folding the edges over singleton groups. -/
def mergeStep (groups : List (List String)) (e : String × String) : List (List String) :=
  let t := groups.filter (fun grp => grp.contains e.1 || grp.contains e.2)
  let r := groups.filter (fun grp => !(grp.contains e.1 || grp.contains e.2))
  if t.isEmpty then groups else t.flatten :: r

/-- The weakly connected components of the rendered graph: what
`list(nx.weakly_connected_components(G))` yields, as node-name groups. -/
def weakly_connected_components (G : DiGraph) : List (List String) :=
  (G.edges.map Prod.fst).foldl mergeStep ((keysOf G.nodes).map (fun n => [n]))

/-- Insertion step of the stable size-descending sort that models
`sorted(components, key=len, reverse=True)` (`visualization.py` line 627). -/
def insertComp (a : List String) : List (List String) → List (List String)
  | [] => [a]
  | b :: bs => if a.length ≤ b.length then b :: insertComp a bs else a :: b :: bs

/-- `sorted(components, key=len, reverse=True)`. -/
def sortCompsDesc : List (List String) → List (List String)
  | [] => []
  | a :: rest => insertComp a (sortCompsDesc rest)

/-- `G.subgraph(component)` (`visualization.py` line 628): the induced
subgraph — the component's nodes and every edge with both endpoints inside. -/
def DiGraph.subgraph (G : DiGraph) (comp : List String) : DiGraph :=
  { nodes := G.nodes.filter (fun p => comp.contains p.1),
    edges := G.edges.filter (fun e => comp.contains e.1.1 && comp.contains e.1.2) }

/-- The sequence of cluster images `visualize_clusters` saves, one per
weakly-connected component, largest first (`visualization.py` lines 612-841):
with zero nodes it warns and writes nothing; otherwise it saves exactly one
image per component, each rendering the induced subgraph of its component. -/
def visualize_clusters_images (graph : GraphData) : List DiGraph :=
  let G := create_networkx_graph graph
  if G.nodes.length = 0 then []
  else (sortCompsDesc (weakly_connected_components G)).map (fun comp => G.subgraph comp)

/-! Sorting lemmas -/

theorem insertComp_length (a : List String) :
    ∀ l : List (List String), (insertComp a l).length = l.length + 1 := by
  intro l
  induction l with
  | nil => rfl
  | cons b bs ih =>
    unfold insertComp
    by_cases h : a.length ≤ b.length
    · rw [if_pos h]
      simp [ih]
    · rw [if_neg h]
      simp

theorem sortCompsDesc_length (l : List (List String)) :
    (sortCompsDesc l).length = l.length := by
  induction l with
  | nil => rfl
  | cons a rest ih =>
    unfold sortCompsDesc
    rw [insertComp_length, ih]
    rfl

theorem insertComp_perm (a : List String) :
    ∀ l : List (List String), (insertComp a l).Perm (a :: l) := by
  intro l
  induction l with
  | nil => exact List.Perm.refl _
  | cons b bs ih =>
    unfold insertComp
    by_cases h : a.length ≤ b.length
    · rw [if_pos h]
      exact (ih.cons b).trans (List.Perm.swap a b bs)
    · rw [if_neg h]

theorem sortCompsDesc_perm (l : List (List String)) : (sortCompsDesc l).Perm l := by
  induction l with
  | nil => exact List.Perm.refl _
  | cons a rest ih =>
    unfold sortCompsDesc
    exact (insertComp_perm a (sortCompsDesc rest)).trans (ih.cons a)

/-- Size-descending order. -/
def SizeDesc (l : List (List String)) : Prop :=
  List.Pairwise (fun a b => b.length ≤ a.length) l

theorem sizeDesc_insertComp (a : List String) :
    ∀ l : List (List String), SizeDesc l → SizeDesc (insertComp a l) := by
  intro l
  induction l with
  | nil => intro _; exact List.pairwise_singleton _ _
  | cons b bs ih =>
    intro h
    unfold SizeDesc at h ⊢
    rw [List.pairwise_cons] at h
    obtain ⟨hb, hbs⟩ := h
    unfold insertComp
    by_cases hab : a.length ≤ b.length
    · rw [if_pos hab]
      rw [List.pairwise_cons]
      constructor
      · intro c hc
        have hc2 : c ∈ a :: bs := (insertComp_perm a bs).mem_iff.mp hc
        rcases List.mem_cons.mp hc2 with hc1 | hc1
        · rw [hc1]
          exact hab
        · exact hb c hc1
      · exact ih hbs
    · rw [if_neg hab]
      rw [List.pairwise_cons]
      constructor
      · intro c hc
        rcases List.mem_cons.mp hc with hc | hc
        · rw [hc]
          exact Nat.le_of_not_le hab
        · exact Nat.le_trans (hb c hc) (Nat.le_of_not_le hab)
      · rw [List.pairwise_cons]
        exact ⟨hb, hbs⟩

theorem sizeDesc_sortCompsDesc (l : List (List String)) : SizeDesc (sortCompsDesc l) := by
  induction l with
  | nil => exact List.Pairwise.nil
  | cons a rest ih =>
    unfold sortCompsDesc
    exact sizeDesc_insertComp a (sortCompsDesc rest) ih

/-! Partition invariants of the component computation -/

theorem contains_true_iff (l : List String) (x : String) :
    l.contains x = true ↔ x ∈ l := by
  simp

/-- Pairwise disjointness of the groups. -/
def DisjointGroups (groups : List (List String)) : Prop :=
  List.Pairwise (fun a b => ∀ x, x ∈ a → x ∉ b) groups

theorem disjoint_groups_symmetric :
    Symmetric (fun a b : List String => ∀ x, x ∈ a → x ∉ b) :=
  fun _ _ h x hxb hxa => h x hxa hxb

theorem disjointGroups_pair (groups : List (List String)) (h : DisjointGroups groups)
    (a b : List String) (ha : a ∈ groups) (hb : b ∈ groups) (hab : a ≠ b) :
    ∀ x, x ∈ a → x ∉ b :=
  h.forall disjoint_groups_symmetric ha hb hab

/-- The running state of the component fold: the groups cover exactly the
nodes, are pairwise disjoint and non-empty. -/
structure GroupsPartition (nodes : List String) (groups : List (List String)) : Prop where
  cover : ∀ x, (∃ c ∈ groups, x ∈ c) ↔ x ∈ nodes
  disj : DisjointGroups groups
  nonemp : ∀ c ∈ groups, c ≠ []

theorem groupsInit_partition (nodes : List String) (h : nodes.Nodup) :
    GroupsPartition nodes (nodes.map (fun n => [n])) := by
  constructor
  · intro x
    simp
  · unfold DisjointGroups
    rw [List.pairwise_map]
    refine h.imp ?_
    intro a b hab x hxa hxb
    rw [List.mem_singleton] at hxa hxb
    exact hab (by rw [← hxa, hxb])
  · intro c hc
    rw [List.mem_map] at hc
    obtain ⟨n, -, rfl⟩ := hc
    simp

theorem mergeStep_partition (nodes : List String) (groups : List (List String))
    (e : String × String) (h : GroupsPartition nodes groups) :
    GroupsPartition nodes (mergeStep groups e) := by
  unfold mergeStep
  dsimp only
  by_cases ht : (groups.filter
      (fun grp => grp.contains e.1 || grp.contains e.2)).isEmpty
  · rw [if_pos ht]
    exact h
  · rw [if_neg ht]
    constructor
    · intro x
      rw [← h.cover x]
      constructor
      · rintro ⟨c, hc, hxc⟩
        rcases List.mem_cons.mp hc with rfl | hcr
        · rw [List.mem_flatten] at hxc
          obtain ⟨c', hc', hxc'⟩ := hxc
          exact ⟨c', (List.mem_filter.mp hc').1, hxc'⟩
        · exact ⟨c, (List.mem_filter.mp hcr).1, hxc⟩
      · rintro ⟨c, hc, hxc⟩
        by_cases hpc : (c.contains e.1 || c.contains e.2) = true
        · refine ⟨(groups.filter (fun grp => grp.contains e.1 || grp.contains e.2)).flatten,
            List.mem_cons_self _ _, ?_⟩
          rw [List.mem_flatten]
          exact ⟨c, List.mem_filter.mpr ⟨hc, hpc⟩, hxc⟩
        · refine ⟨c, List.mem_cons_of_mem _ (List.mem_filter.mpr ⟨hc, ?_⟩), hxc⟩
          simp only [Bool.not_eq_true] at hpc
          rw [hpc]
          rfl
    · unfold DisjointGroups
      rw [List.pairwise_cons]
      constructor
      · intro b hb x hxt hxb
        rw [List.mem_flatten] at hxt
        obtain ⟨c, hc, hxc⟩ := hxt
        have hcg := List.mem_filter.mp hc
        have hbg := List.mem_filter.mp hb
        have hcb : c ≠ b := by
          intro hcb
          rw [hcb] at hcg
          have h1 := hcg.2
          have h2 := hbg.2
          rw [h1] at h2
          cases h2
        exact disjointGroups_pair groups h.disj c b hcg.1 hbg.1 hcb x hxc hxb
      · exact h.disj.filter _
    · intro c hc
      rcases List.mem_cons.mp hc with rfl | hcr
      · cases hf : groups.filter (fun grp => grp.contains e.1 || grp.contains e.2) with
        | nil => rw [hf] at ht; simp at ht
        | cons c0 cs =>
          have hcg : c0 ∈ groups := (List.mem_filter.mp (hf ▸ List.mem_cons_self c0 cs)).1
          have hcne := h.nonemp c0 hcg
          intro hflat
          rw [List.flatten_cons] at hflat
          rw [List.append_eq_nil] at hflat
          exact hcne hflat.1
      · exact h.nonemp c (List.mem_filter.mp hcr).1

theorem mergeStep_together (groups : List (List String)) (e : String × String)
    (h1 : ∃ c ∈ groups, e.1 ∈ c) (h2 : ∃ c ∈ groups, e.2 ∈ c) :
    ∃ c ∈ mergeStep groups e, e.1 ∈ c ∧ e.2 ∈ c := by
  obtain ⟨c1, hc1, hx1⟩ := h1
  obtain ⟨c2, hc2, hx2⟩ := h2
  have hp1 : (c1.contains e.1 || c1.contains e.2) = true := by
    rw [Bool.or_eq_true]
    exact Or.inl ((contains_true_iff c1 e.1).mpr hx1)
  have hp2 : (c2.contains e.1 || c2.contains e.2) = true := by
    rw [Bool.or_eq_true]
    exact Or.inr ((contains_true_iff c2 e.2).mpr hx2)
  unfold mergeStep
  dsimp only
  have ht : ¬ (groups.filter
      (fun grp => grp.contains e.1 || grp.contains e.2)).isEmpty = true := by
    intro ht
    rw [List.isEmpty_iff] at ht
    have : c1 ∈ groups.filter (fun grp => grp.contains e.1 || grp.contains e.2) :=
      List.mem_filter.mpr ⟨hc1, hp1⟩
    rw [ht] at this
    cases this
  rw [if_neg ht]
  refine ⟨(groups.filter (fun grp => grp.contains e.1 || grp.contains e.2)).flatten,
    List.mem_cons_self _ _, ?_, ?_⟩
  · rw [List.mem_flatten]
    exact ⟨c1, List.mem_filter.mpr ⟨hc1, hp1⟩, hx1⟩
  · rw [List.mem_flatten]
    exact ⟨c2, List.mem_filter.mpr ⟨hc2, hp2⟩, hx2⟩

theorem mergeStep_mono (groups : List (List String)) (e : String × String)
    (x y : String) (h : ∃ c ∈ groups, x ∈ c ∧ y ∈ c) :
    ∃ c ∈ mergeStep groups e, x ∈ c ∧ y ∈ c := by
  obtain ⟨c, hc, hx, hy⟩ := h
  unfold mergeStep
  dsimp only
  by_cases ht : (groups.filter
      (fun grp => grp.contains e.1 || grp.contains e.2)).isEmpty
  · rw [if_pos ht]
    exact ⟨c, hc, hx, hy⟩
  · rw [if_neg ht]
    by_cases hpc : (c.contains e.1 || c.contains e.2) = true
    · refine ⟨(groups.filter (fun grp => grp.contains e.1 || grp.contains e.2)).flatten,
        List.mem_cons_self _ _, ?_, ?_⟩
      · rw [List.mem_flatten]
        exact ⟨c, List.mem_filter.mpr ⟨hc, hpc⟩, hx⟩
      · rw [List.mem_flatten]
        exact ⟨c, List.mem_filter.mpr ⟨hc, hpc⟩, hy⟩
    · refine ⟨c, List.mem_cons_of_mem _ (List.mem_filter.mpr ⟨hc, ?_⟩), hx, hy⟩
      simp only [Bool.not_eq_true] at hpc
      rw [hpc]
      rfl

theorem foldl_mergeStep_partition (nodes : List String) :
    ∀ (edges : List (String × String)) (groups : List (List String)),
      GroupsPartition nodes groups →
      GroupsPartition nodes (edges.foldl mergeStep groups) := by
  intro edges
  induction edges with
  | nil => intro groups h; exact h
  | cons e rest ih =>
    intro groups h
    exact ih (mergeStep groups e) (mergeStep_partition nodes groups e h)

theorem foldl_mergeStep_mono (x y : String) :
    ∀ (edges : List (String × String)) (groups : List (List String)),
      (∃ c ∈ groups, x ∈ c ∧ y ∈ c) →
      ∃ c ∈ edges.foldl mergeStep groups, x ∈ c ∧ y ∈ c := by
  intro edges
  induction edges with
  | nil => intro groups h; exact h
  | cons e rest ih =>
    intro groups h
    exact ih (mergeStep groups e) (mergeStep_mono groups e x y h)

theorem foldl_mergeStep_together (nodes : List String) :
    ∀ (edges : List (String × String)) (groups : List (List String)),
      GroupsPartition nodes groups →
      ∀ e ∈ edges, e.1 ∈ nodes → e.2 ∈ nodes →
      ∃ c ∈ edges.foldl mergeStep groups, e.1 ∈ c ∧ e.2 ∈ c := by
  intro edges
  induction edges with
  | nil =>
    intro groups _ e he
    cases he
  | cons e0 rest ih =>
    intro groups h e he h1 h2
    rcases List.mem_cons.mp he with rfl | her
    · have hc1 : ∃ c ∈ groups, e.1 ∈ c := (h.cover e.1).mpr h1
      have hc2 : ∃ c ∈ groups, e.2 ∈ c := (h.cover e.2).mpr h2
      exact foldl_mergeStep_mono e.1 e.2 rest (mergeStep groups e)
        (by
          obtain ⟨c, hc, hx1, hx2⟩ := mergeStep_together groups e hc1 hc2
          exact ⟨c, hc, hx1, hx2⟩)
    · exact ih (mergeStep groups e0) (mergeStep_partition nodes groups e0 h) e her h1 h2

/-! Well-formedness of the rendered graph -/

theorem foldl_pres {α β : Type} (P : α → Prop) (f : α → β → α)
    (h : ∀ a b, P a → P (f a b)) :
    ∀ (l : List β) (a : α), P a → P (l.foldl f a) := by
  intro l
  induction l with
  | nil => intro a ha; exact ha
  | cons b rest ih =>
    intro a ha
    exact ih (f a b) (h a b ha)

theorem mem_modifyA_elim {κ α : Type} [DecidableEq κ] (m : List (κ × α)) (k : κ)
    (f : α → α) (q : κ × α) (h : q ∈ modifyA m k f) :
    q ∈ m ∨ ∃ v', (k, v') ∈ m ∧ q = (k, f v') := by
  induction m with
  | nil => cases h
  | cons p rest ih =>
    obtain ⟨k₀, v₀⟩ := p
    unfold modifyA at h
    by_cases hk : k₀ = k
    · rw [if_pos hk] at h
      rcases List.mem_cons.mp h with rfl | hr
      · subst hk
        exact Or.inr ⟨v₀, List.mem_cons_self _ _, rfl⟩
      · rcases ih hr with h1 | ⟨v', hv', rfl⟩
        · exact Or.inl (List.mem_cons_of_mem _ h1)
        · exact Or.inr ⟨v', List.mem_cons_of_mem _ hv', rfl⟩
    · rw [if_neg hk] at h
      rcases List.mem_cons.mp h with rfl | hr
      · exact Or.inl (List.mem_cons_self _ _)
      · rcases ih hr with h1 | ⟨v', hv', rfl⟩
        · exact Or.inl (List.mem_cons_of_mem _ h1)
        · exact Or.inr ⟨v', List.mem_cons_of_mem _ hv', rfl⟩

theorem mem_dictInsert_elim {κ α : Type} [DecidableEq κ] (m : List (κ × α)) (k : κ)
    (v : α) (q : κ × α) (h : q ∈ dictInsert m k v) : q ∈ m ∨ q = (k, v) := by
  unfold dictInsert at h
  by_cases hc : containsKey m k
  · rw [if_pos hc] at h
    rcases mem_modifyA_elim m k _ q h with h1 | ⟨v', _, rfl⟩
    · exact Or.inl h1
    · exact Or.inr rfl
  · rw [if_neg hc] at h
    rcases List.mem_append.mp h with h1 | h1
    · exact Or.inl h1
    · rw [List.mem_singleton] at h1
      exact Or.inr h1

theorem keysOf_dictInsert_cases {κ α : Type} [DecidableEq κ] (m : List (κ × α)) (k : κ)
    (v : α) : keysOf (dictInsert m k v) = keysOf m ∨
      (k ∉ keysOf m ∧ keysOf (dictInsert m k v) = keysOf m ++ [k]) := by
  unfold dictInsert
  by_cases hc : containsKey m k
  · rw [if_pos hc]
    exact Or.inl (keysOf_modifyA m k _)
  · rw [if_neg hc]
    refine Or.inr ⟨?_, keysOf_append m k v⟩
    intro hk
    exact hc ((containsKey_iff_mem_keys m k).mpr hk)

theorem nodup_keys_dictInsert {κ α : Type} [DecidableEq κ] (m : List (κ × α)) (k : κ)
    (v : α) (h : (keysOf m).Nodup) : (keysOf (dictInsert m k v)).Nodup := by
  rcases keysOf_dictInsert_cases m k v with heq | ⟨hnk, heq⟩
  · rw [heq]; exact h
  · rw [heq]
    simpa [List.nodup_append] using ⟨h, hnk⟩

theorem mem_keys_dictInsert_mono {κ α : Type} [DecidableEq κ] (m : List (κ × α)) (k : κ)
    (v : α) (j : κ) (h : j ∈ keysOf m) : j ∈ keysOf (dictInsert m k v) := by
  rcases keysOf_dictInsert_cases m k v with heq | ⟨-, heq⟩
  · rw [heq]; exact h
  · rw [heq]; exact List.mem_append_left _ h

theorem mem_keys_dictInsert_self {κ α : Type} [DecidableEq κ] (m : List (κ × α)) (k : κ)
    (v : α) : k ∈ keysOf (dictInsert m k v) := by
  unfold dictInsert
  by_cases hc : containsKey m k
  · rw [if_pos hc]
    rw [keysOf_modifyA]
    exact (containsKey_iff_mem_keys m k).mp hc
  · rw [if_neg hc, keysOf_append]
    exact List.mem_append_right _ (List.mem_singleton.mpr rfl)

theorem keysOf_ensureNode_cases (ns : List (String × NodeAttr)) (n : String) :
    keysOf (ensureNode ns n) = keysOf ns ∨
      (n ∉ keysOf ns ∧ keysOf (ensureNode ns n) = keysOf ns ++ [n]) := by
  unfold ensureNode
  by_cases hc : containsKey ns n
  · rw [if_pos hc]
    exact Or.inl rfl
  · rw [if_neg hc]
    refine Or.inr ⟨?_, keysOf_append ns n _⟩
    intro hk
    exact hc ((containsKey_iff_mem_keys ns n).mpr hk)

theorem nodup_keys_ensureNode (ns : List (String × NodeAttr)) (n : String)
    (h : (keysOf ns).Nodup) : (keysOf (ensureNode ns n)).Nodup := by
  rcases keysOf_ensureNode_cases ns n with heq | ⟨hnk, heq⟩
  · rw [heq]; exact h
  · rw [heq]
    simpa [List.nodup_append] using ⟨h, hnk⟩

theorem mem_keys_ensureNode_mono (ns : List (String × NodeAttr)) (n j : String)
    (h : j ∈ keysOf ns) : j ∈ keysOf (ensureNode ns n) := by
  rcases keysOf_ensureNode_cases ns n with heq | ⟨-, heq⟩
  · rw [heq]; exact h
  · rw [heq]; exact List.mem_append_left _ h

theorem mem_keys_ensureNode_self (ns : List (String × NodeAttr)) (n : String) :
    n ∈ keysOf (ensureNode ns n) := by
  unfold ensureNode
  by_cases hc : containsKey ns n
  · rw [if_pos hc]
    exact (containsKey_iff_mem_keys ns n).mp hc
  · rw [if_neg hc, keysOf_append]
    exact List.mem_append_right _ (List.mem_singleton.mpr rfl)

/-- Structural sanity of a rendered graph: node keys are duplicate-free and
every stored edge joins existing nodes. -/
structure GraphWF (G : DiGraph) : Prop where
  nodup : (keysOf G.nodes).Nodup
  covered : ∀ e ∈ G.edges, e.1.1 ∈ keysOf G.nodes ∧ e.1.2 ∈ keysOf G.nodes

theorem graphWF_empty : GraphWF {} := by
  constructor
  · exact List.nodup_nil
  · intro e he
    cases he

theorem graphWF_add_node (G : DiGraph) (n : String) (a : NodeAttr) (h : GraphWF G) :
    GraphWF (G.add_node n a) := by
  constructor
  · exact nodup_keys_dictInsert G.nodes n a h.nodup
  · intro e he
    obtain ⟨h1, h2⟩ := h.covered e he
    exact ⟨mem_keys_dictInsert_mono G.nodes n a _ h1,
      mem_keys_dictInsert_mono G.nodes n a _ h2⟩

theorem graphWF_add_edge (G : DiGraph) (u v rel : String) (h : GraphWF G) :
    GraphWF (G.add_edge u v rel) := by
  constructor
  · exact nodup_keys_ensureNode _ v (nodup_keys_ensureNode G.nodes u h.nodup)
  · intro e he
    rcases mem_dictInsert_elim G.edges (u, v) rel e he with h1 | rfl
    · obtain ⟨hc1, hc2⟩ := h.covered e h1
      exact ⟨mem_keys_ensureNode_mono _ v _ (mem_keys_ensureNode_mono G.nodes u _ hc1),
        mem_keys_ensureNode_mono _ v _ (mem_keys_ensureNode_mono G.nodes u _ hc2)⟩
    · exact ⟨mem_keys_ensureNode_mono _ v _ (mem_keys_ensureNode_self G.nodes u),
        mem_keys_ensureNode_self _ v⟩

theorem graphWF_add_edge_if (G : DiGraph) (c : Bool) (u v rel : String) (h : GraphWF G) :
    GraphWF (if c then G.add_edge u v rel else G) := by
  cases c
  · exact h
  · exact graphWF_add_edge G u v rel h

theorem create_networkx_graph_wf (g : GraphData) :
    GraphWF (create_networkx_graph g) := by
  unfold create_networkx_graph
  dsimp only
  apply foldl_pres GraphWF _ ?_ g.repos
  · apply foldl_pres GraphWF _ ?_ g.orgs
    · apply foldl_pres GraphWF _ ?_ g.users
      · apply foldl_pres GraphWF _ ?_ g.repos
        · apply foldl_pres GraphWF _ ?_ g.orgs
          · apply foldl_pres GraphWF _ ?_ g.users _ graphWF_empty
            · intro G p hG
              exact graphWF_add_node G _ _ hG
          · intro G p hG
            exact graphWF_add_node G _ _ hG
        · intro G p hG
          exact graphWF_add_node G _ _ hG
      · intro G p hG
        apply foldl_pres GraphWF _ ?_ p.2.contributor_of
        · apply foldl_pres GraphWF _ ?_ p.2.owner_of _ hG
          · intro G' rn hG'
            exact graphWF_add_edge_if G' _ _ _ _ hG'
        · intro G' rn hG'
          exact graphWF_add_edge_if G' _ _ _ _ hG'
    · intro G p hG
      apply foldl_pres GraphWF _ ?_ p.2.contributor_of
      · apply foldl_pres GraphWF _ ?_ p.2.owner_of
        · apply foldl_pres GraphWF _ ?_ p.2.members _ hG
          · intro G' m hG'
            exact graphWF_add_edge_if G' _ _ _ _ hG'
        · intro G' rn hG'
          exact graphWF_add_edge_if G' _ _ _ _ hG'
      · intro G' rn hG'
        exact graphWF_add_edge_if G' _ _ _ _ hG'
  · intro G p hG
    apply foldl_pres GraphWF _ ?_ p.2.parent_of
    · apply foldl_pres GraphWF _ ?_ p.2.contributors _ hG
      · intro G' c hG'
        by_cases hc : (containsKey g.users c || containsKey g.orgs c) = true
        · rw [if_pos hc]
          by_cases ho : c = p.2.owner
          · rw [if_pos ho]
            exact graphWF_add_edge G' _ _ _ hG'
          · rw [if_neg ho]
            exact graphWF_add_edge G' _ _ _ hG'
        · rw [if_neg hc]
          exact hG'
    · intro G' item hG'
      exact graphWF_add_edge_if G' _ _ _ _ hG'

theorem mergeStep_nil (e : String × String) : mergeStep [] e = [] := rfl

theorem foldl_mergeStep_nil :
    ∀ edges : List (String × String), edges.foldl mergeStep [] = [] := by
  intro edges
  induction edges with
  | nil => rfl
  | cons e rest ih =>
    rw [List.foldl_cons, mergeStep_nil, ih]

/-- C9: for every graph whose rendered directed structure has two or more
weakly-connected components, cluster-splitting produces exactly one output
image per component (the saved list is precisely the induced subgraphs of the
components sorted largest-first): the image count equals the component count,
the rendering order is size-descending over exactly the components, the
components partition the node set with every edge internal to one component,
and each image holds exactly its own component's nodes and the edges with
both endpoints inside it. -/
theorem C9_cluster_per_component (g : GraphData)
    (h2 : 2 ≤ (weakly_connected_components (create_networkx_graph g)).length) :
    visualize_clusters_images g =
      (sortCompsDesc (weakly_connected_components (create_networkx_graph g))).map
        (fun comp => (create_networkx_graph g).subgraph comp) ∧
    (visualize_clusters_images g).length =
      (weakly_connected_components (create_networkx_graph g)).length ∧
    (sortCompsDesc (weakly_connected_components (create_networkx_graph g))).Perm
      (weakly_connected_components (create_networkx_graph g)) ∧
    SizeDesc (sortCompsDesc (weakly_connected_components (create_networkx_graph g))) ∧
    GroupsPartition (keysOf (create_networkx_graph g).nodes)
      (weakly_connected_components (create_networkx_graph g)) ∧
    (∀ e ∈ (create_networkx_graph g).edges,
      ∃ c ∈ weakly_connected_components (create_networkx_graph g),
        e.1.1 ∈ c ∧ e.1.2 ∈ c) ∧
    (∀ comp p, p ∈ ((create_networkx_graph g).subgraph comp).nodes ↔
      p ∈ (create_networkx_graph g).nodes ∧ p.1 ∈ comp) ∧
    (∀ comp e, e ∈ ((create_networkx_graph g).subgraph comp).edges ↔
      e ∈ (create_networkx_graph g).edges ∧ e.1.1 ∈ comp ∧ e.1.2 ∈ comp) := by
  have hwf := create_networkx_graph_wf g
  have hpart : GroupsPartition (keysOf (create_networkx_graph g).nodes)
      (weakly_connected_components (create_networkx_graph g)) := by
    unfold weakly_connected_components
    exact foldl_mergeStep_partition _ _ _ (groupsInit_partition _ hwf.nodup)
  have hne : ¬ (create_networkx_graph g).nodes.length = 0 := by
    intro h0
    have hnil : (create_networkx_graph g).nodes = [] := List.eq_nil_of_length_eq_zero h0
    have hcomps : weakly_connected_components (create_networkx_graph g) = [] := by
      unfold weakly_connected_components
      rw [hnil]
      exact foldl_mergeStep_nil _
    rw [hcomps] at h2
    exact absurd h2 (by decide)
  have himg : visualize_clusters_images g =
      (sortCompsDesc (weakly_connected_components (create_networkx_graph g))).map
        (fun comp => (create_networkx_graph g).subgraph comp) := by
    unfold visualize_clusters_images
    dsimp only
    rw [if_neg hne]
  refine ⟨himg, ?_, sortCompsDesc_perm _, sizeDesc_sortCompsDesc _, hpart, ?_, ?_, ?_⟩
  · rw [himg, List.length_map, sortCompsDesc_length]
  · intro e he
    unfold weakly_connected_components
    exact foldl_mergeStep_together (keysOf (create_networkx_graph g).nodes) _ _
      (groupsInit_partition _ hwf.nodup) e.1 (List.mem_map_of_mem Prod.fst he)
      (hwf.covered e he).1 (hwf.covered e he).2
  · intro comp p
    unfold DiGraph.subgraph
    dsimp only
    rw [List.mem_filter]
    constructor
    · rintro ⟨h1, hb⟩
      exact ⟨h1, (contains_true_iff comp p.1).mp hb⟩
    · rintro ⟨h1, hm⟩
      exact ⟨h1, (contains_true_iff comp p.1).mpr hm⟩
  · intro comp e
    unfold DiGraph.subgraph
    dsimp only
    rw [List.mem_filter, Bool.and_eq_true]
    constructor
    · rintro ⟨h1, hb1, hb2⟩
      exact ⟨h1, (contains_true_iff comp e.1.1).mp hb1, (contains_true_iff comp e.1.2).mp hb2⟩
    · rintro ⟨h1, hm1, hm2⟩
      exact ⟨h1, (contains_true_iff comp e.1.1).mpr hm1, (contains_true_iff comp e.1.2).mpr hm2⟩

/-- A two-component graph: user u1 owns repo r1, org o1 is isolated. -/
def C9witGraph : GraphData :=
  { users := [("u1", { name := "u1", owner_of := ["r1"] })],
    orgs := [("o1", { name := "o1" })],
    repos := [("r1", { name := "r1" })] }

/-- C9 (witness): the two-component graph renders exactly one image per
weakly-connected component. -/
theorem C9_cluster_per_component_witness :
    2 ≤ (weakly_connected_components (create_networkx_graph C9witGraph)).length ∧
    (visualize_clusters_images C9witGraph).length =
      (weakly_connected_components (create_networkx_graph C9witGraph)).length :=
  ⟨by decide, (C9_cluster_per_component C9witGraph (by decide)).2.1⟩

/-! Edge-dictionary lemmas for the uniqueness/priority claim -/

theorem mem_of_lookupA_some {κ α : Type} [DecidableEq κ] {m : List (κ × α)} {k : κ} {v : α}
    (h : lookupA m k = some v) : (k, v) ∈ m := by
  induction m with
  | nil => simp at h
  | cons p rest ih =>
    obtain ⟨k', v'⟩ := p
    rw [lookupA_cons] at h
    by_cases hk : k' = k
    · rw [if_pos hk] at h
      injection h with hv
      rw [← hk, ← hv]
      exact List.mem_cons_self _ _
    · rw [if_neg hk] at h
      exact List.mem_cons_of_mem _ (ih h)

theorem lookupA_dictInsert_self {κ α : Type} [DecidableEq κ] (m : List (κ × α)) (k : κ)
    (v : α) : lookupA (dictInsert m k v) k = some v := by
  unfold dictInsert
  by_cases hc : containsKey m k
  · rw [if_pos hc]
    unfold containsKey at hc
    cases hm : lookupA m k with
    | none => rw [hm] at hc; simp at hc
    | some w => exact lookupA_modifyA_self m k _ w hm
  · rw [if_neg hc]
    apply lookupA_append_self
    unfold containsKey at hc
    cases hm : lookupA m k with
    | none => rfl
    | some w => rw [hm] at hc; simp at hc

theorem lookupA_dictInsert_ne {κ α : Type} [DecidableEq κ] (m : List (κ × α)) (k k' : κ)
    (v : α) (h : k ≠ k') : lookupA (dictInsert m k v) k' = lookupA m k' := by
  unfold dictInsert
  by_cases hc : containsKey m k
  · rw [if_pos hc]
    exact lookupA_modifyA_ne m k k' _ h
  · rw [if_neg hc]
    exact lookupA_append_ne m k k' v h

theorem add_edge_lookup_self (G : DiGraph) (u v rel : String) :
    lookupA (G.add_edge u v rel).edges (u, v) = some rel :=
  lookupA_dictInsert_self G.edges (u, v) rel

theorem add_edge_lookup_ne (G : DiGraph) (u v rel : String) (a b : String)
    (h : (u, v) ≠ (a, b)) :
    lookupA (G.add_edge u v rel).edges (a, b) = lookupA G.edges (a, b) :=
  lookupA_dictInsert_ne G.edges (u, v) (a, b) rel h

theorem edges_nodup_add_edge_if (G : DiGraph) (b : Bool) (u v rel : String)
    (h : (keysOf G.edges).Nodup) :
    (keysOf (if b then G.add_edge u v rel else G).edges).Nodup := by
  cases b
  · exact h
  · exact nodup_keys_dictInsert G.edges (u, v) rel h

/-- `nx.DiGraph` stores at most one edge per ordered node pair: the edge
dictionary the renderer materializes always has duplicate-free keys. -/
theorem create_networkx_graph_edges_nodup (g : GraphData) :
    (keysOf (create_networkx_graph g).edges).Nodup := by
  unfold create_networkx_graph
  dsimp only
  apply foldl_pres (fun G : DiGraph => (keysOf G.edges).Nodup) _ ?_ g.repos
  · apply foldl_pres (fun G : DiGraph => (keysOf G.edges).Nodup) _ ?_ g.orgs
    · apply foldl_pres (fun G : DiGraph => (keysOf G.edges).Nodup) _ ?_ g.users
      · apply foldl_pres (fun G : DiGraph => (keysOf G.edges).Nodup) _ ?_ g.repos
        · apply foldl_pres (fun G : DiGraph => (keysOf G.edges).Nodup) _ ?_ g.orgs
          · apply foldl_pres (fun G : DiGraph => (keysOf G.edges).Nodup) _ ?_ g.users
              ({} : DiGraph) List.nodup_nil
            · intro G p hG
              exact hG
          · intro G p hG
            exact hG
        · intro G p hG
          exact hG
      · intro G p hG
        apply foldl_pres (fun G : DiGraph => (keysOf G.edges).Nodup) _ ?_ p.2.contributor_of
        · apply foldl_pres (fun G : DiGraph => (keysOf G.edges).Nodup) _ ?_ p.2.owner_of _ hG
          · intro G' rn hG'
            exact edges_nodup_add_edge_if G' _ _ _ _ hG'
        · intro G' rn hG'
          exact edges_nodup_add_edge_if G' _ _ _ _ hG'
    · intro G p hG
      apply foldl_pres (fun G : DiGraph => (keysOf G.edges).Nodup) _ ?_ p.2.contributor_of
      · apply foldl_pres (fun G : DiGraph => (keysOf G.edges).Nodup) _ ?_ p.2.owner_of
        · apply foldl_pres (fun G : DiGraph => (keysOf G.edges).Nodup) _ ?_ p.2.members _ hG
          · intro G' m hG'
            exact edges_nodup_add_edge_if G' _ _ _ _ hG'
        · intro G' rn hG'
          exact edges_nodup_add_edge_if G' _ _ _ _ hG'
      · intro G' rn hG'
        exact edges_nodup_add_edge_if G' _ _ _ _ hG'
  · intro G p hG
    apply foldl_pres (fun G : DiGraph => (keysOf G.edges).Nodup) _ ?_ p.2.parent_of
    · apply foldl_pres (fun G : DiGraph => (keysOf G.edges).Nodup) _ ?_ p.2.contributors _ hG
      · intro G' c hG'
        by_cases hc : (containsKey g.users c || containsKey g.orgs c) = true
        · rw [if_pos hc]
          by_cases ho : c = p.2.owner
          · rw [if_pos ho]
            exact nodup_keys_dictInsert G'.edges _ _ hG'
          · rw [if_neg ho]
            exact nodup_keys_dictInsert G'.edges _ _ hG'
        · rw [if_neg hc]
          exact hG'
    · intro G' item hG'
      exact edges_nodup_add_edge_if G' _ _ _ _ hG'

/-- Frame over one repo's contributor pass when the edge of interest targets a
different repo name: every write has the repo's own name as second key
coordinate. -/
theorem contribFold_frame (g : GraphData) (p : String × RepoModel) (c rk : String)
    (hpn : p.2.name ≠ rk) :
    ∀ (cs : List String) (G : DiGraph),
      lookupA ((cs.foldl (fun G x =>
        if containsKey g.users x || containsKey g.orgs x then
          (if x = p.2.owner then G.add_edge x p.2.name "owner_of"
           else G.add_edge x p.2.name "contributor_of")
        else G) G).edges) (c, rk) = lookupA G.edges (c, rk) := by
  intro cs
  induction cs with
  | nil => intro G; rfl
  | cons a rest ih =>
    intro G
    rw [List.foldl_cons, ih]
    by_cases hg : (containsKey g.users a || containsKey g.orgs a) = true
    · rw [if_pos hg]
      by_cases ho : a = p.2.owner
      · rw [if_pos ho]
        exact add_edge_lookup_ne G a p.2.name "owner_of" c rk
          (fun hp => hpn (congrArg Prod.snd hp))
      · rw [if_neg ho]
        exact add_edge_lookup_ne G a p.2.name "contributor_of" c rk
          (fun hp => hpn (congrArg Prod.snd hp))
    · rw [if_neg hg]

/-- Frame over one repo's fork pass when the repo's name differs from the edge
of interest's source: every write has the repo's own name as first key
coordinate. -/
theorem parentFold_frame (g : GraphData) (p : String × RepoModel) (c rk : String)
    (hpn : p.2.name ≠ c) :
    ∀ (items : List String) (G : DiGraph),
      lookupA ((items.foldl (fun G item =>
        if containsKey g.repos item then G.add_edge p.2.name item "parent_of" else G)
        G).edges) (c, rk) = lookupA G.edges (c, rk) := by
  intro items
  induction items with
  | nil => intro G; rfl
  | cons a rest ih =>
    intro G
    rw [List.foldl_cons, ih]
    by_cases hg : containsKey g.repos a = true
    · rw [if_pos hg]
      exact add_edge_lookup_ne G p.2.name a "parent_of" c rk
        (fun hp => hpn (congrArg Prod.fst hp))
    · rw [if_neg hg]

/-- The contributor pass over the repo named `rk` whose owner is `c` leaves the
edge `(c, rk)` carrying `owner_of` whenever it already did or `c` is among the
contributors: a write for `c` takes the owner branch, any other write has a
different first key coordinate. -/
theorem contribFold_owner (g : GraphData) (p : String × RepoModel) (c rk : String)
    (hname : p.2.name = rk) (hown : c = p.2.owner)
    (hguard : (containsKey g.users c || containsKey g.orgs c) = true) :
    ∀ (cs : List String) (G : DiGraph),
      (lookupA G.edges (c, rk) = some "owner_of" ∨ c ∈ cs) →
      lookupA ((cs.foldl (fun G x =>
        if containsKey g.users x || containsKey g.orgs x then
          (if x = p.2.owner then G.add_edge x p.2.name "owner_of"
           else G.add_edge x p.2.name "contributor_of")
        else G) G).edges) (c, rk) = some "owner_of" := by
  intro cs
  induction cs with
  | nil =>
    intro G h
    rcases h with h | h
    · exact h
    · exact absurd h (List.not_mem_nil c)
  | cons a rest ih =>
    intro G h
    rw [List.foldl_cons]
    by_cases hac : a = c
    · have hga : (containsKey g.users a || containsKey g.orgs a) = true := by
        rw [hac]; exact hguard
      have hao : a = p.2.owner := by rw [hac]; exact hown
      refine ih _ (Or.inl ?_)
      dsimp only
      rw [if_pos hga, if_pos hao, ← hac, ← hname]
      exact add_edge_lookup_self G a p.2.name "owner_of"
    · rcases h with hP | hmem
      · refine ih _ (Or.inl ?_)
        dsimp only
        by_cases hg : (containsKey g.users a || containsKey g.orgs a) = true
        · rw [if_pos hg]
          by_cases ho : a = p.2.owner
          · rw [if_pos ho]
            rw [add_edge_lookup_ne G a p.2.name "owner_of" c rk
              (fun hp => hac (congrArg Prod.fst hp))]
            exact hP
          · rw [if_neg ho]
            rw [add_edge_lookup_ne G a p.2.name "contributor_of" c rk
              (fun hp => hac (congrArg Prod.fst hp))]
            exact hP
        · rw [if_neg hg]
          exact hP
      · rcases List.mem_cons.mp hmem with heq | hmem'
        · exact absurd heq.symm hac
        · exact ih _ (Or.inr hmem')

/-- The whole repo edge pass: once the repo entry `(rk, r)` with owner-equal
contributor `c` is processed, the `(c, rk)` edge carries `owner_of` and no
later repo entry can overwrite it (keys are unique and distinct from `c`). -/
theorem reposFold_owner (g : GraphData) (c rk : String) (r : RepoModel)
    (hguard : (containsKey g.users c || containsKey g.orgs c) = true)
    (hmem : c ∈ r.contributors) (hown : c = r.owner) :
    ∀ (l : List (String × RepoModel)) (G : DiGraph),
      (∀ p ∈ l, p.2.name = p.1) →
      (keysOf l).Nodup →
      (∀ p ∈ l, p.1 ≠ c) →
      ((rk, r) ∈ l ∨ (rk ∉ keysOf l ∧ lookupA G.edges (c, rk) = some "owner_of")) →
      lookupA ((l.foldl (fun G p =>
        p.2.parent_of.foldl (fun G item =>
          if containsKey g.repos item then G.add_edge p.2.name item "parent_of" else G)
        (p.2.contributors.foldl (fun G x =>
          if containsKey g.users x || containsKey g.orgs x then
            (if x = p.2.owner then G.add_edge x p.2.name "owner_of"
             else G.add_edge x p.2.name "contributor_of")
          else G) G)) G).edges) (c, rk) = some "owner_of" := by
  intro l
  induction l with
  | nil =>
    intro G _ _ _ h
    rcases h with h | ⟨-, hP⟩
    · exact absurd h (List.not_mem_nil _)
    · exact hP
  | cons p rest ih =>
    intro G hnames hnd hnc h
    rw [List.foldl_cons]
    have hpname : p.2.name = p.1 := hnames p (List.mem_cons_self p rest)
    have hpnc : p.2.name ≠ c := by
      rw [hpname]; exact hnc p (List.mem_cons_self p rest)
    have hnd2 : (p.1 :: keysOf rest).Nodup := hnd
    rw [List.nodup_cons] at hnd2
    obtain ⟨hpnotin, hndrest⟩ := hnd2
    rcases h with hin | ⟨hnk, hP⟩
    · rcases List.mem_cons.mp hin with heq | hin'
      · have h1 : p.1 = rk := by rw [← heq]
        have h2 : p.2 = r := by rw [← heq]
        have hname2 : p.2.name = rk := by rw [hpname, h1]
        have hown2 : c = p.2.owner := by rw [h2]; exact hown
        have hmem2 : c ∈ p.2.contributors := by rw [h2]; exact hmem
        refine ih _ (fun q hq => hnames q (List.mem_cons_of_mem p hq)) hndrest
          (fun q hq => hnc q (List.mem_cons_of_mem p hq)) (Or.inr ⟨?_, ?_⟩)
        · rw [← h1]; exact hpnotin
        · dsimp only
          rw [parentFold_frame g p c rk hpnc]
          exact contribFold_owner g p c rk hname2 hown2 hguard
            p.2.contributors G (Or.inr hmem2)
      · exact ih _ (fun q hq => hnames q (List.mem_cons_of_mem p hq)) hndrest
          (fun q hq => hnc q (List.mem_cons_of_mem p hq)) (Or.inl hin')
    · have hnk2 : rk ∉ p.1 :: keysOf rest := hnk
      rw [List.mem_cons] at hnk2
      push_neg at hnk2
      refine ih _ (fun q hq => hnames q (List.mem_cons_of_mem p hq)) hndrest
        (fun q hq => hnc q (List.mem_cons_of_mem p hq)) (Or.inr ⟨hnk2.2, ?_⟩)
      dsimp only
      rw [parentFold_frame g p c rk hpnc,
        contribFold_frame g p c rk (by rw [hpname]; exact fun he => hnk2.1 he.symm)]
      exact hP

/-- A graph in which the repo `r`'s sole contributor `x` is also its owner,
while a second repo is itself named `x` and forks `r`. -/
def C10cexGraph : GraphData :=
  { users := [("x", { name := "x" })],
    orgs := [],
    repos := [("r", { name := "r", contributors := ["x"], owner := "x" }),
              ("x", { name := "x", parent_of := ["r"] })] }

/-- C10 (counterexample): the contributor `x` of repo `r` equals `r`'s owner,
yet the rendered edge `(x, r)` carries `parent_of`, not `owner_of`: the repo
named `x` is processed later and its fork pass overwrites the ordered pair. -/
theorem C10_counterexample :
    lookupA C10cexGraph.repos "r" =
      some { name := "r", contributors := ["x"], owner := "x" } ∧
    "x" ∈ ({ name := "r", contributors := ["x"], owner := "x" } : RepoModel).contributors ∧
    ({ name := "r", contributors := ["x"], owner := "x" } : RepoModel).owner = "x" ∧
    lookupA (create_networkx_graph C10cexGraph).edges ("x", "r") = some "parent_of" :=
  ⟨by decide, by decide, rfl, by decide⟩

/-- C10 (amended): the renderer's edge dictionary always holds at most one
edge per ordered node pair (duplicate-free keys, any graph); and when a name
`c` in repo `rk`'s contributors equals that repo's owner, the rendered edge
`(c, rk)` carries `owner_of` — provided repo entries are keyed by their own
names without duplicates, `c` passes the users-or-orgs existence guard, and no
repo shares the name `c` (otherwise that repo's fork pass can overwrite the
pair, as the counterexample shows). -/
theorem C10_amended_owner_edge_priority (g : GraphData) (c rk : String) (r : RepoModel)
    (hR : ∀ p ∈ g.repos, p.2.name = p.1)
    (hnd : (keysOf g.repos).Nodup)
    (hr : lookupA g.repos rk = some r)
    (hmem : c ∈ r.contributors) (hown : c = r.owner)
    (hguard : (containsKey g.users c || containsKey g.orgs c) = true)
    (hc : c ∉ keysOf g.repos) :
    (∀ g' : GraphData, (keysOf (create_networkx_graph g').edges).Nodup) ∧
    lookupA (create_networkx_graph g).edges (c, rk) = some "owner_of" := by
  constructor
  · intro g'
    exact create_networkx_graph_edges_nodup g'
  · unfold create_networkx_graph
    dsimp only
    exact reposFold_owner g c rk r hguard hmem hown g.repos _ hR hnd
      (fun p hp he => hc (he ▸ List.mem_map_of_mem Prod.fst hp))
      (Or.inl (mem_of_lookupA_some hr))

/-- One user who is sole contributor and owner of one repo. -/
def C10witGraph : GraphData :=
  { users := [("u1", { name := "u1" })],
    orgs := [],
    repos := [("r1", { name := "r1", contributors := ["u1"], owner := "u1" })] }

/-- C10 (witness): on the one-user one-repo graph the contributor-equals-owner
edge carries `owner_of`. -/
theorem C10_amended_owner_edge_priority_witness :
    (∀ g' : GraphData, (keysOf (create_networkx_graph g').edges).Nodup) ∧
    lookupA (create_networkx_graph C10witGraph).edges ("u1", "r1") = some "owner_of" :=
  C10_amended_owner_edge_priority C10witGraph "u1" "r1"
    { name := "r1", contributors := ["u1"], owner := "u1" }
    (by decide) (by decide) (by decide) (by decide) (by decide) (by decide) (by decide)

end OpenPulse
